import Mathlib

/-!
# COMP0012Language: the grammar of `grammar.js`

The repository is one declarative grammar.  This development embeds it rule by rule:

* the lexical patterns (`identifier`, `dice`, `num`, ...) as regular expressions with an
  executable matcher;
* every syntax rule as a type of concrete syntax trees, one constructor per alternative,
  together with `yield`, the token sequence a tree derives;
* the precedence and associativity annotations as a table, and the way a generated
  parser settles the shift/reduce conflicts they annotate as a predicate on trees.
-/

set_option maxHeartbeats 4000000

namespace COMP0012Language

/-! ## Tokens -/

/-- The tokens the grammar is written over: the anonymous string tokens of the rules
(`"hero"`, `"=>"`, `"["`, ...) and the four named terminals that carry text. -/
inductive Tok where
  | lit (text : String)
  | identifier (text : String)
  | dice (text : String)
  | num (text : String)
  | string (text : String)
deriving DecidableEq, Repr

/-- `_value: choice($.bool, $.dice, $.num, $.string)` with `bool: choice("true", "false")`. -/
inductive Value where
  | bool (b : Bool)
  | dice (text : String)
  | num (text : String)
  | string (text : String)
deriving DecidableEq, Repr

/-- The operator field of the seven `binary_expression` alternatives. -/
inductive BinOp where
  | or | and
  | eq | ne
  | lt | gt | le | ge
  | range
  | add | sub
  | mul | div | mod
deriving DecidableEq, Repr

/-- The operator field of `unary_expression`: `choice("-", "not")`. -/
inductive UnOp where
  | neg | not
deriving DecidableEq, Repr

/-- The string token of a binary operator. -/
def BinOp.text : BinOp → String
  | .or => "or" | .and => "and"
  | .eq => "==" | .ne => "!="
  | .lt => "<" | .gt => ">" | .le => "<=" | .ge => ">="
  | .range => ".."
  | .add => "+" | .sub => "-"
  | .mul => "*" | .div => "/" | .mod => "%"

/-- The number given to `prec.left` in the alternative of `binary_expression` that holds
the operator. -/
def BinOp.level : BinOp → Int
  | .or => 1
  | .and => 2
  | .eq | .ne => 3
  | .lt | .gt | .le | .ge => 4
  | .range => 5
  | .add | .sub => 6
  | .mul | .div | .mod => 7

/-- The string token of a unary operator. -/
def UnOp.text : UnOp → String
  | .neg => "-" | .not => "not"

/-! ## Lexical patterns -/

/-- Regular expressions over characters, with character classes given by a test. -/
inductive Regex where
  | never
  | empty
  | cls (p : Char → Bool)
  | seq (a b : Regex)
  | alt (a b : Regex)
  | star (a : Regex)

namespace Regex

/-- The pattern `a+`. -/
def plus (a : Regex) : Regex := .seq a (.star a)

/-- The pattern `a?`. -/
def opt (a : Regex) : Regex := .alt a .empty

/-- The pattern of one given character. -/
def char (c : Char) : Regex := .cls (fun x => x == c)

/-- Whether the pattern accepts the empty text. -/
def nullable : Regex → Bool
  | never => false
  | empty => true
  | cls _ => false
  | seq a b => a.nullable && b.nullable
  | alt a b => a.nullable || b.nullable
  | star _ => true

/-- The pattern of what may follow the character `c`. -/
def deriv : Regex → Char → Regex
  | never, _ => never
  | empty, _ => never
  | cls p, c => if p c then empty else never
  | seq a b, c => if a.nullable then alt (seq (a.deriv c) b) (b.deriv c) else seq (a.deriv c) b
  | alt a b, c => alt (a.deriv c) (b.deriv c)
  | star a, c => seq (a.deriv c) (star a)

/-- Whether the pattern accepts the whole text. -/
def accepts (r : Regex) : List Char → Bool
  | [] => r.nullable
  | c :: cs => (r.deriv c).accepts cs

/-- The length of the longest beginning of the text that the pattern accepts. -/
def longest (r : Regex) : List Char → Option Nat
  | [] => if r.nullable then some 0 else none
  | c :: cs =>
    match (r.deriv c).longest cs with
    | some n => some (n + 1)
    | none => if r.nullable then some 0 else none

/-- Whether some character class of the pattern holds the character. -/
def mentions : Regex → Char → Bool
  | never, _ => false
  | empty, _ => false
  | cls p, c => p c
  | seq a b, c => a.mentions c || b.mentions c
  | alt a b, c => a.mentions c || b.mentions c
  | star a, c => a.mentions c

/-- The texts a pattern stands for. -/
inductive Matches : Regex → List Char → Prop
  | empty : Matches .empty []
  | cls (p : Char → Bool) (c : Char) : p c = true → Matches (.cls p) [c]
  | seq (a b : Regex) (s t : List Char) : Matches a s → Matches b t → Matches (.seq a b) (s ++ t)
  | left (a b : Regex) (s : List Char) : Matches a s → Matches (.alt a b) s
  | right (a b : Regex) (s : List Char) : Matches b s → Matches (.alt a b) s
  | done (a : Regex) : Matches (.star a) []
  | more (a : Regex) (s t : List Char) : Matches a s → Matches (.star a) t →
      Matches (.star a) (s ++ t)

end Regex

namespace Pattern

/-- The class `[0-9]`. -/
def digit : Regex := .cls Char.isDigit

/-- `identifier: /[A-Za-z_][A-Za-z0-9_]*/`. -/
def identifier : Regex :=
  .seq (.cls (fun c => c.isAlpha || c == '_')) (.star (.cls (fun c => c.isAlphanum || c == '_')))

/-- `dice: /[0-9]+d[0-9]+/`. -/
def dice : Regex := .seq digit.plus (.seq (.char 'd') digit.plus)

/-- `num: /[0-9]+(\.[0-9]+)?/`. -/
def num : Regex := .seq digit.plus (Regex.opt (.seq (.char '.') digit.plus))

/-- The second of the `extras`: `/\s|\\\r?\n/`, with `\s` over the ASCII blanks. -/
def blank : Regex :=
  .alt (.cls (fun c => c ∈ [' ', '\t', '\n', '\r', '\x0b', '\x0c']))
    (.seq (.char '\\') (.seq (Regex.opt (.char '\r')) (.char '\n')))

end Pattern

/-- The better of two candidate matches: the longer one, the first one on a tie. -/
def longer (x y : Option (Nat × (String → Tok))) : Option (Nat × (String → Tok)) :=
  match x, y with
  | some (n, f), some (m, g) => if n < m then some (m, g) else some (n, f)
  | some a, none => some a
  | none, b => b

/-- Modelled from the spec: the lexer is not part of the repository; the spec has it
recognise a dice literal or a number by longest match.  Among the terminals `dice`, `num`
and `identifier`, the one whose pattern accepts the longest non-empty beginning of the text
is taken, and the rest of the text is returned with it. -/
def lexTerminal (s : List Char) : Option (Tok × List Char) :=
  match longer ((Pattern.dice.longest s).map (fun n => (n, Tok.dice)))
      (longer ((Pattern.num.longest s).map (fun n => (n, Tok.num)))
        ((Pattern.identifier.longest s).map (fun n => (n, Tok.identifier)))) with
  | some (n, f) => if n = 0 then none else some (f (String.mk (s.take n)), s.drop n)
  | none => none

/-- Modelled from the spec: the lexer skips blanks between tokens and takes terminals by
`lexTerminal` until the text ends; `fuel` bounds the number of steps. -/
def lexTerminals : Nat → List Char → Option (List Tok)
  | 0, s => if s.isEmpty then some [] else none
  | fuel + 1, s =>
    if s.isEmpty then some []
    else
      match Pattern.blank.longest s with
      | some (n + 1) => lexTerminals fuel (s.drop (n + 1))
      | _ =>
        match lexTerminal s with
        | some (t, rest) => (lexTerminals fuel rest).map (fun ts => t :: ts)
        | none => none

/-- The terminals of a text: every step takes at least one character, so the length of the
text is fuel enough. -/
def tokenizeTerminals (s : String) : Option (List Tok) :=
  lexTerminals s.length s.toList

/-! ## Syntax trees

One type per rule; hidden rules (`_statement`, `_expression`, `_primary_expression`) are
the sum of their alternatives.  `repeat` is a list, `optional` an option (a flag when the
optional part is a lone comma). -/

mutual

/-- `_statement`. -/
inductive Statement where
  | assignment (name : String) (value : Expression)
  | reassignment (target : String) (value : Expression)
  | function_definition (name : String) (parameters : List String) (body : Block)
  | hero_declaration (name : String) (stats : Option StatBlock)
  | enemy_declaration (name : String) (stats : Option StatBlock)
  | item_declaration (name : String) (stats : Option StatBlock)
  | quest_declaration (name : String) (items : List QuestItem)
  | encounter_block (name : String) (body : List Statement)
  | give_statement (item : Expression) (target : Expression)
  | take_statement (item : Expression) (target : Expression)
  | spawn_statement (name : String) (override : Option (Option StatBlock))
  | strike_statement (target : Expression) (weapon : Expression)
  | if_statement (s : IfStatement)
  | while_statement (condition : Expression) (body : Block)
  | for_in_statement (iterator : String) (iterable : Expression) (body : Block)
  | return_statement (value : Option Expression)
  | expression (e : Expression)
  | block (b : Block)

/-- `block: seq("{", repeat($._statement), "}")`. -/
inductive Block where
  | mk (body : List Statement)

/-- `stat_block: seq($.stat_entry, repeat(seq(",", $.stat_entry)), optional(","))`. -/
inductive StatBlock where
  | mk (first : StatEntry) (rest : List StatEntry) (trailing : Bool)

/-- `stat_entry: seq(field("stat", $.identifier), ":", field("value", $._expression))`. -/
inductive StatEntry where
  | mk (stat : String) (value : Expression)

/-- The items of a quest body, `choice($.phase, $._statement)`, with
`phase: seq("phase", field("name", $.string), "{", repeat($._statement), "}")`. -/
inductive QuestItem where
  | phase (name : String) (body : List Statement)
  | statement (s : Statement)

/-- `if_statement`. -/
inductive IfStatement where
  | mk (condition : Expression) (consequence : Block) (alternative : Option Alternative)

/-- The alternative of an `if_statement`: `choice($.if_statement, $.block)`. -/
inductive Alternative where
  | if_statement (s : IfStatement)
  | block (b : Block)

/-- `_expression`; `binary_expression` holds its seven alternatives through `BinOp`, and
`lambda_expression` is split into its two alternatives. -/
inductive Expression where
  | primary (p : PrimaryExpression)
  | binary_expression (left : Expression) (operator : BinOp) (right : Expression)
  | unary_expression (operator : UnOp) (operand : Expression)
  | has_expression (owner : Expression) (item : Expression)
  | lambda_block (parameters : List String) (body : Block)
  | lambda_arrow (parameters : List String) (body : Expression)
  | dialogue (text : String) (choices : List DialogueChoice)
  | skill_check (skill : Expression) (difficulty : Expression)
      (success : CheckClause) (failure : CheckClause)

/-- `dialogue_choice`. -/
inductive DialogueChoice where
  | mk (option : String) (body : Body) (comma : Bool)

/-- The body field of a dialogue choice or check clause: `choice($._expression, $.block)`. -/
inductive Body where
  | expression (e : Expression)
  | block (b : Block)

/-- `check_success` and `check_failure`, which differ in their keyword only. -/
inductive CheckClause where
  | mk (body : Body) (comma : Bool)

/-- `_primary_expression`. -/
inductive PrimaryExpression where
  | value (v : Value)
  | identifier (text : String)
  | grouped_expression (e : Expression)
  | array_expression (elements : List Expression)
  | index_expression (x : IndexExpression)
  | slice_expression (x : SliceExpression)
  | method_call (m : MethodCall)
  | function_call (f : FunctionCall)

/-- `index_expression`. -/
inductive IndexExpression where
  | mk (object : Addressable) (index : Expression)

/-- `slice_expression`. -/
inductive SliceExpression where
  | mk (object : Addressable) (start : Option Expression) (end_ : Option Expression)

/-- The object field of `index_expression` and `slice_expression`:
`choice($.identifier, $.method_call, $.index_expression, $.slice_expression, $.function_call)`. -/
inductive Addressable where
  | identifier (text : String)
  | method_call (m : MethodCall)
  | index_expression (x : IndexExpression)
  | slice_expression (x : SliceExpression)
  | function_call (f : FunctionCall)

/-- `method_call`. -/
inductive MethodCall where
  | mk (receiver : Receiver) (name : String) (arguments : List Expression)

/-- The receiver field of `method_call`: `choice($.identifier, $.method_call)`. -/
inductive Receiver where
  | identifier (text : String)
  | method_call (m : MethodCall)

/-- `function_call`. -/
inductive FunctionCall where
  | mk (function : String) (arguments : List Expression)

end

/-- `source_file: repeat($._statement)`. -/
structure SourceFile where
  statements : List Statement

/-! ## The token sequence of a tree -/

/-- The tokens of a `_value`. -/
def Value.yield : Value → List Tok
  | .bool true => [.lit "true"]
  | .bool false => [.lit "false"]
  | .dice t => [.dice t]
  | .num t => [.num t]
  | .string t => [.string t]

/-- The tokens of `repeat(seq(",", $.identifier))`. -/
def yieldMoreIdentifiers : List String → List Tok
  | [] => []
  | x :: xs => .lit "," :: .identifier x :: yieldMoreIdentifiers xs

/-- The tokens of `parameter_list`:
`seq("(", optional(seq($.identifier, repeat(seq(",", $.identifier)))), ")")`. -/
def yieldParameterList : List String → List Tok
  | [] => [.lit "(", .lit ")"]
  | x :: xs => .lit "(" :: .identifier x :: yieldMoreIdentifiers xs ++ [.lit ")"]

/-- The tokens of `optional(",")`. -/
def yieldComma : Bool → List Tok
  | true => [.lit ","]
  | false => []

mutual

/-- The tokens of a statement. -/
def Statement.yield : Statement → List Tok
  | .assignment n v => .lit "var" :: .identifier n :: .lit "=" :: v.yield
  | .reassignment t v => .identifier t :: .lit "=" :: v.yield
  | .function_definition n ps b => .lit "fn" :: .identifier n :: yieldParameterList ps ++ b.yield
  | .hero_declaration n s =>
      .lit "hero" :: .string n :: .lit "\x7b" :: yieldOptStatBlock s ++ [.lit "\x7d"]
  | .enemy_declaration n s =>
      .lit "enemy" :: .string n :: .lit "\x7b" :: yieldOptStatBlock s ++ [.lit "\x7d"]
  | .item_declaration n s =>
      .lit "item" :: .string n :: .lit "\x7b" :: yieldOptStatBlock s ++ [.lit "\x7d"]
  | .quest_declaration n items =>
      .lit "quest" :: .string n :: .lit "\x7b" :: yieldQuestItems items ++ [.lit "\x7d"]
  | .encounter_block n body =>
      .lit "encounter" :: .string n :: .lit "\x7b" :: yieldStatements body ++ [.lit "\x7d"]
  | .give_statement i t => .lit "give" :: i.yield ++ .lit "to" :: t.yield
  | .take_statement i t => .lit "take" :: i.yield ++ .lit "from" :: t.yield
  | .spawn_statement n o => .lit "spawn" :: .string n :: yieldSpawnOverride o
  | .strike_statement t w => .lit "strike" :: t.yield ++ .lit "with" :: w.yield
  | .if_statement s => s.yield
  | .while_statement c b => .lit "while" :: c.yield ++ b.yield
  | .for_in_statement i e b => .lit "for" :: .identifier i :: .lit "in" :: e.yield ++ b.yield
  | .return_statement v => .lit "return" :: yieldOptExpression v
  | .expression e => e.yield
  | .block b => b.yield

/-- The tokens of `repeat($._statement)`. -/
def yieldStatements : List Statement → List Tok
  | [] => []
  | s :: ss => s.yield ++ yieldStatements ss

/-- The tokens of a block. -/
def Block.yield : Block → List Tok
  | .mk body => .lit "\x7b" :: yieldStatements body ++ [.lit "\x7d"]

/-- The tokens of a stat block. -/
def StatBlock.yield : StatBlock → List Tok
  | .mk first rest trailing => first.yield ++ yieldMoreStatEntries rest ++ yieldComma trailing

/-- The tokens of `repeat(seq(",", $.stat_entry))`. -/
def yieldMoreStatEntries : List StatEntry → List Tok
  | [] => []
  | e :: es => .lit "," :: e.yield ++ yieldMoreStatEntries es

/-- The tokens of `optional($.stat_block)`. -/
def yieldOptStatBlock : Option StatBlock → List Tok
  | none => []
  | some s => s.yield

/-- The tokens of `optional(seq("with", "{", optional($.stat_block), "}"))`. -/
def yieldSpawnOverride : Option (Option StatBlock) → List Tok
  | none => []
  | some s => .lit "with" :: .lit "\x7b" :: yieldOptStatBlock s ++ [.lit "\x7d"]

/-- The tokens of a stat entry. -/
def StatEntry.yield : StatEntry → List Tok
  | .mk stat value => .identifier stat :: .lit ":" :: value.yield

/-- The tokens of a quest item. -/
def QuestItem.yield : QuestItem → List Tok
  | .phase n body =>
      .lit "phase" :: .string n :: .lit "\x7b" :: yieldStatements body ++ [.lit "\x7d"]
  | .statement s => s.yield

/-- The tokens of `repeat(choice($.phase, $._statement))`. -/
def yieldQuestItems : List QuestItem → List Tok
  | [] => []
  | q :: qs => q.yield ++ yieldQuestItems qs

/-- The tokens of an `if_statement`. -/
def IfStatement.yield : IfStatement → List Tok
  | .mk c t a => .lit "if" :: c.yield ++ t.yield ++ yieldOptAlternative a

/-- The tokens of `optional(seq("else", field("alternative", ...)))`. -/
def yieldOptAlternative : Option Alternative → List Tok
  | none => []
  | some a => .lit "else" :: a.yield

/-- The tokens of the alternative of an `if_statement`. -/
def Alternative.yield : Alternative → List Tok
  | .if_statement s => s.yield
  | .block b => b.yield

/-- The tokens of an expression. -/
def Expression.yield : Expression → List Tok
  | .primary p => p.yield
  | .binary_expression l op r => l.yield ++ .lit op.text :: r.yield
  | .unary_expression op e => .lit op.text :: e.yield
  | .has_expression o i => o.yield ++ .lit "has" :: i.yield
  | .lambda_block ps b => .lit "fn" :: yieldParameterList ps ++ b.yield
  | .lambda_arrow ps e => .lit "fn" :: yieldParameterList ps ++ .lit "=>" :: e.yield
  | .dialogue t cs =>
      .lit "say" :: .string t :: .lit "\x7b" :: yieldDialogueChoices cs ++ [.lit "\x7d"]
  | .skill_check s d ok ko =>
      .lit "check" :: s.yield ++ .lit "vs" :: d.yield ++
        .lit "\x7b" :: (.lit "success" :: ok.yield) ++ (.lit "failure" :: ko.yield) ++ [.lit "\x7d"]

/-- The tokens of `optional($._expression)`. -/
def yieldOptExpression : Option Expression → List Tok
  | none => []
  | some e => e.yield

/-- The tokens of a dialogue choice. -/
def DialogueChoice.yield : DialogueChoice → List Tok
  | .mk o b c => .string o :: .lit "=>" :: b.yield ++ yieldComma c

/-- The tokens of `repeat($.dialogue_choice)`. -/
def yieldDialogueChoices : List DialogueChoice → List Tok
  | [] => []
  | c :: cs => c.yield ++ yieldDialogueChoices cs

/-- The tokens of a body. -/
def Body.yield : Body → List Tok
  | .expression e => e.yield
  | .block b => b.yield

/-- The tokens of a check clause after its keyword: `"=>"`, the body, `optional(",")`. -/
def CheckClause.yield : CheckClause → List Tok
  | .mk b c => .lit "=>" :: b.yield ++ yieldComma c

/-- The tokens of a primary expression. -/
def PrimaryExpression.yield : PrimaryExpression → List Tok
  | .value v => v.yield
  | .identifier t => [.identifier t]
  | .grouped_expression e => .lit "(" :: e.yield ++ [.lit ")"]
  | .array_expression es => .lit "[" :: yieldExpressions es ++ [.lit "]"]
  | .index_expression x => x.yield
  | .slice_expression x => x.yield
  | .method_call m => m.yield
  | .function_call f => f.yield

/-- The tokens of `optional(seq($._expression, repeat(seq(",", $._expression))))`. -/
def yieldExpressions : List Expression → List Tok
  | [] => []
  | e :: es => e.yield ++ yieldMoreExpressions es

/-- The tokens of `repeat(seq(",", $._expression))`. -/
def yieldMoreExpressions : List Expression → List Tok
  | [] => []
  | e :: es => .lit "," :: e.yield ++ yieldMoreExpressions es

/-- The tokens of an index expression. -/
def IndexExpression.yield : IndexExpression → List Tok
  | .mk o i => o.yield ++ .lit "[" :: i.yield ++ [.lit "]"]

/-- The tokens of a slice expression. -/
def SliceExpression.yield : SliceExpression → List Tok
  | .mk o s e => o.yield ++ .lit "[" :: yieldOptExpression s ++ .lit ".." :: yieldOptExpression e
      ++ [.lit "]"]

/-- The tokens of an index or slice object. -/
def Addressable.yield : Addressable → List Tok
  | .identifier t => [.identifier t]
  | .method_call m => m.yield
  | .index_expression x => x.yield
  | .slice_expression x => x.yield
  | .function_call f => f.yield

/-- The tokens of a method call. -/
def MethodCall.yield : MethodCall → List Tok
  | .mk r n args => r.yield ++ .lit "." :: .identifier n :: .lit "(" :: yieldExpressions args
      ++ [.lit ")"]

/-- The tokens of a method-call receiver. -/
def Receiver.yield : Receiver → List Tok
  | .identifier t => [.identifier t]
  | .method_call m => m.yield

/-- The tokens of a function call. -/
def FunctionCall.yield : FunctionCall → List Tok
  | .mk f args => .identifier f :: .lit "(" :: yieldExpressions args ++ [.lit ")"]

end

/-- The tokens of a source file. -/
def SourceFile.yield (f : SourceFile) : List Tok :=
  yieldStatements f.statements

/-! ## Precedence, associativity and conflict resolution -/

/-- The associativity a rule gets from `prec.left` or `prec.right`. -/
inductive Assoc where
  | left | right
deriving DecidableEq, Repr

/-- What the `prec` wrapper of a rule says: its number (0 without a wrapper or without a
number) and its associativity (none for plain `prec` and for no wrapper). -/
structure PrecInfo where
  level : Int
  assoc : Option Assoc
deriving DecidableEq, Repr

/-- The wrapper of each `_expression` alternative, as written in the grammar: `prec.left(n, ...)`
for the seven binary alternatives, `prec(8, ...)` for `unary_expression`, `prec.left(3, ...)`
for `has_expression`, `prec.right(-1, ...)` for the arrow form of `lambda_expression`. -/
def Expression.precInfo : Expression → PrecInfo
  | .primary _ => ⟨0, none⟩
  | .binary_expression _ op _ => ⟨op.level, some .left⟩
  | .unary_expression _ _ => ⟨8, none⟩
  | .has_expression _ _ => ⟨3, some .left⟩
  | .lambda_block _ _ => ⟨0, none⟩
  | .lambda_arrow _ _ => ⟨-1, some .right⟩
  | .dialogue _ _ => ⟨0, none⟩
  | .skill_check _ _ _ _ => ⟨0, none⟩

/-- The wrapper of each `_statement` alternative: `prec.right(...)` for `return_statement`,
none for the others. -/
def Statement.precInfo : Statement → PrecInfo
  | .return_statement _ => ⟨0, some .right⟩
  | _ => ⟨0, none⟩

/-- The number in the wrapper of `has_expression`. -/
def hasLevel : Int := 3

/-- The number in the wrapper of `function_call` (and of `method_call`). -/
def callLevel : Int := 9

/-- The number in the wrapper of `index_expression` and `slice_expression`. -/
def indexLevel : Int := 10

/-- The outcome of a shift/reduce conflict. -/
inductive Action where
  | shift | reduce | conflict
deriving DecidableEq, Repr

/-- Modelled from the spec: the parser generator that reads the `prec` wrappers is not part
of the repository.  When a complete rule with wrapper `p` could be reduced and the next
token would continue a rule of level `q`, the higher number wins; on a tie a left
associative rule is reduced, a right associative one lets the token be shifted, and a rule
without associativity leaves the conflict standing. -/
def resolve (p : PrecInfo) (q : Int) : Action :=
  if p.level < q then .shift
  else if q < p.level then .reduce
  else
    match p.assoc with
    | some .left => .reduce
    | some .right => .shift
    | none => .conflict

/-- Whether every rule that ends with the last operand of the expression is reduced before a
following token of level `q`: the expression can then be the left operand of that token. -/
def Expression.reducesBefore (q : Int) : Expression → Bool
  | .binary_expression _ op r =>
      (resolve ⟨op.level, some .left⟩ q == .reduce) && r.reducesBefore q
  | .unary_expression _ e => (resolve ⟨8, none⟩ q == .reduce) && e.reducesBefore q
  | .has_expression _ i => (resolve ⟨3, some .left⟩ q == .reduce) && i.reducesBefore q
  | .lambda_arrow _ e => (resolve ⟨-1, some .right⟩ q == .reduce) && e.reducesBefore q
  | _ => true

/-- Whether every operator on the left edge of the expression was shifted while a rule with
wrapper `p` was waiting for its last operand: the expression can then be that operand. -/
def Expression.shiftsAfter (p : PrecInfo) : Expression → Bool
  | .binary_expression l op _ => (resolve p op.level == .shift) && l.shiftsAfter p
  | .has_expression o _ => (resolve p hasLevel == .shift) && o.shiftsAfter p
  | _ => true

/-- The last operand of an expression: what a following token would attach to first. -/
def Expression.lastOperand : Expression → Expression
  | .binary_expression _ _ r => r.lastOperand
  | .unary_expression _ e => e.lastOperand
  | .has_expression _ i => i.lastOperand
  | .lambda_arrow _ e => e.lastOperand
  | e => e

/-- Whether a following `"["` would make the last operand the object of an index or slice. -/
def Expression.endsAddressable (e : Expression) : Bool :=
  match e.lastOperand with
  | .primary (.identifier _) => true
  | .primary (.method_call _) => true
  | .primary (.index_expression _) => true
  | .primary (.slice_expression _) => true
  | .primary (.function_call _) => true
  | _ => false

/-- Whether a following `"("` would make the last operand the function of a call. -/
def Expression.endsIdentifier (e : Expression) : Bool :=
  match e.lastOperand with
  | .primary (.identifier _) => true
  | _ => false

/-- The tokens an `_expression` can begin with. -/
def startsExpression : Tok → Bool
  | .identifier _ => true
  | .dice _ => true
  | .num _ => true
  | .string _ => true
  | .lit s => s ∈ ["true", "false", "(", "[", "-", "not", "fn", "say", "check"]

/-- The expression a statement ends with, if it ends with one. -/
def Statement.trailing : Statement → Option Expression
  | .assignment _ v => some v
  | .reassignment _ v => some v
  | .give_statement _ t => some t
  | .take_statement _ t => some t
  | .strike_statement _ w => some w
  | .return_statement (some v) => some v
  | .expression e => some e
  | _ => none

/-- The level of the rule that token `t` continues when it follows an expression `e` that
ends a statement: binary `-`, an index or slice of the last operand, or a call of it. -/
def continuation (e : Expression) (t : Tok) : Option Int :=
  if t = .lit "-" then some BinOp.sub.level
  else if t = .lit "[" ∧ e.endsAddressable = true then some indexLevel
  else if t = .lit "(" ∧ e.endsIdentifier = true then some callLevel
  else none

/-- Whether statement `s` ends before the token `next` that follows it in a `repeat`: a
`return` without value ends only before a token that cannot begin its value, and a trailing
expression ends only before a token that cannot continue it. -/
def Statement.endsBefore (s : Statement) (next : Option Tok) : Bool :=
  match next with
  | none => true
  | some t =>
    match s with
    | .return_statement none =>
        !startsExpression t || (resolve s.precInfo 0 == .reduce)
    | _ =>
      match s.trailing with
      | none => true
      | some e =>
        match continuation e t with
        | none => true
        | some q => resolve s.precInfo q == .reduce

mutual

/-- Modelled from the spec: the tree a generated parser builds, among those that derive the
same tokens (the parser generator is not part of the repository).  Every conflict met while
the tree is built is settled by `resolve`. -/
def Statement.resolved : Statement → Bool
  | .assignment _ v => v.resolved
  | .reassignment _ v => v.resolved
  | .function_definition _ _ b => b.resolved
  | .hero_declaration _ s => resolvedOptStatBlock s
  | .enemy_declaration _ s => resolvedOptStatBlock s
  | .item_declaration _ s => resolvedOptStatBlock s
  | .quest_declaration _ items => resolvedQuestItems items
  | .encounter_block _ body => resolvedStatements body
  | .give_statement i t => i.resolved && t.resolved
  | .take_statement i t => i.resolved && t.resolved
  | .spawn_statement _ o => resolvedSpawnOverride o
  | .strike_statement t w => t.resolved && w.resolved
  | .if_statement s => s.resolved
  | .while_statement c b => c.resolved && b.resolved
  | .for_in_statement _ e b => e.resolved && b.resolved
  | .return_statement v => resolvedOptExpression v
  | .expression e => e.resolved
  | .block b => b.resolved

/-- Resolution of `repeat($._statement)`: each statement ends before the next one. -/
def resolvedStatements : List Statement → Bool
  | [] => true
  | s :: ss => s.resolved && s.endsBefore (yieldStatements ss).head? && resolvedStatements ss

/-- Resolution inside a block. -/
def Block.resolved : Block → Bool
  | .mk body => resolvedStatements body

/-- Resolution inside a stat block. -/
def StatBlock.resolved : StatBlock → Bool
  | .mk first rest _ => first.resolved && resolvedStatEntries rest

/-- Resolution inside the further entries of a stat block. -/
def resolvedStatEntries : List StatEntry → Bool
  | [] => true
  | e :: es => e.resolved && resolvedStatEntries es

/-- Resolution inside an optional stat block. -/
def resolvedOptStatBlock : Option StatBlock → Bool
  | none => true
  | some s => s.resolved

/-- Resolution inside the `with` part of a spawn statement. -/
def resolvedSpawnOverride : Option (Option StatBlock) → Bool
  | none => true
  | some s => resolvedOptStatBlock s

/-- Resolution inside a stat entry. -/
def StatEntry.resolved : StatEntry → Bool
  | .mk _ value => value.resolved

/-- Resolution inside a quest item. -/
def QuestItem.resolved : QuestItem → Bool
  | .phase _ body => resolvedStatements body
  | .statement s => s.resolved

/-- Resolution of the items of a quest: a statement ends before the next item. -/
def resolvedQuestItems : List QuestItem → Bool
  | [] => true
  | .phase n body :: qs => resolvedStatements body && resolvedQuestItems qs
  | .statement s :: qs =>
      s.resolved && s.endsBefore (yieldQuestItems qs).head? && resolvedQuestItems qs

/-- Resolution inside an `if_statement`. -/
def IfStatement.resolved : IfStatement → Bool
  | .mk c t a => c.resolved && t.resolved && resolvedOptAlternative a

/-- Resolution inside an optional alternative. -/
def resolvedOptAlternative : Option Alternative → Bool
  | none => true
  | some a => a.resolved

/-- Resolution inside an alternative. -/
def Alternative.resolved : Alternative → Bool
  | .if_statement s => s.resolved
  | .block b => b.resolved

/-- Resolution of an expression: a left operand is complete before its operator, and the
last operand of a rule begins with nothing the rule should have been reduced before. -/
def Expression.resolved : Expression → Bool
  | .primary p => p.resolved
  | .binary_expression l op r =>
      l.resolved && r.resolved && l.reducesBefore op.level
        && r.shiftsAfter ⟨op.level, some .left⟩
  | .unary_expression _ e => e.resolved && e.shiftsAfter ⟨8, none⟩
  | .has_expression o i =>
      o.resolved && i.resolved && o.reducesBefore hasLevel && i.shiftsAfter ⟨3, some .left⟩
  | .lambda_block _ b => b.resolved
  | .lambda_arrow _ e => e.resolved && e.shiftsAfter ⟨-1, some .right⟩
  | .dialogue _ cs => resolvedDialogueChoices cs
  | .skill_check s d ok ko => s.resolved && d.resolved && ok.resolved && ko.resolved

/-- Resolution inside an optional expression. -/
def resolvedOptExpression : Option Expression → Bool
  | none => true
  | some e => e.resolved

/-- Resolution inside a dialogue choice. -/
def DialogueChoice.resolved : DialogueChoice → Bool
  | .mk _ b _ => b.resolved

/-- Resolution inside the choices of a dialogue. -/
def resolvedDialogueChoices : List DialogueChoice → Bool
  | [] => true
  | c :: cs => c.resolved && resolvedDialogueChoices cs

/-- Resolution inside a body. -/
def Body.resolved : Body → Bool
  | .expression e => e.resolved
  | .block b => b.resolved

/-- Resolution inside a check clause. -/
def CheckClause.resolved : CheckClause → Bool
  | .mk b _ => b.resolved

/-- Resolution inside a primary expression. -/
def PrimaryExpression.resolved : PrimaryExpression → Bool
  | .value _ => true
  | .identifier _ => true
  | .grouped_expression e => e.resolved
  | .array_expression es => resolvedExpressions es
  | .index_expression x => x.resolved
  | .slice_expression x => x.resolved
  | .method_call m => m.resolved
  | .function_call f => f.resolved

/-- Resolution inside a comma-separated list of expressions. -/
def resolvedExpressions : List Expression → Bool
  | [] => true
  | e :: es => e.resolved && resolvedExpressions es

/-- Resolution of an index expression: when the index is a range, the closing `"]"` meets
the complete range (level 5) while `slice_expression` (level 10) waits for that token. -/
def IndexExpression.resolved : IndexExpression → Bool
  | .mk o i =>
      o.resolved && i.resolved &&
        (match i with
         | .binary_expression _ .range _ =>
             resolve ⟨BinOp.range.level, some .left⟩ indexLevel == .reduce
         | _ => true)

/-- Resolution of a slice expression: the start is complete before `".."`, and after a
start the end begins like the right operand of a range. -/
def SliceExpression.resolved : SliceExpression → Bool
  | .mk o s e =>
      o.resolved && resolvedOptExpression s && resolvedOptExpression e &&
        (match s, e with
         | some a, some b =>
             a.reducesBefore BinOp.range.level
               && b.shiftsAfter ⟨BinOp.range.level, some .left⟩
         | some a, none => a.reducesBefore BinOp.range.level
         | none, _ => true)

/-- Resolution inside an index or slice object. -/
def Addressable.resolved : Addressable → Bool
  | .identifier _ => true
  | .method_call m => m.resolved
  | .index_expression x => x.resolved
  | .slice_expression x => x.resolved
  | .function_call f => f.resolved

/-- Resolution inside a method call. -/
def MethodCall.resolved : MethodCall → Bool
  | .mk r _ args => r.resolved && resolvedExpressions args

/-- Resolution inside a receiver. -/
def Receiver.resolved : Receiver → Bool
  | .identifier _ => true
  | .method_call m => m.resolved

/-- Resolution inside a function call. -/
def FunctionCall.resolved : FunctionCall → Bool
  | .mk _ args => resolvedExpressions args

end

/-- Resolution of a source file. -/
def SourceFile.resolved (f : SourceFile) : Bool :=
  resolvedStatements f.statements

/-! ## Operators and operand tokens -/

/-- The operators written between two operands: the binary operators and `has`. -/
inductive InfixOp where
  | binary (op : BinOp)
  | has
deriving DecidableEq, Repr

/-- The string token of an operator written between two operands. -/
def InfixOp.text : InfixOp → String
  | .binary op => op.text
  | .has => "has"

/-- The level of the rule an operator written between two operands belongs to. -/
def InfixOp.level : InfixOp → Int
  | .binary op => op.level
  | .has => hasLevel

/-- The expression an operator builds from its two operands. -/
def InfixOp.apply : InfixOp → Expression → Expression → Expression
  | .binary op, l, r => .binary_expression l op r
  | .has, l, r => .has_expression l r

/-- Tokens that are an operand on their own. -/
def Tok.isOperand : Tok → Bool
  | .identifier _ => true
  | .dice _ => true
  | .num _ => true
  | .string _ => true
  | .lit s => s = "true" || s = "false"

/-- Tokens that stand between two operands. -/
def Tok.isOperator : Tok → Bool
  | .lit s => s ∈ ["or", "and", "==", "!=", "<", ">", "<=", ">=", "..", "+", "-", "*", "/", "%",
      "has"]
  | _ => false

/-- Tokens that begin what follows the object of a call, an index, a slice or a method call. -/
def Tok.opensSuffix : Tok → Bool
  | .lit s => s ∈ ["(", "[", "."]
  | _ => false

/-- Whether the first of the remaining tokens, if any, cannot continue an expression. -/
def stopsAt : List Tok → Bool
  | [] => true
  | t :: _ => !t.isOperator && !t.opensSuffix

/-- Whether the remaining tokens begin with a token that opens a suffix. -/
def suffixAt : List Tok → Bool
  | [] => false
  | t :: _ => t.opensSuffix

/-! ## Parses -/

/-- An expression tree is the parse of a token sequence when it derives the sequence and is
the tree conflict resolution keeps. -/
def Expression.ParsesAs (ts : List Tok) (e : Expression) : Prop :=
  e.yield = ts ∧ e.resolved = true

/-- A source file tree is the parse of a token sequence when it derives the sequence and is
the tree conflict resolution keeps. -/
def SourceFile.ParsesAs (ts : List Tok) (f : SourceFile) : Prop :=
  f.yield = ts ∧ f.resolved = true

/-- The tokens of `say "hi" { "go" => doThing(), "stay" => { wait() } }`. -/
def dialogueExample : List Tok :=
  [.lit "say", .string "hi", .lit "\x7b",
    .string "go", .lit "=>", .identifier "doThing", .lit "(", .lit ")", .lit ",",
    .string "stay", .lit "=>", .lit "\x7b", .identifier "wait", .lit "(", .lit ")", .lit "\x7d",
    .lit "\x7d"]

/-- The dialogue with the two choices of `dialogueExample`. -/
def dialogueExampleTree : Expression :=
  .dialogue "hi"
    [.mk "go" (.expression (.primary (.function_call (.mk "doThing" [])))) true,
     .mk "stay" (.block (.mk [.expression (.primary (.function_call (.mk "wait" [])))])) false]

/-- The tokens of the end-to-end example
`hero "Mira" { hp: 10, str: 2 } enemy "Goblin" { hp: 5 }
if Mira has "Sword" { strike Goblin with "Sword" } else { give "Sword" to Mira }`. -/
def endToEndExample : List Tok :=
  [.lit "hero", .string "Mira", .lit "\x7b", .identifier "hp", .lit ":", .num "10", .lit ",",
    .identifier "str", .lit ":", .num "2", .lit "\x7d",
   .lit "enemy", .string "Goblin", .lit "\x7b", .identifier "hp", .lit ":", .num "5", .lit "\x7d",
   .lit "if", .identifier "Mira", .lit "has", .string "Sword",
    .lit "\x7b", .lit "strike", .identifier "Goblin", .lit "with", .string "Sword", .lit "\x7d",
    .lit "else",
    .lit "\x7b", .lit "give", .string "Sword", .lit "to", .identifier "Mira", .lit "\x7d"]

/-- The hero declaration of the end-to-end example. -/
def endToEndHero : Statement :=
  .hero_declaration "Mira"
    (some (.mk (.mk "hp" (.primary (.value (.num "10"))))
      [.mk "str" (.primary (.value (.num "2")))] false))

/-- The enemy declaration of the end-to-end example. -/
def endToEndEnemy : Statement :=
  .enemy_declaration "Goblin" (some (.mk (.mk "hp" (.primary (.value (.num "5")))) [] false))

/-- The if statement of the end-to-end example: the condition is a `has_expression`, the
consequence holds one `strike_statement`, the alternative one `give_statement`. -/
def endToEndIf : Statement :=
  .if_statement (.mk
    (.has_expression (.primary (.identifier "Mira")) (.primary (.value (.string "Sword"))))
    (.mk [.strike_statement (.primary (.identifier "Goblin"))
      (.primary (.value (.string "Sword")))])
    (some (.block (.mk [.give_statement (.primary (.value (.string "Sword")))
      (.primary (.identifier "Mira"))]))))

/-- The source file of the end-to-end example: three statements. -/
def endToEndTree : SourceFile :=
  ⟨[endToEndHero, endToEndEnemy, endToEndIf]⟩

/-- The named node kinds an expression can have. -/
inductive Kind where
  | bool | dice | num | string
  | identifier | grouped_expression | array_expression
  | index_expression | slice_expression | method_call | function_call
  | binary_expression | unary_expression | has_expression | lambda_expression
  | dialogue | skill_check
deriving DecidableEq, Repr

/-- The node kind of a value. -/
def Value.kind : Value → Kind
  | .bool _ => .bool
  | .dice _ => .dice
  | .num _ => .num
  | .string _ => .string

/-- The node kind of a primary expression. -/
def PrimaryExpression.kind : PrimaryExpression → Kind
  | .value v => v.kind
  | .identifier _ => .identifier
  | .grouped_expression _ => .grouped_expression
  | .array_expression _ => .array_expression
  | .index_expression _ => .index_expression
  | .slice_expression _ => .slice_expression
  | .method_call _ => .method_call
  | .function_call _ => .function_call

/-- The node kind of an expression. -/
def Expression.kind : Expression → Kind
  | .primary p => p.kind
  | .binary_expression _ _ _ => .binary_expression
  | .unary_expression _ _ => .unary_expression
  | .has_expression _ _ => .has_expression
  | .lambda_block _ _ => .lambda_expression
  | .lambda_arrow _ _ => .lambda_expression
  | .dialogue _ _ => .dialogue
  | .skill_check _ _ _ _ => .skill_check

/-- The object of an index or slice expression, as the expression node it is. -/
def Addressable.toExpression : Addressable → Expression
  | .identifier s => .primary (.identifier s)
  | .method_call m => .primary (.method_call m)
  | .index_expression x => .primary (.index_expression x)
  | .slice_expression x => .primary (.slice_expression x)
  | .function_call f => .primary (.function_call f)

/-- The receiver of a method call, as the expression node it is. -/
def Receiver.toExpression : Receiver → Expression
  | .identifier s => .primary (.identifier s)
  | .method_call m => .primary (.method_call m)

/-- The object field of an index expression. -/
def IndexExpression.object : IndexExpression → Addressable
  | .mk o _ => o

/-- The object field of a slice expression. -/
def SliceExpression.object : SliceExpression → Addressable
  | .mk o _ _ => o

/-- The receiver field of a method call. -/
def MethodCall.receiver : MethodCall → Receiver
  | .mk r _ _ => r

/-- The five kinds in the object choice of `index_expression` and `slice_expression`. -/
def addressableKinds : List Kind :=
  [.identifier, .method_call, .index_expression, .slice_expression, .function_call]

/-- Whether the first of the remaining tokens, if any, is no operator. -/
def noOperatorAt : List Tok → Bool
  | [] => true
  | t :: _ => !t.isOperator

/-- Whether the first of the remaining tokens, if any, is neither an operator nor `"["`. -/
def closedAt : List Tok → Bool
  | [] => true
  | t :: _ => !t.isOperator && t != .lit "["

/-- The two kinds in the receiver choice of `method_call`. -/
def receiverKinds : List Kind :=
  [.identifier, .method_call]

/-- The method call `a.b()`. -/
def methodOnce (a b : String) : MethodCall :=
  .mk (.identifier a) b []

/-- The method call `a.b().c()`: the call of `c` on the receiver `a.b()`. -/
def methodTwice (a b c : String) : MethodCall :=
  .mk (.method_call (methodOnce a b)) c []

/-- The tokens of `a.b().c()`. -/
def methodChainExample (a b c : String) : List Tok :=
  [.identifier a, .lit ".", .identifier b, .lit "(", .lit ")",
    .lit ".", .identifier c, .lit "(", .lit ")"]

/-- The tokens of `x[0].m()`: a method call written on an index expression. -/
def indexThenMethodExample (x m : String) : List Tok :=
  [.identifier x, .lit "[", .num "0", .lit "]", .lit ".", .identifier m, .lit "(", .lit ")"]

/-- The tokens of `f().g()`: a method call written on a function call. -/
def callThenMethodExample (f g : String) : List Tok :=
  [.identifier f, .lit "(", .lit ")", .lit ".", .identifier g, .lit "(", .lit ")"]

/-- The double quote character. -/
def Pattern.quote : Char := Char.ofNat 34

/-- One step of a line comment, `\\(.|\r?\n)|[^\\\n]`: a backslash with the character after
it, which may be a newline or a carriage return and a newline, or one character that is
neither a backslash nor a newline.  The dot is every character but the newline. -/
def Pattern.lineStep : Regex :=
  .alt
    (.seq (.char '\\')
      (.alt (.cls (fun c => c != '\n')) (.seq (Regex.opt (.char '\r')) (.char '\n'))))
    (.cls (fun c => c != '\\' && c != '\n'))

/-- The line alternative of `comment`: `seq("//", /(\\(.|\r?\n)|[^\\\n])*/)`. -/
def Pattern.lineComment : Regex :=
  .seq (.char '/') (.seq (.char '/') (.star Pattern.lineStep))

/-- The middle of the block alternative of `comment`: `/[^*]*\*+([^/*][^*]*\*+)*/`. -/
def Pattern.blockBody : Regex :=
  .seq (.star (.cls (fun c => c != '*')))
    (.seq (Regex.plus (.char '*'))
      (.star (.seq (.cls (fun c => c != '/' && c != '*'))
        (.seq (.star (.cls (fun c => c != '*'))) (Regex.plus (.char '*'))))))

/-- The block alternative of `comment`: `seq("/*", blockBody, "/")`. -/
def Pattern.blockComment : Regex :=
  .seq (.char '/') (.seq (.char '*') (.seq Pattern.blockBody (.char '/')))

/-- `comment: token(choice(lineComment, blockComment))`. -/
def Pattern.comment : Regex := .alt Pattern.lineComment Pattern.blockComment

/-- Whether the text holds the two characters `*` `/` in a row. -/
def containsClose : List Char → Bool
  | [] => false
  | c :: cs => (c == '*' && cs.head? == some '/') || containsClose cs

/-- The block comment automaton after `/*`: `star` tells whether the last character was a
`*` of the body; the text is a body when it ends in that state, and a `/` right after a `*`
is refused since the body may not hold the closing pair. -/
def blockRun : Bool → List Char → Bool
  | star, [] => star
  | star, c :: cs =>
    if c == '*' then blockRun true cs
    else if star && c == '/' then false
    else blockRun false cs

/-- The tokens of one clause of a skill check: the keyword, `=>`, the body and the optional
comma. -/
def clauseTokens (keyword : String) (body : List Tok) (comma : Bool) : List Tok :=
  .lit keyword :: .lit "=>" :: body ++ yieldComma comma

/-- The tokens `check s vs d` followed by clauses in braces. -/
def checkTokens (s d clauses : List Tok) : List Tok :=
  .lit "check" :: s ++ .lit "vs" :: d ++ .lit "\x7b" :: clauses ++ [.lit "\x7d"]

/-- Whether a token, if any, is an identifier. -/
def precedesEquals : Option Tok → Bool
  | some (.identifier _) => true
  | _ => false

/-- Whether every `=` among the tokens stands right after an identifier token, where `prev`
is the token before the first one. -/
def equalsAfterIdentifier (prev : Option Tok) : List Tok → Bool
  | [] => true
  | t :: ts => (t != .lit "=" || precedesEquals prev) && equalsAfterIdentifier (some t) ts

/-- `/[^"]*/`, the middle one of the three tokens of `string: seq('"', /[^"]*/, '"')`. -/
def Pattern.stringContent : Regex := .star (.cls (fun c => c != Pattern.quote))

/-- Modelled from the spec: the lexer is not part of the repository; the spec has it skip
comments and blanks between tokens and take a token by longest match.  The rule `string` is
a `seq` of three tokens without `token(...)`, so after the opening quote the lexer is asked
for the middle token `/[^"]*/` and, as between any two tokens, for the extras `comment` and
the blank pattern.  The longest match wins; on a tie `comment`, a `token(...)`, wins over the
middle token, and the middle token wins over a blank.  An extra that wins is skipped and the
lexer is asked again; `fuel` bounds the number of skipped extras.  The result is the text
that follows the middle token. -/
def lexStringContent : Nat → List Char → Option (List Char)
  | 0, _ => none
  | fuel + 1, s =>
    let n := (Pattern.stringContent.longest s).getD 0
    let k := (Pattern.comment.longest s).getD 0
    let b := (Pattern.blank.longest s).getD 0
    if (0 < k ∧ n ≤ k) ∨ n < b then lexStringContent fuel (s.drop (max k b))
    else some (s.drop n)

/-- The length of the `string` node at the start of the text, if there is one: the opening
quote, the middle token found by `lexStringContent`, and the closing quote.  What follows the
middle token is a quote or nothing, where no extra begins, so the closing quote is looked
for right there.  Every skipped extra takes a character, so the length of the text is fuel
enough. -/
def lexString (s : List Char) : Option Nat :=
  match s with
  | [] => none
  | c :: t =>
    if c = Pattern.quote then
      match lexStringContent (t.length + 1) t with
      | some (d :: rest) => if d = Pattern.quote then some (s.length - rest.length) else none
      | _ => none
    else none

/-! ## Lemmas on the tokens of a tree -/

theorem InfixOp.operator_token (op : InfixOp) : (Tok.lit op.text).isOperator = true := by
  rcases op with op | _
  · cases op <;> decide
  · decide

theorem InfixOp.operator_not_operand (op : InfixOp) : (Tok.lit op.text).isOperand = false := by
  rcases op with op | _
  · cases op <;> decide
  · decide

theorem InfixOp.operator_text_inj (p q : InfixOp) (h : p.text = q.text) : p = q := by
  rcases p with p | _ <;> rcases q with q | _
  · cases p <;> cases q <;> first | rfl | (exact absurd h (by decide))
  · cases p <;> exact absurd h (by decide)
  · cases q <;> exact absurd h (by decide)
  · rfl

theorem UnOp.unary_not_operand (op : UnOp) : (Tok.lit op.text).isOperand = false := by
  cases op <;> decide

theorem Value.yield_eq (v : Value) : ∃ t, v.yield = [t] ∧ t.isOperand = true := by
  cases v with
  | bool b => cases b <;> exact ⟨_, rfl, by decide⟩
  | dice t => exact ⟨_, rfl, rfl⟩
  | num t => exact ⟨_, rfl, rfl⟩
  | string t => exact ⟨_, rfl, rfl⟩

theorem Value.yield_inj (v w : Value) (h : v.yield = w.yield) : v = w := by
  cases v with
  | bool b => cases b <;> cases w with
    | bool c => cases c <;> simp_all [Value.yield]
    | _ => simp_all [Value.yield]
  | _ => cases w with
    | bool c => cases c <;> simp_all [Value.yield]
    | _ => simp_all [Value.yield]

theorem suffixAt_append (ts us : List Tok) (h : ts = [] ∨ suffixAt ts = true)
    (hu : suffixAt us = true) : suffixAt (ts ++ us) = true := by
  cases ts with
  | nil => simpa using hu
  | cons t ts => simpa [suffixAt] using h

theorem suffixAt_append_left (ts us : List Tok) (h : suffixAt ts = true) :
    suffixAt (ts ++ us) = true := by
  cases ts with
  | nil => simp [suffixAt] at h
  | cons t ts => simpa [suffixAt] using h

theorem not_stopsAt_of_suffixAt (ts : List Tok) (h : suffixAt ts = true) : stopsAt ts = false := by
  cases ts with
  | nil => simp [suffixAt] at h
  | cons t ts => simp_all [suffixAt, stopsAt]

mutual
theorem Addressable.addressable_head : (o : Addressable) →
    ∃ s ts, o.yield = .identifier s :: ts ∧ (ts = [] ∨ suffixAt ts = true)
  | .identifier s => ⟨s, [], rfl, .inl rfl⟩
  | .method_call m => by
      obtain ⟨s, ts, h, h2⟩ := MethodCall.method_call_head m
      exact ⟨s, ts, by simp [Addressable.yield, h], .inr h2⟩
  | .index_expression x => by
      obtain ⟨s, ts, h, h2⟩ := IndexExpression.index_head x
      exact ⟨s, ts, by simp [Addressable.yield, h], .inr h2⟩
  | .slice_expression x => by
      obtain ⟨s, ts, h, h2⟩ := SliceExpression.slice_head x
      exact ⟨s, ts, by simp [Addressable.yield, h], .inr h2⟩
  | .function_call f => by
      obtain ⟨s, ts, h, h2⟩ := FunctionCall.function_call_head f
      exact ⟨s, ts, by simp [Addressable.yield, h], .inr h2⟩
theorem MethodCall.method_call_head : (m : MethodCall) →
    ∃ s ts, m.yield = .identifier s :: ts ∧ suffixAt ts = true
  | .mk r n args => by
      obtain ⟨s, ts, h, h2⟩ := Receiver.receiver_head r
      exact ⟨s, ts ++ (.lit "." :: .identifier n :: .lit "(" :: yieldExpressions args ++ [.lit ")"]),
        by simp [MethodCall.yield, h], suffixAt_append _ _ h2 (by simp [suffixAt, Tok.opensSuffix])⟩
theorem Receiver.receiver_head : (r : Receiver) →
    ∃ s ts, r.yield = .identifier s :: ts ∧ (ts = [] ∨ suffixAt ts = true)
  | .identifier s => ⟨s, [], rfl, .inl rfl⟩
  | .method_call m => by
      obtain ⟨s, ts, h, h2⟩ := MethodCall.method_call_head m
      exact ⟨s, ts, by simp [Receiver.yield, h], .inr h2⟩
theorem IndexExpression.index_head : (x : IndexExpression) →
    ∃ s ts, x.yield = .identifier s :: ts ∧ suffixAt ts = true
  | .mk o i => by
      obtain ⟨s, ts, h, h2⟩ := Addressable.addressable_head o
      exact ⟨s, ts ++ (.lit "[" :: i.yield ++ [.lit "]"]), by simp [IndexExpression.yield, h],
        suffixAt_append _ _ h2 (by simp [suffixAt, Tok.opensSuffix])⟩
theorem SliceExpression.slice_head : (x : SliceExpression) →
    ∃ s ts, x.yield = .identifier s :: ts ∧ suffixAt ts = true
  | .mk o a b => by
      obtain ⟨s, ts, h, h2⟩ := Addressable.addressable_head o
      exact ⟨s, ts ++ (.lit "[" :: yieldOptExpression a ++ .lit ".." :: yieldOptExpression b
        ++ [.lit "]"]), by simp [SliceExpression.yield, h],
        suffixAt_append _ _ h2 (by simp [suffixAt, Tok.opensSuffix])⟩
theorem FunctionCall.function_call_head : (f : FunctionCall) →
    ∃ s ts, f.yield = .identifier s :: ts ∧ suffixAt ts = true
  | .mk f _ => ⟨f, _, rfl, by simp [suffixAt, Tok.opensSuffix]⟩
end


/-- A primary expression that begins at an operand token followed by no suffix is that token
alone. -/
theorem PrimaryExpression.token_then (p : PrimaryExpression) (rest : List Tok) (t : Tok)
    (rest0 : List Tok) (ht : t.isOperand = true) (hs : suffixAt rest0 = false)
    (h : p.yield ++ rest = t :: rest0) : p.yield = [t] ∧ rest = rest0 := by
  have key : ∀ s ts, suffixAt ts = true → (Tok.identifier s :: ts) ++ rest = t :: rest0 → False := by
    intro s ts hts h
    simp only [List.cons_append, List.cons.injEq] at h
    have h3 := suffixAt_append_left ts rest hts
    rw [h.2, hs] at h3
    exact absurd h3 (by decide)
  cases p with
  | value v =>
      obtain ⟨t1, h1, -⟩ := v.yield_eq
      simp only [PrimaryExpression.yield, h1, List.cons_append, List.nil_append,
        List.cons.injEq] at h ⊢
      exact ⟨⟨h.1, trivial⟩, h.2⟩
  | identifier s =>
      simp only [PrimaryExpression.yield, List.cons_append, List.nil_append,
        List.cons.injEq] at h ⊢
      exact ⟨⟨h.1, trivial⟩, h.2⟩
  | grouped_expression e =>
      simp only [PrimaryExpression.yield, List.cons_append, List.cons.injEq] at h
      rw [← h.1] at ht; exact absurd ht (by decide)
  | array_expression es =>
      simp only [PrimaryExpression.yield, List.cons_append, List.cons.injEq] at h
      rw [← h.1] at ht; exact absurd ht (by decide)
  | index_expression x =>
      obtain ⟨s, ts, h1, h2⟩ := x.index_head
      rw [PrimaryExpression.yield, h1] at h
      exact (key s ts h2 h).elim
  | slice_expression x =>
      obtain ⟨s, ts, h1, h2⟩ := x.slice_head
      rw [PrimaryExpression.yield, h1] at h
      exact (key s ts h2 h).elim
  | method_call x =>
      obtain ⟨s, ts, h1, h2⟩ := x.method_call_head
      rw [PrimaryExpression.yield, h1] at h
      exact (key s ts h2 h).elim
  | function_call x =>
      obtain ⟨s, ts, h1, h2⟩ := x.function_call_head
      rw [PrimaryExpression.yield, h1] at h
      exact (key s ts h2 h).elim

/-- A primary expression of one token is a value or an identifier, and the token is an
operand. -/
theorem PrimaryExpression.single_token (p : PrimaryExpression) (h : p.yield.length = 1) :
    ∃ t, p.yield = [t] ∧ t.isOperand = true := by
  have key : ∀ s ts, suffixAt ts = true → (Tok.identifier s :: ts).length = 1 → False := by
    intro s ts hts h
    cases ts with
    | nil => simp [suffixAt] at hts
    | cons a as => simp at h
  cases p with
  | value v =>
      obtain ⟨t1, h1, h2⟩ := v.yield_eq
      exact ⟨t1, by simp [PrimaryExpression.yield, h1], h2⟩
  | identifier s => exact ⟨_, rfl, rfl⟩
  | grouped_expression e => simp [PrimaryExpression.yield] at h
  | array_expression es => simp [PrimaryExpression.yield] at h
  | index_expression x =>
      obtain ⟨s, ts, h1, h2⟩ := x.index_head
      rw [PrimaryExpression.yield, h1] at h
      exact (key s ts h2 h).elim
  | slice_expression x =>
      obtain ⟨s, ts, h1, h2⟩ := x.slice_head
      rw [PrimaryExpression.yield, h1] at h
      exact (key s ts h2 h).elim
  | method_call x =>
      obtain ⟨s, ts, h1, h2⟩ := x.method_call_head
      rw [PrimaryExpression.yield, h1] at h
      exact (key s ts h2 h).elim
  | function_call x =>
      obtain ⟨s, ts, h1, h2⟩ := x.function_call_head
      rw [PrimaryExpression.yield, h1] at h
      exact (key s ts h2 h).elim

/-- Two primary expressions with the same single token are the same tree. -/
theorem PrimaryExpression.eq_of_single_token (p q : PrimaryExpression) (t : Tok)
    (hp : p.yield = [t]) (hq : q.yield = [t]) : p = q := by
  have key : ∀ s ts, suffixAt ts = true → (Tok.identifier s :: ts) = [t] → False := by
    intro s ts hts h
    cases ts with
    | nil => simp [suffixAt] at hts
    | cons a as => simp at h
  have compound : ∀ r : PrimaryExpression, r.yield = [t] →
      (∃ v, r = .value v) ∨ (∃ s, r = .identifier s) := by
    intro r hr
    cases r with
    | value v => exact .inl ⟨v, rfl⟩
    | identifier s => exact .inr ⟨s, rfl⟩
    | grouped_expression e => simp [PrimaryExpression.yield] at hr
    | array_expression es => simp [PrimaryExpression.yield] at hr
    | index_expression x =>
        obtain ⟨s, ts, h1, h2⟩ := x.index_head
        rw [PrimaryExpression.yield, h1] at hr
        exact (key s ts h2 hr).elim
    | slice_expression x =>
        obtain ⟨s, ts, h1, h2⟩ := x.slice_head
        rw [PrimaryExpression.yield, h1] at hr
        exact (key s ts h2 hr).elim
    | method_call x =>
        obtain ⟨s, ts, h1, h2⟩ := x.method_call_head
        rw [PrimaryExpression.yield, h1] at hr
        exact (key s ts h2 hr).elim
    | function_call x =>
        obtain ⟨s, ts, h1, h2⟩ := x.function_call_head
        rw [PrimaryExpression.yield, h1] at hr
        exact (key s ts h2 hr).elim
  rcases compound p hp with ⟨v, rfl⟩ | ⟨s, rfl⟩ <;> rcases compound q hq with ⟨w, rfl⟩ | ⟨u, rfl⟩
  · simp only [PrimaryExpression.yield] at hp hq
    rw [Value.yield_inj v w (hp.trans hq.symm)]
  · simp only [PrimaryExpression.yield] at hp hq
    rw [← hq] at hp
    cases v with
    | bool b => cases b <;> simp [Value.yield] at hp
    | _ => simp [Value.yield] at hp
  · simp only [PrimaryExpression.yield] at hp hq
    rw [← hp] at hq
    cases w with
    | bool b => cases b <;> simp [Value.yield] at hq
    | _ => simp [Value.yield] at hq
  · simp only [PrimaryExpression.yield] at hp hq
    rw [← hp] at hq
    simp at hq
    rw [hq]

theorem suffixAt_of_stopsAt (ts : List Tok) (h : stopsAt ts = true) : suffixAt ts = false := by
  cases ts with
  | nil => rfl
  | cons t ts => simp_all [suffixAt, stopsAt]

theorem suffixAt_operator (o : InfixOp) (ts : List Tok) : suffixAt (.lit o.text :: ts) = false := by
  rcases o with op | _
  · cases op <;> simp [suffixAt, Tok.opensSuffix, InfixOp.text, BinOp.text]
  · simp [suffixAt, Tok.opensSuffix, InfixOp.text]

theorem stopsAt_operator (o : InfixOp) (ts : List Tok) : stopsAt (.lit o.text :: ts) = false := by
  simp [stopsAt, o.operator_token]

/-- An expression that begins at an operand token followed by a token that continues nothing
is that token alone. -/
theorem Expression.token_then_stop : (e : Expression) → (rest : List Tok) → (t : Tok) →
    (rest0 : List Tok) → t.isOperand = true → stopsAt rest0 = true →
    e.yield ++ rest = t :: rest0 → ∃ p, e = .primary p ∧ p.yield = [t] ∧ rest = rest0
  | .primary p, rest, t, rest0, ht, hs, h => by
      obtain ⟨h1, h2⟩ := p.token_then rest t rest0 ht (suffixAt_of_stopsAt _ hs)
        (by simpa [Expression.yield] using h)
      exact ⟨p, rfl, h1, h2⟩
  | .binary_expression l op r, rest, t, rest0, ht, hs, h => by
      have h' : l.yield ++ (.lit op.text :: (r.yield ++ rest)) = t :: rest0 := by
        simpa [Expression.yield] using h
      obtain ⟨p, -, -, h3⟩ := Expression.token_then_stop l _ t rest0 ht hs h'
      have h5 : stopsAt (Tok.lit op.text :: (r.yield ++ rest)) = false :=
        stopsAt_operator (.binary op) _
      rw [← h3, h5] at hs
      exact absurd hs (by decide)
  | .has_expression o i, rest, t, rest0, ht, hs, h => by
      have h' : o.yield ++ (.lit "has" :: (i.yield ++ rest)) = t :: rest0 := by
        simpa [Expression.yield] using h
      obtain ⟨p, -, -, h3⟩ := Expression.token_then_stop o _ t rest0 ht hs h'
      have h5 : stopsAt (Tok.lit "has" :: (i.yield ++ rest)) = false :=
        stopsAt_operator .has _
      rw [← h3, h5] at hs
      exact absurd hs (by decide)
  | .unary_expression op e, rest, t, rest0, ht, hs, h => by
      simp only [Expression.yield, List.cons_append, List.cons.injEq] at h
      rw [← h.1, UnOp.unary_not_operand] at ht; exact absurd ht (by decide)
  | .lambda_block ps b, rest, t, rest0, ht, hs, h => by
      simp only [Expression.yield, List.cons_append, List.cons.injEq] at h
      rw [← h.1] at ht; exact absurd ht (by decide)
  | .lambda_arrow ps b, rest, t, rest0, ht, hs, h => by
      simp only [Expression.yield, List.cons_append, List.cons.injEq] at h
      rw [← h.1] at ht; exact absurd ht (by decide)
  | .dialogue _ _, rest, t, rest0, ht, hs, h => by
      simp only [Expression.yield, List.cons_append, List.cons.injEq] at h
      rw [← h.1] at ht; exact absurd ht (by decide)
  | .skill_check _ _ _ _, rest, t, rest0, ht, hs, h => by
      simp only [Expression.yield, List.cons_append, List.cons.injEq] at h
      rw [← h.1] at ht; exact absurd ht (by decide)

/-- The ways an expression can begin a sequence `operand operator operand` that is followed
by a token that continues nothing. -/
theorem Expression.two_operands : (e : Expression) → (rest : List Tok) → (a : Tok) →
    (o : InfixOp) → (b : Tok) → (rest0 : List Tok) →
    a.isOperand = true → b.isOperand = true → stopsAt rest0 = true →
    e.yield ++ rest = a :: .lit o.text :: b :: rest0 →
    (∃ pa, e = .primary pa ∧ pa.yield = [a] ∧ rest = .lit o.text :: b :: rest0) ∨
    (∃ pa pb, e = o.apply (.primary pa) (.primary pb) ∧ pa.yield = [a] ∧ pb.yield = [b]
      ∧ rest = rest0)
  | .primary p, rest, a, o, b, rest0, ha, hb, hs, h => by
      obtain ⟨h1, h2⟩ := p.token_then rest a _ ha (suffixAt_operator o _)
        (by simpa [Expression.yield] using h)
      exact .inl ⟨p, rfl, h1, h2⟩
  | .binary_expression l op r, rest, a, o, b, rest0, ha, hb, hs, h => by
      have h' : l.yield ++ (.lit op.text :: (r.yield ++ rest)) = a :: .lit o.text :: b :: rest0 := by
        simpa [Expression.yield] using h
      rcases Expression.two_operands l _ a o b rest0 ha hb hs h' with
        ⟨pa, rfl, h1, h2⟩ | ⟨pa, pb, -, -, -, h2⟩
      · simp only [List.cons.injEq, Tok.lit.injEq] at h2
        obtain ⟨pb, rfl, h3, h4⟩ := Expression.token_then_stop r rest b rest0 hb hs h2.2
        have ho : o = .binary op := (InfixOp.operator_text_inj (.binary op) o h2.1).symm
        subst ho
        exact .inr ⟨pa, pb, rfl, h1, h3, h4⟩
      · have h5 : stopsAt (Tok.lit op.text :: (r.yield ++ rest)) = false :=
          stopsAt_operator (.binary op) _
        rw [← h2, h5] at hs
        exact absurd hs (by decide)
  | .has_expression l r, rest, a, o, b, rest0, ha, hb, hs, h => by
      have h' : l.yield ++ (.lit "has" :: (r.yield ++ rest)) = a :: .lit o.text :: b :: rest0 := by
        simpa [Expression.yield] using h
      rcases Expression.two_operands l _ a o b rest0 ha hb hs h' with
        ⟨pa, rfl, h1, h2⟩ | ⟨pa, pb, -, -, -, h2⟩
      · simp only [List.cons.injEq, Tok.lit.injEq] at h2
        obtain ⟨pb, rfl, h3, h4⟩ := Expression.token_then_stop r rest b rest0 hb hs h2.2
        have ho : o = .has := (InfixOp.operator_text_inj .has o h2.1).symm
        subst ho
        exact .inr ⟨pa, pb, rfl, h1, h3, h4⟩
      · have h5 : stopsAt (Tok.lit "has" :: (r.yield ++ rest)) = false :=
          stopsAt_operator .has _
        rw [← h2, h5] at hs
        exact absurd hs (by decide)
  | .unary_expression op e, rest, a, o, b, rest0, ha, hb, hs, h => by
      simp only [Expression.yield, List.cons_append, List.cons.injEq] at h
      rw [← h.1, UnOp.unary_not_operand] at ha; exact absurd ha (by decide)
  | .lambda_block ps _, rest, a, o, b, rest0, ha, hb, hs, h => by
      simp only [Expression.yield, List.cons_append, List.cons.injEq] at h
      rw [← h.1] at ha; exact absurd ha (by decide)
  | .lambda_arrow ps _, rest, a, o, b, rest0, ha, hb, hs, h => by
      simp only [Expression.yield, List.cons_append, List.cons.injEq] at h
      rw [← h.1] at ha; exact absurd ha (by decide)
  | .dialogue _ _, rest, a, o, b, rest0, ha, hb, hs, h => by
      simp only [Expression.yield, List.cons_append, List.cons.injEq] at h
      rw [← h.1] at ha; exact absurd ha (by decide)
  | .skill_check _ _ _ _, rest, a, o, b, rest0, ha, hb, hs, h => by
      simp only [Expression.yield, List.cons_append, List.cons.injEq] at h
      rw [← h.1] at ha; exact absurd ha (by decide)


/-- The ways an expression can begin a sequence `operand operator operand operator operand`
that is followed by a token that continues nothing. -/
theorem Expression.three_operands : (e : Expression) → (rest : List Tok) → (a : Tok) →
    (o1 : InfixOp) → (b : Tok) → (o2 : InfixOp) → (c : Tok) → (rest0 : List Tok) →
    a.isOperand = true → b.isOperand = true → c.isOperand = true → stopsAt rest0 = true →
    e.yield ++ rest = a :: .lit o1.text :: b :: .lit o2.text :: c :: rest0 →
    (∃ pa, e = .primary pa ∧ pa.yield = [a]
      ∧ rest = .lit o1.text :: b :: .lit o2.text :: c :: rest0) ∨
    (∃ pa pb, e = o1.apply (.primary pa) (.primary pb) ∧ pa.yield = [a] ∧ pb.yield = [b]
      ∧ rest = .lit o2.text :: c :: rest0) ∨
    (∃ pa pb pc, e = o2.apply (o1.apply (.primary pa) (.primary pb)) (.primary pc)
      ∧ pa.yield = [a] ∧ pb.yield = [b] ∧ pc.yield = [c] ∧ rest = rest0) ∨
    (∃ pa pb pc, e = o1.apply (.primary pa) (o2.apply (.primary pb) (.primary pc))
      ∧ pa.yield = [a] ∧ pb.yield = [b] ∧ pc.yield = [c] ∧ rest = rest0)
  | .primary p, rest, a, o1, b, o2, c, rest0, ha, hb, hc, hs, h => by
      obtain ⟨h1, h2⟩ := p.token_then rest a _ ha (suffixAt_operator o1 _)
        (by simpa [Expression.yield] using h)
      exact .inl ⟨p, rfl, h1, h2⟩
  | .binary_expression l op r, rest, a, o1, b, o2, c, rest0, ha, hb, hc, hs, h => by
      have h' : l.yield ++ (.lit op.text :: (r.yield ++ rest))
          = a :: .lit o1.text :: b :: .lit o2.text :: c :: rest0 := by
        simpa [Expression.yield] using h
      rcases Expression.three_operands l _ a o1 b o2 c rest0 ha hb hc hs h' with
        ⟨pa, rfl, h1, h2⟩ | ⟨pa, pb, rfl, h1, h1b, h2⟩ | ⟨pa, pb, pc, -, -, -, -, h2⟩
          | ⟨pa, pb, pc, -, -, -, -, h2⟩
      · simp only [List.cons.injEq, Tok.lit.injEq] at h2
        have ho : o1 = .binary op := (InfixOp.operator_text_inj (.binary op) o1 h2.1).symm
        subst ho
        rcases Expression.two_operands r rest b o2 c rest0 hb hc hs h2.2 with
          ⟨pb, rfl, h3, h4⟩ | ⟨pb, pc, rfl, h3, h3c, h4⟩
        · exact .inr (.inl ⟨pa, pb, rfl, h1, h3, h4⟩)
        · exact .inr (.inr (.inr ⟨pa, pb, pc, rfl, h1, h3, h3c, h4⟩))
      · simp only [List.cons.injEq, Tok.lit.injEq] at h2
        have ho : o2 = .binary op := (InfixOp.operator_text_inj (.binary op) o2 h2.1).symm
        subst ho
        obtain ⟨pc, rfl, h3, h4⟩ := Expression.token_then_stop r rest c rest0 hc hs h2.2
        exact .inr (.inr (.inl ⟨pa, pb, pc, rfl, h1, h1b, h3, h4⟩))
      · have h5 : stopsAt (Tok.lit op.text :: (r.yield ++ rest)) = false :=
          stopsAt_operator (.binary op) _
        rw [← h2, h5] at hs
        exact absurd hs (by decide)
      · have h5 : stopsAt (Tok.lit op.text :: (r.yield ++ rest)) = false :=
          stopsAt_operator (.binary op) _
        rw [← h2, h5] at hs
        exact absurd hs (by decide)
  | .has_expression l r, rest, a, o1, b, o2, c, rest0, ha, hb, hc, hs, h => by
      have h' : l.yield ++ (.lit "has" :: (r.yield ++ rest))
          = a :: .lit o1.text :: b :: .lit o2.text :: c :: rest0 := by
        simpa [Expression.yield] using h
      rcases Expression.three_operands l _ a o1 b o2 c rest0 ha hb hc hs h' with
        ⟨pa, rfl, h1, h2⟩ | ⟨pa, pb, rfl, h1, h1b, h2⟩ | ⟨pa, pb, pc, -, -, -, -, h2⟩
          | ⟨pa, pb, pc, -, -, -, -, h2⟩
      · simp only [List.cons.injEq, Tok.lit.injEq] at h2
        have ho : o1 = .has := (InfixOp.operator_text_inj .has o1 h2.1).symm
        subst ho
        rcases Expression.two_operands r rest b o2 c rest0 hb hc hs h2.2 with
          ⟨pb, rfl, h3, h4⟩ | ⟨pb, pc, rfl, h3, h3c, h4⟩
        · exact .inr (.inl ⟨pa, pb, rfl, h1, h3, h4⟩)
        · exact .inr (.inr (.inr ⟨pa, pb, pc, rfl, h1, h3, h3c, h4⟩))
      · simp only [List.cons.injEq, Tok.lit.injEq] at h2
        have ho : o2 = .has := (InfixOp.operator_text_inj .has o2 h2.1).symm
        subst ho
        obtain ⟨pc, rfl, h3, h4⟩ := Expression.token_then_stop r rest c rest0 hc hs h2.2
        exact .inr (.inr (.inl ⟨pa, pb, pc, rfl, h1, h1b, h3, h4⟩))
      · have h5 : stopsAt (Tok.lit "has" :: (r.yield ++ rest)) = false :=
          stopsAt_operator .has _
        rw [← h2, h5] at hs
        exact absurd hs (by decide)
      · have h5 : stopsAt (Tok.lit "has" :: (r.yield ++ rest)) = false :=
          stopsAt_operator .has _
        rw [← h2, h5] at hs
        exact absurd hs (by decide)
  | .unary_expression op e, rest, a, _, _, _, _, rest0, ha, _, _, _, h => by
      simp only [Expression.yield, List.cons_append, List.cons.injEq] at h
      rw [← h.1, UnOp.unary_not_operand] at ha; exact absurd ha (by decide)
  | .lambda_block ps _, rest, a, _, _, _, _, rest0, ha, _, _, _, h => by
      simp only [Expression.yield, List.cons_append, List.cons.injEq] at h
      rw [← h.1] at ha; exact absurd ha (by decide)
  | .lambda_arrow ps _, rest, a, _, _, _, _, rest0, ha, _, _, _, h => by
      simp only [Expression.yield, List.cons_append, List.cons.injEq] at h
      rw [← h.1] at ha; exact absurd ha (by decide)
  | .dialogue _ _, rest, a, _, _, _, _, rest0, ha, _, _, _, h => by
      simp only [Expression.yield, List.cons_append, List.cons.injEq] at h
      rw [← h.1] at ha; exact absurd ha (by decide)
  | .skill_check _ _ _ _, rest, a, _, _, _, _, rest0, ha, _, _, _, h => by
      simp only [Expression.yield, List.cons_append, List.cons.injEq] at h
      rw [← h.1] at ha; exact absurd ha (by decide)

theorem UnOp.unary_text_inj (u v : UnOp) (h : u.text = v.text) : u = v := by
  cases u <;> cases v <;> first | rfl | (exact absurd h (by decide))

/-- The first token of a primary expression is an operand token, `"("` or `"["`. -/
theorem PrimaryExpression.primary_head (p : PrimaryExpression) :
    ∃ t ts, p.yield = t :: ts ∧ (t.isOperand = true ∨ t = .lit "(" ∨ t = .lit "[") := by
  cases p with
  | value v =>
      obtain ⟨t, h1, h2⟩ := v.yield_eq
      exact ⟨t, [], by simp [PrimaryExpression.yield, h1], .inl h2⟩
  | identifier s => exact ⟨_, [], rfl, .inl rfl⟩
  | grouped_expression e => exact ⟨_, _, rfl, .inr (.inl rfl)⟩
  | array_expression es => exact ⟨_, _, rfl, .inr (.inr rfl)⟩
  | index_expression x =>
      obtain ⟨s, ts, h1, -⟩ := x.index_head
      exact ⟨.identifier s, ts, by rw [PrimaryExpression.yield, h1], .inl rfl⟩
  | slice_expression x =>
      obtain ⟨s, ts, h1, -⟩ := x.slice_head
      exact ⟨.identifier s, ts, by rw [PrimaryExpression.yield, h1], .inl rfl⟩
  | method_call x =>
      obtain ⟨s, ts, h1, -⟩ := x.method_call_head
      exact ⟨.identifier s, ts, by rw [PrimaryExpression.yield, h1], .inl rfl⟩
  | function_call x =>
      obtain ⟨s, ts, h1, -⟩ := x.function_call_head
      exact ⟨.identifier s, ts, by rw [PrimaryExpression.yield, h1], .inl rfl⟩

/-- No primary expression begins with a keyword or operator token. -/
theorem PrimaryExpression.head_ne_primary (p : PrimaryExpression) (rest : List Tok) (s : String)
    (rest0 : List Tok) (h1 : (Tok.lit s).isOperand = false) (h2 : s ≠ "(") (h3 : s ≠ "[")
    (h : p.yield ++ rest = .lit s :: rest0) : False := by
  obtain ⟨t, ts, ht, hc⟩ := p.primary_head
  rw [ht] at h
  simp only [List.cons_append, List.cons.injEq] at h
  rcases hc with hc | hc | hc
  · rw [h.1, h1] at hc; exact absurd hc (by decide)
  · rw [hc] at h; exact h2 (by simpa using h.1.symm)
  · rw [hc] at h; exact h3 (by simpa using h.1.symm)

/-- The ways an expression can begin a sequence `unary-operator operand operator operand`
that is followed by a token that continues nothing. -/
theorem Expression.unary_two_operands : (e : Expression) → (rest : List Tok) → (u : UnOp) →
    (a : Tok) → (o : InfixOp) → (b : Tok) → (rest0 : List Tok) →
    a.isOperand = true → b.isOperand = true → stopsAt rest0 = true →
    e.yield ++ rest = .lit u.text :: a :: .lit o.text :: b :: rest0 →
    (∃ pa, e = .unary_expression u (.primary pa) ∧ pa.yield = [a]
      ∧ rest = .lit o.text :: b :: rest0) ∨
    (∃ pa pb, e = .unary_expression u (o.apply (.primary pa) (.primary pb))
      ∧ pa.yield = [a] ∧ pb.yield = [b] ∧ rest = rest0) ∨
    (∃ pa pb, e = o.apply (.unary_expression u (.primary pa)) (.primary pb)
      ∧ pa.yield = [a] ∧ pb.yield = [b] ∧ rest = rest0)
  | .primary p, rest, u, a, o, b, rest0, ha, hb, hs, h => by
      exfalso
      refine p.head_ne_primary rest u.text _ u.unary_not_operand ?_ ?_ (by simpa [Expression.yield] using h)
      · cases u <;> decide
      · cases u <;> decide
  | .unary_expression v x, rest, u, a, o, b, rest0, ha, hb, hs, h => by
      simp only [Expression.yield, List.cons_append, List.cons.injEq, Tok.lit.injEq] at h
      have hv : v = u := UnOp.unary_text_inj v u h.1
      subst hv
      rcases Expression.two_operands x rest a o b rest0 ha hb hs h.2 with
        ⟨pa, rfl, h1, h2⟩ | ⟨pa, pb, rfl, h1, h1b, h2⟩
      · exact .inl ⟨pa, rfl, h1, h2⟩
      · exact .inr (.inl ⟨pa, pb, rfl, h1, h1b, h2⟩)
  | .binary_expression l op r, rest, u, a, o, b, rest0, ha, hb, hs, h => by
      have h' : l.yield ++ (.lit op.text :: (r.yield ++ rest))
          = .lit u.text :: a :: .lit o.text :: b :: rest0 := by
        simpa [Expression.yield] using h
      have h5 : stopsAt (Tok.lit op.text :: (r.yield ++ rest)) = false :=
        stopsAt_operator (.binary op) _
      rcases Expression.unary_two_operands l _ u a o b rest0 ha hb hs h' with
        ⟨pa, rfl, h1, h2⟩ | ⟨pa, pb, -, -, -, h2⟩ | ⟨pa, pb, -, -, -, h2⟩
      · simp only [List.cons.injEq, Tok.lit.injEq] at h2
        have ho : o = .binary op := (InfixOp.operator_text_inj (.binary op) o h2.1).symm
        subst ho
        obtain ⟨pb, rfl, h3, h4⟩ := Expression.token_then_stop r rest b rest0 hb hs h2.2
        exact .inr (.inr ⟨pa, pb, rfl, h1, h3, h4⟩)
      · rw [← h2, h5] at hs; exact absurd hs (by decide)
      · rw [← h2, h5] at hs; exact absurd hs (by decide)
  | .has_expression l r, rest, u, a, o, b, rest0, ha, hb, hs, h => by
      have h' : l.yield ++ (.lit "has" :: (r.yield ++ rest))
          = .lit u.text :: a :: .lit o.text :: b :: rest0 := by
        simpa [Expression.yield] using h
      have h5 : stopsAt (Tok.lit "has" :: (r.yield ++ rest)) = false :=
        stopsAt_operator .has _
      rcases Expression.unary_two_operands l _ u a o b rest0 ha hb hs h' with
        ⟨pa, rfl, h1, h2⟩ | ⟨pa, pb, -, -, -, h2⟩ | ⟨pa, pb, -, -, -, h2⟩
      · simp only [List.cons.injEq, Tok.lit.injEq] at h2
        have ho : o = .has := (InfixOp.operator_text_inj .has o h2.1).symm
        subst ho
        obtain ⟨pb, rfl, h3, h4⟩ := Expression.token_then_stop r rest b rest0 hb hs h2.2
        exact .inr (.inr ⟨pa, pb, rfl, h1, h3, h4⟩)
      · rw [← h2, h5] at hs; exact absurd hs (by decide)
      · rw [← h2, h5] at hs; exact absurd hs (by decide)
  | .lambda_block ps _, rest, u, a, _, _, rest0, ha, _, _, h => by
      simp only [Expression.yield, List.cons_append, List.cons.injEq, Tok.lit.injEq] at h
      cases u <;> exact absurd h.1 (by decide)
  | .lambda_arrow ps _, rest, u, a, _, _, rest0, ha, _, _, h => by
      simp only [Expression.yield, List.cons_append, List.cons.injEq, Tok.lit.injEq] at h
      cases u <;> exact absurd h.1 (by decide)
  | .dialogue _ _, rest, u, a, _, _, rest0, ha, _, _, h => by
      simp only [Expression.yield, List.cons_append, List.cons.injEq, Tok.lit.injEq] at h
      cases u <;> exact absurd h.1 (by decide)
  | .skill_check _ _ _ _, rest, u, a, _, _, rest0, ha, _, _, h => by
      simp only [Expression.yield, List.cons_append, List.cons.injEq, Tok.lit.injEq] at h
      cases u <;> exact absurd h.1 (by decide)

theorem yieldMoreIdentifiers_inj : (ps qs : List String) → (x y : List Tok) →
    yieldMoreIdentifiers ps ++ .lit ")" :: x = yieldMoreIdentifiers qs ++ .lit ")" :: y →
    ps = qs ∧ x = y
  | [], [], x, y, h => by simpa [yieldMoreIdentifiers] using h
  | [], q :: qs, x, y, h => by simp [yieldMoreIdentifiers] at h
  | p :: ps, [], x, y, h => by simp [yieldMoreIdentifiers] at h
  | p :: ps, q :: qs, x, y, h => by
      simp only [yieldMoreIdentifiers, List.cons_append, List.cons.injEq, Tok.identifier.injEq,
        true_and] at h
      obtain ⟨h1, h2⟩ := yieldMoreIdentifiers_inj ps qs x y h.2
      exact ⟨by rw [h.1, h1], h2⟩

/-- A parameter list ends at its `")"`: what follows it is determined. -/
theorem yieldParameterList_inj (ps qs : List String) (x y : List Tok)
    (h : yieldParameterList ps ++ x = yieldParameterList qs ++ y) : ps = qs ∧ x = y := by
  cases ps with
  | nil =>
      cases qs with
      | nil => simpa [yieldParameterList] using h
      | cons q qs => simp [yieldParameterList] at h
  | cons p ps =>
      cases qs with
      | nil => simp [yieldParameterList] at h
      | cons q qs =>
          simp only [yieldParameterList, List.cons_append, List.append_assoc, List.cons.injEq,
            Tok.identifier.injEq, true_and, List.nil_append] at h
          obtain ⟨h1, h2⟩ := yieldMoreIdentifiers_inj ps qs x y h.2
          exact ⟨by rw [h.1, h1], h2⟩

/-- The ways an expression can begin a sequence `fn (params) => operand operator operand` that
is followed by a token that continues nothing. -/
theorem Expression.arrow_two_operands : (e : Expression) → (rest : List Tok) →
    (ps : List String) → (a : Tok) → (o : InfixOp) → (b : Tok) → (rest0 : List Tok) →
    a.isOperand = true → b.isOperand = true → stopsAt rest0 = true →
    e.yield ++ rest
      = .lit "fn" :: (yieldParameterList ps ++ .lit "=>" :: a :: .lit o.text :: b :: rest0) →
    (∃ pa, e = .lambda_arrow ps (.primary pa) ∧ pa.yield = [a]
      ∧ rest = .lit o.text :: b :: rest0) ∨
    (∃ pa pb, e = .lambda_arrow ps (o.apply (.primary pa) (.primary pb))
      ∧ pa.yield = [a] ∧ pb.yield = [b] ∧ rest = rest0) ∨
    (∃ pa pb, e = o.apply (.lambda_arrow ps (.primary pa)) (.primary pb)
      ∧ pa.yield = [a] ∧ pb.yield = [b] ∧ rest = rest0)
  | .primary p, rest, ps, a, o, b, rest0, ha, hb, hs, h => by
      exfalso
      exact p.head_ne_primary rest "fn" _ (by decide) (by decide) (by decide)
        (by simpa [Expression.yield] using h)
  | .lambda_arrow qs x, rest, ps, a, o, b, rest0, ha, hb, hs, h => by
      simp only [Expression.yield, List.cons_append, List.cons.injEq, true_and,
        List.append_assoc] at h
      obtain ⟨h1, h2⟩ := yieldParameterList_inj _ _ _ _ h
      subst h1
      simp only [List.cons.injEq, true_and] at h2
      rcases Expression.two_operands x rest a o b rest0 ha hb hs h2 with
        ⟨pa, rfl, h1, h2⟩ | ⟨pa, pb, rfl, h1, h1b, h2⟩
      · exact .inl ⟨pa, rfl, h1, h2⟩
      · exact .inr (.inl ⟨pa, pb, rfl, h1, h1b, h2⟩)
  | .lambda_block qs (.mk body), rest, ps, a, o, b, rest0, ha, hb, hs, h => by
      simp only [Expression.yield, List.cons_append, List.cons.injEq, true_and,
        List.append_assoc, Block.yield] at h
      obtain ⟨-, h2⟩ := yieldParameterList_inj _ _ _ _ h
      simp at h2
  | .binary_expression l op r, rest, ps, a, o, b, rest0, ha, hb, hs, h => by
      have h' : l.yield ++ (.lit op.text :: (r.yield ++ rest))
          = .lit "fn" :: (yieldParameterList ps ++ .lit "=>" :: a :: .lit o.text :: b :: rest0) := by
        simpa [Expression.yield] using h
      have h5 : stopsAt (Tok.lit op.text :: (r.yield ++ rest)) = false :=
        stopsAt_operator (.binary op) _
      rcases Expression.arrow_two_operands l _ ps a o b rest0 ha hb hs h' with
        ⟨pa, rfl, h1, h2⟩ | ⟨pa, pb, -, -, -, h2⟩ | ⟨pa, pb, -, -, -, h2⟩
      · simp only [List.cons.injEq, Tok.lit.injEq] at h2
        have ho : o = .binary op := (InfixOp.operator_text_inj (.binary op) o h2.1).symm
        subst ho
        obtain ⟨pb, rfl, h3, h4⟩ := Expression.token_then_stop r rest b rest0 hb hs h2.2
        exact .inr (.inr ⟨pa, pb, rfl, h1, h3, h4⟩)
      · rw [← h2, h5] at hs; exact absurd hs (by decide)
      · rw [← h2, h5] at hs; exact absurd hs (by decide)
  | .has_expression l r, rest, ps, a, o, b, rest0, ha, hb, hs, h => by
      have h' : l.yield ++ (.lit "has" :: (r.yield ++ rest))
          = .lit "fn" :: (yieldParameterList ps ++ .lit "=>" :: a :: .lit o.text :: b :: rest0) := by
        simpa [Expression.yield] using h
      have h5 : stopsAt (Tok.lit "has" :: (r.yield ++ rest)) = false :=
        stopsAt_operator .has _
      rcases Expression.arrow_two_operands l _ ps a o b rest0 ha hb hs h' with
        ⟨pa, rfl, h1, h2⟩ | ⟨pa, pb, -, -, -, h2⟩ | ⟨pa, pb, -, -, -, h2⟩
      · simp only [List.cons.injEq, Tok.lit.injEq] at h2
        have ho : o = .has := (InfixOp.operator_text_inj .has o h2.1).symm
        subst ho
        obtain ⟨pb, rfl, h3, h4⟩ := Expression.token_then_stop r rest b rest0 hb hs h2.2
        exact .inr (.inr ⟨pa, pb, rfl, h1, h3, h4⟩)
      · rw [← h2, h5] at hs; exact absurd hs (by decide)
      · rw [← h2, h5] at hs; exact absurd hs (by decide)
  | .unary_expression u _, rest, ps, a, _, _, rest0, ha, _, _, h => by
      simp only [Expression.yield, List.cons_append, List.cons.injEq, Tok.lit.injEq] at h
      cases u <;> exact absurd h.1 (by decide)
  | .dialogue _ _, rest, ps, a, _, _, rest0, ha, _, _, h => by
      simp only [Expression.yield, List.cons_append, List.cons.injEq, Tok.lit.injEq] at h
      exact absurd h.1 (by decide)
  | .skill_check _ _ _ _, rest, ps, a, _, _, rest0, ha, _, _, h => by
      simp only [Expression.yield, List.cons_append, List.cons.injEq, Tok.lit.injEq] at h
      exact absurd h.1 (by decide)

theorem InfixOp.yield_apply (o : InfixOp) (l r : Expression) :
    (o.apply l r).yield = l.yield ++ .lit o.text :: r.yield := by
  cases o <;> simp [InfixOp.apply, InfixOp.text, Expression.yield]

theorem InfixOp.resolved_apply (o : InfixOp) (l r : Expression) :
    (o.apply l r).resolved = (l.resolved && r.resolved && l.reducesBefore o.level
      && r.shiftsAfter ⟨o.level, some .left⟩) := by
  cases o <;> simp [InfixOp.apply, InfixOp.level, Expression.resolved, hasLevel]

theorem InfixOp.reducesBefore_apply (o : InfixOp) (l r : Expression) (q : Int) :
    (o.apply l r).reducesBefore q
      = ((resolve ⟨o.level, some .left⟩ q == .reduce) && r.reducesBefore q) := by
  cases o <;> simp [InfixOp.apply, InfixOp.level, Expression.reducesBefore, hasLevel]

theorem InfixOp.shiftsAfter_apply (o : InfixOp) (l r : Expression) (p : PrecInfo) :
    (o.apply l r).shiftsAfter p = ((resolve p o.level == .shift) && l.shiftsAfter p) := by
  cases o <;> simp [InfixOp.apply, InfixOp.level, Expression.shiftsAfter, hasLevel]

theorem Expression.resolved_primary (p : PrimaryExpression) :
    (Expression.primary p).resolved = p.resolved := by
  simp [Expression.resolved]

theorem Expression.reducesBefore_primary (p : PrimaryExpression) (q : Int) :
    (Expression.primary p).reducesBefore q = true := by
  simp [Expression.reducesBefore]

theorem Expression.shiftsAfter_primary (p : PrimaryExpression) (q : PrecInfo) :
    (Expression.primary p).shiftsAfter q = true := by
  simp [Expression.shiftsAfter]

/-- A looser operator on the left waits: the tighter operator that follows is shifted. -/
theorem resolve_tighter (m n : Int) (a : Option Assoc) (h : m < n) :
    resolve ⟨m, a⟩ n = .shift := by
  simp [resolve, h]

/-- A tighter operator on the left is complete before a looser one. -/
theorem resolve_looser (m n : Int) (a : Option Assoc) (h : n < m) :
    resolve ⟨m, a⟩ n = .reduce := by
  have : ¬ m < n := by omega
  simp [resolve, h, this]

/-- On a tie, a left associative rule is complete before the next operator. -/
theorem resolve_left (m : Int) : resolve ⟨m, some .left⟩ m = .reduce := by
  simp [resolve]

/-- With operands of one token, the tokens `a o1 b o2 c` have exactly two derivations. -/
theorem Expression.three_operand_trees (o1 o2 : InfixOp) (a b c : PrimaryExpression)
    (ha : a.yield.length = 1) (hb : b.yield.length = 1) (hc : c.yield.length = 1)
    (e : Expression)
    (h : e.yield = a.yield ++ .lit o1.text :: (b.yield ++ .lit o2.text :: c.yield)) :
    e = o2.apply (o1.apply (.primary a) (.primary b)) (.primary c)
      ∨ e = o1.apply (.primary a) (o2.apply (.primary b) (.primary c)) := by
  obtain ⟨ta, hta, ha'⟩ := a.single_token ha
  obtain ⟨tb, htb, hb'⟩ := b.single_token hb
  obtain ⟨tc, htc, hc'⟩ := c.single_token hc
  rw [hta, htb, htc] at h
  have h' : e.yield ++ [] = ta :: .lit o1.text :: tb :: .lit o2.text :: tc :: [] := by
    simpa using h
  rcases Expression.three_operands e [] ta o1 tb o2 tc [] ha' hb' hc' rfl h' with
    ⟨_, _, _, h2⟩ | ⟨_, _, _, _, _, h2⟩ | ⟨pa, pb, pc, rfl, h1, h2, h3, -⟩
      | ⟨pa, pb, pc, rfl, h1, h2, h3, -⟩
  · exact absurd h2 (by simp)
  · exact absurd h2 (by simp)
  · rw [a.eq_of_single_token pa ta hta h1, b.eq_of_single_token pb tb htb h2,
      c.eq_of_single_token pc tc htc h3]
    exact .inl rfl
  · rw [a.eq_of_single_token pa ta hta h1, b.eq_of_single_token pb tb htb h2,
      c.eq_of_single_token pc tc htc h3]
    exact .inr rfl

/-- Resolution of `(a o1 b) o2 c` over primary operands. -/
theorem InfixOp.resolved_left_nested (o1 o2 : InfixOp) (a b c : PrimaryExpression) :
    (o2.apply (o1.apply (.primary a) (.primary b)) (.primary c)).resolved
      = (a.resolved && b.resolved && c.resolved
          && (resolve ⟨o1.level, some .left⟩ o2.level == .reduce)) := by
  simp only [InfixOp.resolved_apply, InfixOp.reducesBefore_apply, Expression.resolved_primary,
    Expression.reducesBefore_primary, Expression.shiftsAfter_primary, Bool.and_true]

/-- Resolution of `a o1 (b o2 c)` over primary operands. -/
theorem InfixOp.resolved_right_nested (o1 o2 : InfixOp) (a b c : PrimaryExpression) :
    (o1.apply (.primary a) (o2.apply (.primary b) (.primary c))).resolved
      = (a.resolved && (b.resolved && c.resolved)
          && (resolve ⟨o1.level, some .left⟩ o2.level == .shift)) := by
  simp only [InfixOp.resolved_apply, InfixOp.shiftsAfter_apply, Expression.resolved_primary,
    Expression.reducesBefore_primary, Expression.shiftsAfter_primary, Bool.and_true]


theorem InfixOp.level_lt_unary (o : InfixOp) : o.level < 8 := by
  rcases o with op | _
  · cases op <;> decide
  · decide

theorem InfixOp.arrow_lt_level (o : InfixOp) : -1 < o.level := by
  rcases o with op | _
  · cases op <;> decide
  · decide

/-- With operands of one token, the tokens `u a o b` have exactly two derivations. -/
theorem Expression.unary_operand_trees (u : UnOp) (o : InfixOp) (a b : PrimaryExpression)
    (ha : a.yield.length = 1) (hb : b.yield.length = 1) (e : Expression)
    (h : e.yield = .lit u.text :: (a.yield ++ .lit o.text :: b.yield)) :
    e = .unary_expression u (o.apply (.primary a) (.primary b))
      ∨ e = o.apply (.unary_expression u (.primary a)) (.primary b) := by
  obtain ⟨ta, hta, ha'⟩ := a.single_token ha
  obtain ⟨tb, htb, hb'⟩ := b.single_token hb
  rw [hta, htb] at h
  have h' : e.yield ++ [] = .lit u.text :: ta :: .lit o.text :: tb :: [] := by
    simpa using h
  rcases Expression.unary_two_operands e [] u ta o tb [] ha' hb' rfl h' with
    ⟨_, _, _, h2⟩ | ⟨pa, pb, rfl, h1, h2, -⟩ | ⟨pa, pb, rfl, h1, h2, -⟩
  · exact absurd h2 (by simp)
  · rw [a.eq_of_single_token pa ta hta h1, b.eq_of_single_token pb tb htb h2]
    exact .inl rfl
  · rw [a.eq_of_single_token pa ta hta h1, b.eq_of_single_token pb tb htb h2]
    exact .inr rfl

/-- With operands of one token, the tokens `fn (ps) => a o b` have exactly two derivations. -/
theorem Expression.arrow_operand_trees (ps : List String) (o : InfixOp)
    (a b : PrimaryExpression) (ha : a.yield.length = 1) (hb : b.yield.length = 1)
    (e : Expression)
    (h : e.yield
      = .lit "fn" :: (yieldParameterList ps ++ .lit "=>" :: (a.yield ++ .lit o.text :: b.yield))) :
    e = .lambda_arrow ps (o.apply (.primary a) (.primary b))
      ∨ e = o.apply (.lambda_arrow ps (.primary a)) (.primary b) := by
  obtain ⟨ta, hta, ha'⟩ := a.single_token ha
  obtain ⟨tb, htb, hb'⟩ := b.single_token hb
  rw [hta, htb] at h
  have h' : e.yield ++ []
      = .lit "fn" :: (yieldParameterList ps ++ .lit "=>" :: ta :: .lit o.text :: tb :: []) := by
    simpa using h
  rcases Expression.arrow_two_operands e [] ps ta o tb [] ha' hb' rfl h' with
    ⟨_, _, _, h2⟩ | ⟨pa, pb, rfl, h1, h2, -⟩ | ⟨pa, pb, rfl, h1, h2, -⟩
  · exact absurd h2 (by simp)
  · rw [a.eq_of_single_token pa ta hta h1, b.eq_of_single_token pb tb htb h2]
    exact .inl rfl
  · rw [a.eq_of_single_token pa ta hta h1, b.eq_of_single_token pb tb htb h2]
    exact .inr rfl

/-- Resolution of `(u a) o b` over primary operands. -/
theorem InfixOp.resolved_unary_left (u : UnOp) (o : InfixOp) (a b : PrimaryExpression) :
    (o.apply (.unary_expression u (.primary a)) (.primary b)).resolved
      = (a.resolved && b.resolved) := by
  have h : resolve ⟨8, none⟩ o.level = .reduce := resolve_looser _ _ _ o.level_lt_unary
  simp [InfixOp.resolved_apply, Expression.resolved, Expression.reducesBefore,
    Expression.shiftsAfter, h]

/-- Resolution of `u (a o b)` over primary operands. -/
theorem InfixOp.resolved_unary_over (u : UnOp) (o : InfixOp) (a b : PrimaryExpression) :
    (Expression.unary_expression u (o.apply (.primary a) (.primary b))).resolved = false := by
  have h : resolve ⟨8, none⟩ o.level = .reduce := resolve_looser _ _ _ o.level_lt_unary
  simp [Expression.resolved, InfixOp.shiftsAfter_apply, h]

/-- Resolution of `fn (ps) => (a o b)` over primary operands. -/
theorem InfixOp.resolved_arrow_over (ps : List String) (o : InfixOp) (a b : PrimaryExpression) :
    (Expression.lambda_arrow ps (o.apply (.primary a) (.primary b))).resolved
      = (a.resolved && b.resolved) := by
  have h : resolve ⟨-1, some .right⟩ o.level = .shift := resolve_tighter _ _ _ o.arrow_lt_level
  simp [Expression.resolved, InfixOp.resolved_apply, InfixOp.shiftsAfter_apply,
    Expression.reducesBefore, Expression.shiftsAfter, h]

/-- Resolution of `(fn (ps) => a) o b` over primary operands. -/
theorem InfixOp.resolved_arrow_left (ps : List String) (o : InfixOp) (a b : PrimaryExpression) :
    (o.apply (.lambda_arrow ps (.primary a)) (.primary b)).resolved = false := by
  have h : resolve ⟨-1, some .right⟩ o.level = .shift := resolve_tighter _ _ _ o.arrow_lt_level
  simp [InfixOp.resolved_apply, Expression.reducesBefore, h]

/-! ## The claims -/

/-- C1. Binary operator precedence follows the levels 1 (`or`) to 7 (`*`, `/`, `%`) of the
grammar.  For primary operands `a`, `b`, `c` and binary operators `p`, `q` with `q` strictly
tighter than `p`: the tokens `a p b q c` parse as `p(a, q(b, c))` and the grouping
`q(p(a, b), c)` of the same tokens is rejected; the tokens `a q b p c` parse as
`p(q(a, b), c)` and the grouping `q(a, p(b, c))` is rejected.  When the operands are single
tokens, no other tree at all derives these tokens and is kept. -/
theorem binary_precedence (p q : BinOp) (a b c : PrimaryExpression)
    (hpq : p.level < q.level)
    (ha : a.resolved = true) (hb : b.resolved = true) (hc : c.resolved = true) :
    [BinOp.or, .and, .eq, .ne, .lt, .gt, .le, .ge, .range, .add, .sub, .mul, .div, .mod].map
        BinOp.level = [1, 2, 3, 3, 4, 4, 4, 4, 5, 6, 6, 7, 7, 7]
    ∧ (Expression.ParsesAs (a.yield ++ .lit p.text :: (b.yield ++ .lit q.text :: c.yield))
        (.binary_expression (.primary a) p (.binary_expression (.primary b) q (.primary c)))
      ∧ (Expression.binary_expression (.binary_expression (.primary a) p (.primary b)) q
          (.primary c)).yield = a.yield ++ .lit p.text :: (b.yield ++ .lit q.text :: c.yield)
      ∧ (Expression.binary_expression (.binary_expression (.primary a) p (.primary b)) q
          (.primary c)).resolved = false)
    ∧ (Expression.ParsesAs (a.yield ++ .lit q.text :: (b.yield ++ .lit p.text :: c.yield))
        (.binary_expression (.binary_expression (.primary a) q (.primary b)) p (.primary c))
      ∧ (Expression.binary_expression (.primary a) q (.binary_expression (.primary b) p
          (.primary c))).yield = a.yield ++ .lit q.text :: (b.yield ++ .lit p.text :: c.yield)
      ∧ (Expression.binary_expression (.primary a) q (.binary_expression (.primary b) p
          (.primary c))).resolved = false)
    ∧ (a.yield.length = 1 → b.yield.length = 1 → c.yield.length = 1 →
        (∀ e, Expression.ParsesAs
            (a.yield ++ .lit p.text :: (b.yield ++ .lit q.text :: c.yield)) e →
          e = .binary_expression (.primary a) p
            (.binary_expression (.primary b) q (.primary c)))
        ∧ (∀ e, Expression.ParsesAs
            (a.yield ++ .lit q.text :: (b.yield ++ .lit p.text :: c.yield)) e →
          e = .binary_expression (.binary_expression (.primary a) q (.primary b)) p
            (.primary c))) := by
  have h1 : resolve ⟨p.level, some .left⟩ q.level = .shift := resolve_tighter _ _ _ hpq
  have h2 : resolve ⟨q.level, some .left⟩ p.level = .reduce := resolve_looser _ _ _ hpq
  have r1 := InfixOp.resolved_right_nested (.binary p) (.binary q) a b c
  have r2 := InfixOp.resolved_left_nested (.binary p) (.binary q) a b c
  have r3 := InfixOp.resolved_left_nested (.binary q) (.binary p) a b c
  have r4 := InfixOp.resolved_right_nested (.binary q) (.binary p) a b c
  simp only [InfixOp.apply, InfixOp.level, ha, hb, hc, h1, h2, Bool.and_true, beq_self_eq_true]
    at r1 r2 r3 r4
  have r2' : (Expression.binary_expression (.binary_expression (.primary a) p (.primary b)) q
      (.primary c)).resolved = false := by rw [r2]; decide
  have r4' : (Expression.binary_expression (.primary a) q (.binary_expression (.primary b) p
      (.primary c))).resolved = false := by rw [r4]; decide
  refine ⟨by decide, ⟨⟨by simp [Expression.yield], r1⟩, by simp [Expression.yield], r2'⟩,
    ⟨⟨by simp [Expression.yield], r3⟩, by simp [Expression.yield], r4'⟩, ?_⟩
  intro la lb lc
  constructor
  · intro e he
    rcases Expression.three_operand_trees (.binary p) (.binary q) a b c la lb lc e he.1 with h | h
    · rw [h] at he
      exact absurd (he.2.symm.trans r2') (by decide)
    · exact h
  · intro e he
    rcases Expression.three_operand_trees (.binary q) (.binary p) a b c la lb lc e he.1 with h | h
    · exact h
    · rw [h] at he
      exact absurd (he.2.symm.trans r4') (by decide)

/-- C1 at `1 + 2 * 3`: the parse is `Add(1, Mul(2, 3))`, and `Mul(Add(1, 2), 3)` is
rejected. -/
theorem binary_precedence_witness :
    BinOp.add.level < BinOp.mul.level
    ∧ Expression.ParsesAs [.num "1", .lit "+", .num "2", .lit "*", .num "3"]
        (.binary_expression (.primary (.value (.num "1"))) .add
          (.binary_expression (.primary (.value (.num "2"))) .mul
            (.primary (.value (.num "3")))))
    ∧ (Expression.binary_expression
        (.binary_expression (.primary (.value (.num "1"))) .add
          (.primary (.value (.num "2")))) .mul
        (.primary (.value (.num "3")))).resolved = false :=
  ⟨by decide,
    (binary_precedence .add .mul (.value (.num "1")) (.value (.num "2")) (.value (.num "3"))
      (by decide) rfl rfl rfl).2.1.1,
    (binary_precedence .add .mul (.value (.num "1")) (.value (.num "2")) (.value (.num "3"))
      (by decide) rfl rfl rfl).2.1.2.2⟩

/-- C2. Every binary operator level is left associative.  For primary operands `a`, `b`,
`c` and binary operators `p`, `q` of the same level (also `p = q`): the tokens `a p b q c`
parse as `q(p(a, b), c)`, and the grouping `p(a, q(b, c))` of the same tokens is rejected.
When the operands are single tokens, no other tree at all derives these tokens and is
kept. -/
theorem binary_left_associative (p q : BinOp) (a b c : PrimaryExpression)
    (hpq : p.level = q.level)
    (ha : a.resolved = true) (hb : b.resolved = true) (hc : c.resolved = true) :
    Expression.ParsesAs (a.yield ++ .lit p.text :: (b.yield ++ .lit q.text :: c.yield))
        (.binary_expression (.binary_expression (.primary a) p (.primary b)) q (.primary c))
    ∧ (Expression.binary_expression (.primary a) p (.binary_expression (.primary b) q
          (.primary c))).yield = a.yield ++ .lit p.text :: (b.yield ++ .lit q.text :: c.yield)
    ∧ (Expression.binary_expression (.primary a) p (.binary_expression (.primary b) q
          (.primary c))).resolved = false
    ∧ (a.yield.length = 1 → b.yield.length = 1 → c.yield.length = 1 →
        ∀ e, Expression.ParsesAs
            (a.yield ++ .lit p.text :: (b.yield ++ .lit q.text :: c.yield)) e →
          e = .binary_expression (.binary_expression (.primary a) p (.primary b)) q
            (.primary c)) := by
  have h1 : resolve ⟨p.level, some .left⟩ q.level = .reduce := by
    rw [hpq]; exact resolve_left _
  have r1 := InfixOp.resolved_left_nested (.binary p) (.binary q) a b c
  have r2 := InfixOp.resolved_right_nested (.binary p) (.binary q) a b c
  simp only [InfixOp.apply, InfixOp.level, ha, hb, hc, h1, Bool.and_true, beq_self_eq_true]
    at r1 r2
  have r2' : (Expression.binary_expression (.primary a) p (.binary_expression (.primary b) q
      (.primary c))).resolved = false := by rw [r2]; decide
  refine ⟨⟨by simp [Expression.yield], r1⟩, by simp [Expression.yield], r2', ?_⟩
  intro la lb lc e he
  rcases Expression.three_operand_trees (.binary p) (.binary q) a b c la lb lc e he.1 with h | h
  · exact h
  · rw [h] at he
    exact absurd (he.2.symm.trans r2') (by decide)

/-- C2 at `a - b - c`: the parse is `Sub(Sub(a, b), c)`, and `Sub(a, Sub(b, c))` is
rejected. -/
theorem binary_left_associative_witness :
    BinOp.sub.level = BinOp.sub.level
    ∧ Expression.ParsesAs
        [.identifier "a", .lit "-", .identifier "b", .lit "-", .identifier "c"]
        (.binary_expression
          (.binary_expression (.primary (.identifier "a")) .sub (.primary (.identifier "b")))
          .sub (.primary (.identifier "c")))
    ∧ (Expression.binary_expression (.primary (.identifier "a")) .sub
        (.binary_expression (.primary (.identifier "b")) .sub
          (.primary (.identifier "c")))).resolved = false :=
  ⟨rfl,
    (binary_left_associative .sub .sub (.identifier "a") (.identifier "b") (.identifier "c")
      rfl rfl rfl rfl).1,
    (binary_left_associative .sub .sub (.identifier "a") (.identifier "b") (.identifier "c")
      rfl rfl rfl rfl).2.2.1⟩

/-- C3. Unary operators bind tighter than every binary operator and than `has`.  For a
prefix operator `u` (`-` or `not`), primary operands `a`, `b` and a binary operator `p`:
the tokens `u a p b` parse as `p(u(a), b)` and the tree `u(p(a, b))` over the same tokens
is rejected; likewise `u a has b` parses as `has(u(a), b)` and `u(has(a, b))` is rejected.
When the operands are single tokens, no other tree at all derives these tokens and is
kept. -/
theorem unary_binds_tighter (u : UnOp) (p : BinOp) (a b : PrimaryExpression)
    (ha : a.resolved = true) (hb : b.resolved = true) :
    (Expression.ParsesAs (.lit u.text :: (a.yield ++ .lit p.text :: b.yield))
        (.binary_expression (.unary_expression u (.primary a)) p (.primary b))
      ∧ (Expression.unary_expression u (.binary_expression (.primary a) p (.primary b))).yield
          = .lit u.text :: (a.yield ++ .lit p.text :: b.yield)
      ∧ (Expression.unary_expression u
          (.binary_expression (.primary a) p (.primary b))).resolved = false)
    ∧ (Expression.ParsesAs (.lit u.text :: (a.yield ++ .lit "has" :: b.yield))
        (.has_expression (.unary_expression u (.primary a)) (.primary b))
      ∧ (Expression.unary_expression u (.has_expression (.primary a) (.primary b))).yield
          = .lit u.text :: (a.yield ++ .lit "has" :: b.yield)
      ∧ (Expression.unary_expression u
          (.has_expression (.primary a) (.primary b))).resolved = false)
    ∧ (a.yield.length = 1 → b.yield.length = 1 →
        (∀ e, Expression.ParsesAs (.lit u.text :: (a.yield ++ .lit p.text :: b.yield)) e →
          e = .binary_expression (.unary_expression u (.primary a)) p (.primary b))
        ∧ (∀ e, Expression.ParsesAs (.lit u.text :: (a.yield ++ .lit "has" :: b.yield)) e →
          e = .has_expression (.unary_expression u (.primary a)) (.primary b))) := by
  have r1 := InfixOp.resolved_unary_left u (.binary p) a b
  have r2 := InfixOp.resolved_unary_over u (.binary p) a b
  have r3 := InfixOp.resolved_unary_left u .has a b
  have r4 := InfixOp.resolved_unary_over u .has a b
  simp only [InfixOp.apply, ha, hb, Bool.and_true] at r1 r2 r3 r4
  refine ⟨⟨⟨by simp [Expression.yield], r1⟩, by simp [Expression.yield], r2⟩,
    ⟨⟨by simp [Expression.yield], r3⟩, by simp [Expression.yield], r4⟩, ?_⟩
  intro la lb
  constructor
  · intro e he
    rcases Expression.unary_operand_trees u (.binary p) a b la lb e he.1 with h | h
    · rw [h] at he
      exact absurd (he.2.symm.trans r2) (by decide)
    · exact h
  · intro e he
    rcases Expression.unary_operand_trees u .has a b la lb e he.1 with h | h
    · rw [h] at he
      exact absurd (he.2.symm.trans r4) (by decide)
    · exact h

/-- C3 at `- a + b`: the parse is `Add(Neg(a), b)`, and `Neg(Add(a, b))` is rejected. -/
theorem unary_binds_tighter_witness :
    Expression.ParsesAs [.lit "-", .identifier "a", .lit "+", .identifier "b"]
        (.binary_expression (.unary_expression .neg (.primary (.identifier "a"))) .add
          (.primary (.identifier "b")))
    ∧ (Expression.unary_expression .neg
        (.binary_expression (.primary (.identifier "a")) .add
          (.primary (.identifier "b")))).resolved = false :=
  ⟨(unary_binds_tighter .neg .add (.identifier "a") (.identifier "b") rfl rfl).1.1,
    (unary_binds_tighter .neg .add (.identifier "a") (.identifier "b") rfl rfl).1.2.2⟩

/-- C4. An arrow-bodied lambda absorbs the whole following expression.  For every
parameter list `ps`, binary operator `p` and primary operands `a`, `b`: the tokens
`fn (ps) => a p b` parse as the lambda whose body is `p(a, b)`, and the tree
`p(lambda(ps, a), b)` over the same tokens is rejected.  When the operands are single
tokens, no other tree at all derives these tokens and is kept. -/
theorem lambda_arrow_absorbs (ps : List String) (p : BinOp) (a b : PrimaryExpression)
    (ha : a.resolved = true) (hb : b.resolved = true) :
    Expression.ParsesAs
        (.lit "fn" :: (yieldParameterList ps ++ .lit "=>" :: (a.yield ++ .lit p.text :: b.yield)))
        (.lambda_arrow ps (.binary_expression (.primary a) p (.primary b)))
    ∧ (Expression.binary_expression (.lambda_arrow ps (.primary a)) p (.primary b)).yield
        = .lit "fn" :: (yieldParameterList ps ++ .lit "=>" :: (a.yield ++ .lit p.text :: b.yield))
    ∧ (Expression.binary_expression (.lambda_arrow ps (.primary a)) p
        (.primary b)).resolved = false
    ∧ (a.yield.length = 1 → b.yield.length = 1 →
        ∀ e, Expression.ParsesAs
            (.lit "fn" ::
              (yieldParameterList ps ++ .lit "=>" :: (a.yield ++ .lit p.text :: b.yield))) e →
          e = .lambda_arrow ps (.binary_expression (.primary a) p (.primary b))) := by
  have r1 := InfixOp.resolved_arrow_over ps (.binary p) a b
  have r2 := InfixOp.resolved_arrow_left ps (.binary p) a b
  simp only [InfixOp.apply, ha, hb, Bool.and_true] at r1 r2
  refine ⟨⟨by simp [Expression.yield], r1⟩, by simp [Expression.yield], r2, ?_⟩
  intro la lb e he
  rcases Expression.arrow_operand_trees ps (.binary p) a b la lb e he.1 with h | h
  · exact h
  · rw [h] at he
    exact absurd (he.2.symm.trans r2) (by decide)

/-- C4 at `fn (x) => x + 1`: the body of the lambda is `x + 1`. -/
theorem lambda_arrow_absorbs_witness :
    Expression.ParsesAs
        [.lit "fn", .lit "(", .identifier "x", .lit ")", .lit "=>", .identifier "x", .lit "+",
          .num "1"]
        (.lambda_arrow ["x"]
          (.binary_expression (.primary (.identifier "x")) .add (.primary (.value (.num "1")))))
    ∧ (Expression.binary_expression (.lambda_arrow ["x"] (.primary (.identifier "x"))) .add
        (.primary (.value (.num "1")))).resolved = false :=
  ⟨(lambda_arrow_absorbs ["x"] .add (.identifier "x") (.value (.num "1")) rfl rfl).1,
    (lambda_arrow_absorbs ["x"] .add (.identifier "x") (.value (.num "1")) rfl rfl).2.2.1⟩

/-! ## Lemmas on the lexical patterns -/

namespace Regex

theorem matches_nil_iff_nullable (r : Regex) : Matches r [] ↔ r.nullable = true := by
  constructor
  · intro h
    generalize hs : ([] : List Char) = s at h
    induction h with
    | empty => rfl
    | cls p c hp => simp at hs
    | seq a b s t _ _ iha ihb =>
        have hst := List.append_eq_nil.mp hs.symm
        simp [nullable, iha hst.1.symm, ihb hst.2.symm]
    | left a b s _ ih => simp [nullable, ih hs]
    | right a b s _ ih => simp [nullable, ih hs]
    | done a => rfl
    | more a s t _ _ _ _ => rfl
  · intro h
    induction r with
    | never => simp [nullable] at h
    | empty => exact .empty
    | cls p => simp [nullable] at h
    | seq a b iha ihb =>
        simp only [nullable, Bool.and_eq_true] at h
        exact .seq a b [] [] (iha h.1) (ihb h.2)
    | alt a b iha ihb =>
        simp only [nullable, Bool.or_eq_true] at h
        rcases h with h | h
        · exact .left a b [] (iha h)
        · exact .right a b [] (ihb h)
    | star a _ => exact .done a

theorem matches_star_cons (a : Regex) (c : Char) (s : List Char) (h : Matches (.star a) (c :: s)) :
    ∃ s1 s2, s = s1 ++ s2 ∧ Matches a (c :: s1) ∧ Matches (.star a) s2 := by
  generalize hr : Regex.star a = r at h
  generalize hx : c :: s = x at h
  induction h with
  | empty => simp at hr
  | cls p c hp => simp at hr
  | seq a b s t _ _ _ _ => simp at hr
  | left a b s _ _ => simp at hr
  | right a b s _ _ => simp at hr
  | done a => simp at hx
  | more b u t hu ht _ iht =>
      simp only [star.injEq] at hr
      subst hr
      cases u with
      | nil => exact iht rfl (by simpa using hx)
      | cons d u =>
          simp only [List.cons_append, List.cons.injEq] at hx
          obtain ⟨rfl, rfl⟩ := hx
          exact ⟨u, t, rfl, hu, ht⟩

theorem matches_deriv_iff (r : Regex) (c : Char) (s : List Char) :
    Matches (r.deriv c) s ↔ Matches r (c :: s) := by
  induction r generalizing s with
  | never => constructor <;> intro h <;> cases h
  | empty => constructor <;> intro h <;> cases h
  | cls p =>
      constructor
      · intro h
        simp only [deriv] at h
        split at h
        · cases h; exact .cls p c (by assumption)
        · cases h
      · intro h
        cases h with
        | cls _ _ hp => simp only [deriv, hp, if_true]; exact .empty
  | seq a b iha ihb =>
      constructor
      · intro h
        simp only [deriv] at h
        split at h
        · rename_i hn
          cases h with
          | left _ _ _ h =>
              cases h with
              | seq _ _ s1 s2 h1 h2 => exact .seq a b (c :: s1) s2 ((iha s1).mp h1) h2
          | right _ _ _ h =>
              exact .seq a b [] (c :: s) ((matches_nil_iff_nullable a).mpr hn) ((ihb s).mp h)
        · cases h with
          | seq _ _ s1 s2 h1 h2 => exact .seq a b (c :: s1) s2 ((iha s1).mp h1) h2
      · intro h
        generalize hx : c :: s = x at h
        cases h with
        | seq _ _ s1 s2 h1 h2 =>
            cases s1 with
            | nil =>
                simp only [List.nil_append] at hx
                subst hx
                have hn := (matches_nil_iff_nullable a).mp h1
                simp only [deriv, hn, if_true]
                exact .right _ _ _ ((ihb s).mpr h2)
            | cons d s1 =>
                simp only [List.cons_append, List.cons.injEq] at hx
                obtain ⟨rfl, rfl⟩ := hx
                have h3 := Matches.seq _ b s1 s2 ((iha s1).mpr h1) h2
                simp only [deriv]
                split
                · exact .left _ _ _ h3
                · exact h3
  | alt a b iha ihb =>
      constructor
      · intro h
        cases h with
        | left _ _ _ h => exact .left a b _ ((iha s).mp h)
        | right _ _ _ h => exact .right a b _ ((ihb s).mp h)
      · intro h
        cases h with
        | left _ _ _ h => exact .left _ _ _ ((iha s).mpr h)
        | right _ _ _ h => exact .right _ _ _ ((ihb s).mpr h)
  | star a iha =>
      constructor
      · intro h
        cases h with
        | seq _ _ s1 s2 h1 h2 => exact .more a (c :: s1) s2 ((iha s1).mp h1) h2
      · intro h
        obtain ⟨s1, s2, rfl, h1, h2⟩ := matches_star_cons a c s h
        exact .seq _ _ s1 s2 ((iha s1).mpr h1) h2

/-- The matcher accepts exactly the texts the pattern stands for. -/
theorem accepts_iff_matches (r : Regex) (s : List Char) : r.accepts s = true ↔ Matches r s := by
  induction s generalizing r with
  | nil => exact (matches_nil_iff_nullable r).symm
  | cons c s ih => rw [accepts, ih, matches_deriv_iff]

theorem not_accepts_iff (r : Regex) (s : List Char) : r.accepts s = false ↔ ¬ Matches r s := by
  rw [← accepts_iff_matches]; simp

/-- Every character of a matched text lies in some class of the pattern. -/
theorem mentions_of_matches (r : Regex) (s : List Char) (h : Matches r s) :
    ∀ c ∈ s, r.mentions c = true := by
  induction h with
  | empty => simp
  | cls p c hp => simpa [mentions] using hp
  | seq a b s t _ _ iha ihb =>
      intro c hc
      rcases List.mem_append.mp hc with hc | hc
      · simp [mentions, iha c hc]
      · simp [mentions, ihb c hc]
  | left a b s _ ih => intro c hc; simp [mentions, ih c hc]
  | right a b s _ ih => intro c hc; simp [mentions, ih c hc]
  | done a => simp
  | more a s t _ _ iha iht =>
      intro c hc
      rcases List.mem_append.mp hc with hc | hc
      · simpa [mentions] using iha c hc
      · exact iht c hc

/-- What `longest` returns: an accepted beginning that no longer accepted one extends. -/
theorem longest_spec (r : Regex) (s : List Char) :
    match r.longest s with
    | some n => n ≤ s.length ∧ r.accepts (s.take n) = true
        ∧ ∀ m, n < m → m ≤ s.length → r.accepts (s.take m) = false
    | none => ∀ m, m ≤ s.length → r.accepts (s.take m) = false := by
  induction s generalizing r with
  | nil =>
      simp only [longest]
      split
      · rename_i n hn
        split at hn
        · rename_i h0
          cases hn
          exact ⟨le_refl _, by simpa [accepts] using h0, by intro m h1 h2; simp at h2; omega⟩
        · cases hn
      · rename_i hn
        split at hn
        · cases hn
        · rename_i h0
          intro m hm
          simp at hm
          subst hm
          simpa [accepts] using h0
  | cons c cs ih =>
      have ih' := ih (r.deriv c)
      simp only [longest]
      cases hl : (r.deriv c).longest cs with
      | some k =>
          rw [hl] at ih'
          simp only
          refine ⟨by simpa using ih'.1, by simpa [accepts] using ih'.2.1, ?_⟩
          intro m h1 h2
          obtain ⟨j, rfl⟩ : ∃ j, m = j + 1 := ⟨m - 1, by omega⟩
          simpa [accepts] using ih'.2.2 j (by omega) (by simpa using h2)
      | none =>
          rw [hl] at ih'
          simp only at ih' ⊢
          by_cases h0 : r.nullable = true
          · simp only [h0, if_true]
            refine ⟨by simp, by simpa [accepts] using h0, ?_⟩
            intro m h1 h2
            obtain ⟨j, rfl⟩ : ∃ j, m = j + 1 := ⟨m - 1, by omega⟩
            simpa [accepts] using ih' j (by simpa using h2)
          · simp only [h0]
            intro m hm
            cases m with
            | zero => simpa [accepts] using h0
            | succ j => simpa [accepts] using ih' j (by simpa using hm)

/-- The longest accepted beginning is determined by being accepted and not extended. -/
theorem longest_eq_some (r : Regex) (s : List Char) (n : Nat) (hn : n ≤ s.length)
    (h1 : r.accepts (s.take n) = true)
    (h2 : ∀ m, n < m → m ≤ s.length → r.accepts (s.take m) = false) :
    r.longest s = some n := by
  have h := longest_spec r s
  cases hl : r.longest s with
  | none =>
      rw [hl] at h
      have := h n hn
      rw [h1] at this
      exact absurd this (by decide)
  | some k =>
      rw [hl] at h
      simp only at h
      rcases Nat.lt_trichotomy k n with hk | hk | hk
      · have := h.2.2 n hk hn
        rw [h1] at this
        exact absurd this (by decide)
      · rw [hk]
      · have := h2 k hk h.1
        rw [h.2.1] at this
        exact absurd this (by decide)

/-- No beginning is accepted when `longest` finds none. -/
theorem longest_eq_none (r : Regex) (s : List Char)
    (h2 : ∀ m, m ≤ s.length → r.accepts (s.take m) = false) :
    r.longest s = none := by
  have h := longest_spec r s
  cases hl : r.longest s with
  | none => rfl
  | some k =>
      rw [hl] at h
      simp only at h
      have := h2 k h.1
      rw [h.2.1] at this
      exact absurd this (by decide)

end Regex

/-! ## The terminals `dice`, `num` and `identifier` -/

theorem digit_not_letter (c : Char) (h : c.isDigit = true) :
    (c.isAlpha || c == '_') = false := by
  simp only [Char.isDigit, Char.isAlpha, Char.isUpper, Char.isLower, Bool.and_eq_true,
    decide_eq_true_eq, Bool.or_eq_false_iff, Bool.and_eq_false_imp, beq_eq_false_iff_ne] at *
  obtain ⟨h1, h2⟩ := h
  have h1' : 48 ≤ c.val.toNat := h1
  have h2' : c.val.toNat ≤ 57 := h2
  refine ⟨⟨?_, ?_⟩, ?_⟩
  · intro h3
    have : 65 ≤ c.val.toNat := h3
    omega
  · intro h3
    have : 97 ≤ c.val.toNat := h3
    omega
  · intro h3
    subst h3
    revert h2'
    decide

theorem digit_not_blank (c : Char) (h : c.isDigit = true) : Pattern.blank.mentions c = false := by
  by_contra hc
  simp only [Pattern.blank, Regex.mentions, Regex.char, Regex.opt, Bool.or_false,
    Bool.not_eq_false, Bool.or_eq_true, decide_eq_true_eq, beq_iff_eq, List.mem_cons,
    List.mem_singleton, List.not_mem_nil, or_false] at hc
  rcases hc with (h1 | h1 | h1 | h1 | h1 | h1) | h1 | h1 | h1 <;>
    · subst h1
      revert h
      decide

theorem digits_match_star : (s : List Char) → (∀ c ∈ s, c.isDigit = true) →
    Regex.Matches (.star Pattern.digit) s
  | [], _ => .done _
  | c :: s, h =>
      .more _ [c] s (.cls _ c (h c (List.mem_cons_self c s)))
        (digits_match_star s (fun d hd => h d (List.mem_cons_of_mem c hd)))

theorem digits_match_plus (s : List Char) (hs : s ≠ []) (h : ∀ c ∈ s, c.isDigit = true) :
    Regex.Matches Pattern.digit.plus s := by
  cases s with
  | nil => exact absurd rfl hs
  | cons c s =>
      exact .seq _ _ [c] s (.cls _ c (h c (List.mem_cons_self c s)))
        (digits_match_star s (fun d hd => h d (List.mem_cons_of_mem c hd)))

theorem dice_matches (n m : List Char) (hn : n ≠ []) (hm : m ≠ [])
    (dn : ∀ c ∈ n, c.isDigit = true) (dm : ∀ c ∈ m, c.isDigit = true) :
    Regex.Matches Pattern.dice (n ++ 'd' :: m) :=
  .seq _ _ n ('d' :: m) (digits_match_plus n hn dn)
    (.seq _ _ ['d'] m (.cls _ 'd' (by decide)) (digits_match_plus m hm dm))

theorem num_matches_digits (n : List Char) (hn : n ≠ []) (dn : ∀ c ∈ n, c.isDigit = true) :
    Regex.Matches Pattern.num n := by
  have h := Regex.Matches.seq _ _ n [] (digits_match_plus n hn dn)
    (Regex.Matches.right (.seq (.char '.') Pattern.digit.plus) .empty [] .empty)
  rw [List.append_nil] at h
  exact h

theorem dice_has_d (s : List Char) (h : Regex.Matches Pattern.dice s) : 'd' ∈ s := by
  cases h with
  | seq _ _ s1 t _ ht =>
      cases ht with
      | seq _ _ s2 s3 h2 _ =>
          cases h2 with
          | cls _ c hc =>
              have : c = 'd' := by simpa using hc
              subst this
              simp

theorem num_has_no_d (s : List Char) (h : Regex.Matches Pattern.num s) : 'd' ∉ s := by
  intro hd
  have := Regex.mentions_of_matches _ _ h 'd' hd
  exact absurd this (by decide)

theorem identifier_head (s : List Char) (h : Regex.Matches Pattern.identifier s) :
    ∃ c t, s = c :: t ∧ (c.isAlpha || c == '_') = true := by
  cases h with
  | seq _ _ s1 t h1 _ =>
      cases h1 with
      | cls _ c hc => exact ⟨c, t, rfl, hc⟩

/-- No beginning of a text that starts with a digit is an identifier. -/
theorem identifier_longest_digit (c : Char) (s : List Char) (h : c.isDigit = true) :
    Pattern.identifier.longest (c :: s) = none := by
  apply Regex.longest_eq_none
  intro m _
  rw [Regex.not_accepts_iff]
  intro hm
  obtain ⟨x, t, h1, h2⟩ := identifier_head _ hm
  cases m with
  | zero => simp at h1
  | succ k =>
      simp only [List.take_succ_cons, List.cons.injEq] at h1
      rw [← h1.1, digit_not_letter c h] at h2
      exact absurd h2 (by decide)

/-- No beginning of a text that starts with a digit is a blank. -/
theorem blank_longest_digit (c : Char) (s : List Char) (h : c.isDigit = true) :
    Pattern.blank.longest (c :: s) = none := by
  apply Regex.longest_eq_none
  intro m _
  rw [Regex.not_accepts_iff]
  intro hm
  cases m with
  | zero =>
      have := (Regex.matches_nil_iff_nullable _).mp (by simpa using hm)
      exact absurd this (by decide)
  | succ k =>
      have := Regex.mentions_of_matches _ _ hm c (by simp)
      rw [digit_not_blank c h] at this
      exact absurd this (by decide)

/-- The longest number at the start of `digits d ...` is the digits. -/
theorem num_longest_before_d (n m : List Char) (hn : n ≠ []) (dn : ∀ c ∈ n, c.isDigit = true) :
    Pattern.num.longest (n ++ 'd' :: m) = some n.length := by
  apply Regex.longest_eq_some
  · simp
  · rw [List.take_left, Regex.accepts_iff_matches]
    exact num_matches_digits n hn dn
  · intro k h1 _
    rw [Regex.not_accepts_iff]
    intro hk
    apply num_has_no_d _ hk
    rw [List.take_append_eq_append_take]
    obtain ⟨j, hj⟩ : ∃ j, k - n.length = j + 1 := ⟨k - n.length - 1, by omega⟩
    simp [hj]

/-- The longest dice literal at the start of `digits d digits` is the whole text. -/
theorem dice_longest_whole (s : List Char) (h : Regex.Matches Pattern.dice s) :
    Pattern.dice.longest s = some s.length := by
  apply Regex.longest_eq_some
  · exact le_refl _
  · rw [List.take_length, Regex.accepts_iff_matches]
    exact h
  · intro k h1 h2
    omega

theorem lexTerminals_nil (fuel : Nat) : lexTerminals fuel [] = some [] := by
  cases fuel <;> simp [lexTerminals]

/-- A dice literal alone lexes as one dice token. -/
theorem tokenize_dice (n m : List Char) (hn : n ≠ []) (hm : m ≠ [])
    (dn : ∀ c ∈ n, c.isDigit = true) (dm : ∀ c ∈ m, c.isDigit = true) :
    tokenizeTerminals (String.mk (n ++ 'd' :: m)) = some [.dice (String.mk (n ++ 'd' :: m))] := by
  cases n with
  | nil => exact absurd rfl hn
  | cons c n =>
      have hc : c.isDigit = true := dn c (List.mem_cons_self c n)
      have h1 := dice_longest_whole _ (dice_matches (c :: n) m hn hm dn dm)
      have h2 := num_longest_before_d (c :: n) m hn dn
      have h3 := identifier_longest_digit c (n ++ 'd' :: m) hc
      have h4 := blank_longest_digit c (n ++ 'd' :: m) hc
      simp only [List.cons_append] at h1 h2 h3 h4
      have h5 : lexTerminal (c :: (n ++ 'd' :: m))
          = some (.dice (String.mk (c :: (n ++ 'd' :: m))), []) := by
        simp [lexTerminal, h1, h2, h3, longer]
        rw [List.take_of_length_le (by simp)]
      simp [tokenizeTerminals, lexTerminals, h4, h5, lexTerminals_nil]

/-- No beginning of a text of digits is a dice literal. -/
theorem dice_longest_digits (s : List Char) (ds : ∀ c ∈ s, c.isDigit = true) :
    Pattern.dice.longest s = none := by
  apply Regex.longest_eq_none
  intro k _
  rw [Regex.not_accepts_iff]
  intro hk
  have hd := ds 'd' (List.mem_of_mem_take (dice_has_d _ hk))
  exact absurd hd (by decide)

/-- A number of digits alone lexes as one num token. -/
theorem tokenize_digits (n : List Char) (hn : n ≠ []) (dn : ∀ c ∈ n, c.isDigit = true) :
    tokenizeTerminals (String.mk n) = some [.num (String.mk n)] := by
  have h1 := dice_longest_digits n dn
  have h2 : Pattern.num.longest n = some n.length := by
    apply Regex.longest_eq_some
    · exact le_refl _
    · rw [List.take_length, Regex.accepts_iff_matches]
      exact num_matches_digits n hn dn
    · intro k h1 h2
      omega
  cases n with
  | nil => exact absurd rfl hn
  | cons c n =>
      have hc : c.isDigit = true := dn c (List.mem_cons_self c n)
      have h3 := identifier_longest_digit c n hc
      have h4 := blank_longest_digit c n hc
      have h5 : lexTerminal (c :: n) = some (.num (String.mk (c :: n)), []) := by
        simp [lexTerminal, h1, h2, h3, longer]
      simp [tokenizeTerminals, lexTerminals, h4, h5, lexTerminals_nil]

/-- C5. Dice and number literals are told apart by longest match.  For non-empty digit
strings `n` and `m`: the dice pattern accepts `n d m` in full, the longest beginning the
num pattern accepts is the proper beginning `n`, and the text lexes as one dice token; the
digit string `n` is accepted by num, not by dice, and lexes as one num token; no text is
accepted by both patterns; and `2 d6` is not accepted by dice and lexes as the num `2`
followed by the identifier `d6`. -/
theorem dice_num_longest_match (n m : List Char) (hn : n ≠ []) (hm : m ≠ [])
    (dn : ∀ c ∈ n, c.isDigit = true) (dm : ∀ c ∈ m, c.isDigit = true) :
    (Pattern.dice.accepts (n ++ 'd' :: m) = true
      ∧ Pattern.num.longest (n ++ 'd' :: m) = some n.length
      ∧ n.length < (n ++ 'd' :: m).length
      ∧ tokenizeTerminals (String.mk (n ++ 'd' :: m))
          = some [.dice (String.mk (n ++ 'd' :: m))])
    ∧ (Pattern.num.accepts n = true ∧ Pattern.dice.accepts n = false
      ∧ tokenizeTerminals (String.mk n) = some [.num (String.mk n)])
    ∧ (∀ s, ¬ (Pattern.num.accepts s = true ∧ Pattern.dice.accepts s = true))
    ∧ (Pattern.dice.accepts "2 d6".toList = false
      ∧ tokenizeTerminals "2 d6" = some [.num "2", .identifier "d6"]) := by
  refine ⟨⟨?_, num_longest_before_d n m hn dn, by simp, tokenize_dice n m hn hm dn dm⟩,
    ⟨?_, ?_, tokenize_digits n hn dn⟩, ?_, by decide, by decide⟩
  · exact (Regex.accepts_iff_matches _ _).mpr (dice_matches n m hn hm dn dm)
  · exact (Regex.accepts_iff_matches _ _).mpr (num_matches_digits n hn dn)
  · rw [Regex.not_accepts_iff]
    intro h
    exact absurd (dn 'd' (dice_has_d _ h)) (by decide)
  · intro s hs
    exact num_has_no_d s ((Regex.accepts_iff_matches _ _).mp hs.1)
      (dice_has_d s ((Regex.accepts_iff_matches _ _).mp hs.2))

/-- C5 at `2d6` and `2`: one dice token; the longest number in `2d6` is `2`. -/
theorem dice_num_longest_match_witness :
    Pattern.dice.accepts ['2', 'd', '6'] = true
    ∧ Pattern.num.longest ['2', 'd', '6'] = some 1
    ∧ tokenizeTerminals "2d6" = some [.dice "2d6"]
    ∧ tokenizeTerminals "2" = some [.num "2"] :=
  ⟨(dice_num_longest_match ['2'] ['6'] (by decide) (by decide) (by decide) (by decide)).1.1,
    (dice_num_longest_match ['2'] ['6'] (by decide) (by decide) (by decide) (by decide)).1.2.1,
    (dice_num_longest_match ['2'] ['6'] (by decide) (by decide) (by decide) (by decide)).1.2.2.2,
    (dice_num_longest_match ['2'] ['6'] (by decide) (by decide) (by decide) (by decide)).2.1.2.2⟩

/-- Every expression begins with a token that can begin an expression. -/
theorem Expression.yield_starts_expression : (e : Expression) →
    ∃ t ts, e.yield = t :: ts ∧ startsExpression t = true
  | .primary p => by
      obtain ⟨t, ts, h, hc⟩ := p.primary_head
      refine ⟨t, ts, by simpa [Expression.yield] using h, ?_⟩
      rcases hc with hc | hc | hc
      · cases t with
        | lit s =>
            simp only [Tok.isOperand, Bool.or_eq_true, decide_eq_true_eq] at hc
            rcases hc with hc | hc <;> subst hc <;> decide
        | _ => rfl
      · subst hc; decide
      · subst hc; decide
  | .binary_expression l op r => by
      obtain ⟨t, ts, h, hc⟩ := Expression.yield_starts_expression l
      exact ⟨t, ts ++ .lit op.text :: r.yield, by simp [Expression.yield, h], hc⟩
  | .has_expression l r => by
      obtain ⟨t, ts, h, hc⟩ := Expression.yield_starts_expression l
      exact ⟨t, ts ++ .lit "has" :: r.yield, by simp [Expression.yield, h], hc⟩
  | .unary_expression u e => ⟨.lit u.text, e.yield, rfl, by cases u <;> decide⟩
  | .lambda_block ps b => ⟨.lit "fn", _, rfl, by decide⟩
  | .lambda_arrow ps b => ⟨.lit "fn", _, rfl, by decide⟩
  | .dialogue _ _ => ⟨.lit "say", _, rfl, by decide⟩
  | .skill_check _ _ _ _ => ⟨.lit "check", _, rfl, by decide⟩

/-- The first token of a statement, by the alternative of `_statement` it belongs to. -/
theorem Statement.yield_starts_statement (s : Statement) :
    ∃ t ts, s.yield = t :: ts ∧
      ((∃ e, s = .expression e ∧ startsExpression t = true)
        ∨ (∃ x v, s = .reassignment x v ∧ t = .identifier x)
        ∨ (t = .lit "var" ∧ ∃ n v, s = .assignment n v)
        ∨ (t = .lit "fn" ∧ ∃ n ps b, s = .function_definition n ps b)
        ∨ (t = .lit "hero" ∧ ∃ n st, s = .hero_declaration n st)
        ∨ (t = .lit "enemy" ∧ ∃ n st, s = .enemy_declaration n st)
        ∨ (t = .lit "item" ∧ ∃ n st, s = .item_declaration n st)
        ∨ (t = .lit "quest" ∧ ∃ n q, s = .quest_declaration n q)
        ∨ (t = .lit "encounter" ∧ ∃ n b, s = .encounter_block n b)
        ∨ (t = .lit "give" ∧ ∃ i g, s = .give_statement i g)
        ∨ (t = .lit "take" ∧ ∃ i g, s = .take_statement i g)
        ∨ (t = .lit "spawn" ∧ ∃ n o, s = .spawn_statement n o)
        ∨ (t = .lit "strike" ∧ ∃ g w, s = .strike_statement g w)
        ∨ (t = .lit "if" ∧ ∃ c b a, s = .if_statement (.mk c b a))
        ∨ (t = .lit "while" ∧ ∃ c b, s = .while_statement c b)
        ∨ (t = .lit "for" ∧ ∃ i e b, s = .for_in_statement i e b)
        ∨ (t = .lit "return" ∧ ∃ v, s = .return_statement v)
        ∨ (t = .lit "\x7b" ∧ ∃ b, s = .block (.mk b))) := by
  cases s with
  | expression e =>
      obtain ⟨t, ts, h, hc⟩ := e.yield_starts_expression
      exact ⟨t, ts, by simpa [Statement.yield] using h, .inl ⟨e, rfl, hc⟩⟩
  | reassignment x v => exact ⟨_, _, rfl, .inr (.inl ⟨x, v, rfl, rfl⟩)⟩
  | assignment n v => exact ⟨_, _, rfl, by simp⟩
  | function_definition n ps b => exact ⟨_, _, rfl, by simp⟩
  | hero_declaration n st => exact ⟨_, _, rfl, by simp⟩
  | enemy_declaration n st => exact ⟨_, _, rfl, by simp⟩
  | item_declaration n st => exact ⟨_, _, rfl, by simp⟩
  | quest_declaration n q => exact ⟨_, _, rfl, by simp⟩
  | encounter_block n b => exact ⟨_, _, rfl, by simp⟩
  | give_statement i g => exact ⟨_, _, rfl, by simp⟩
  | take_statement i g => exact ⟨_, _, rfl, by simp⟩
  | spawn_statement n o => exact ⟨_, _, rfl, by simp⟩
  | strike_statement g w => exact ⟨_, _, rfl, by simp⟩
  | if_statement i =>
      cases i with
      | mk c b a => exact ⟨_, _, rfl, by simp⟩
  | while_statement c b => exact ⟨_, _, rfl, by simp⟩
  | for_in_statement i e b => exact ⟨_, _, rfl, by simp⟩
  | return_statement v => exact ⟨_, _, rfl, by simp⟩
  | block b =>
      cases b with
      | mk b => exact ⟨_, _, rfl, by simp⟩


/-- No statement begins with a token that begins no statement. -/
theorem Statement.head_ne_statement (s : Statement) (rest : List Tok) (k : String) (ts : List Tok)
    (h : s.yield ++ rest = .lit k :: ts)
    (hk : k ∉ ["true", "false", "(", "[", "-", "not", "fn", "say", "check", "var", "hero",
      "enemy", "item", "quest", "encounter", "give", "take", "spawn", "strike", "if", "while",
      "for", "return", "\x7b"]) : False := by
  obtain ⟨t, us, h1, hc⟩ := s.yield_starts_statement
  rw [h1] at h
  simp only [List.cons_append, List.cons.injEq] at h
  obtain ⟨rfl, -⟩ := h
  simp only [List.mem_cons, List.mem_singleton, List.not_mem_nil, or_false, not_or] at hk
  simp only [startsExpression, List.mem_cons, List.mem_singleton, List.not_mem_nil, or_false,
    decide_eq_true_eq, Tok.lit.injEq, reduceCtorEq, and_false, exists_false, false_and,
    false_or, or_false] at hc
  obtain ⟨h1, h2, h3, h4, h5, h6, h7, h8, h9, h10, h11, h12, h13, h14, h15, h16, h17, h18,
    h19, h20, h21, h22, h23, h24⟩ := hk
  simp [h1, h2, h3, h4, h5, h6, h7, h8, h9, h10, h11, h12, h13, h14, h15, h16, h17, h18,
    h19, h20, h21, h22, h23, h24] at hc

/-- No expression begins with a token that begins no expression. -/
theorem Expression.head_ne_expression (e : Expression) (rest : List Tok) (t : Tok) (ts : List Tok)
    (h : e.yield ++ rest = t :: ts) (ht : startsExpression t = false) : False := by
  obtain ⟨u, us, h1, hc⟩ := e.yield_starts_expression
  rw [h1] at h
  simp only [List.cons_append, List.cons.injEq] at h
  rw [h.1, ht] at hc
  exact absurd hc (by decide)


/-- No expression begins with `( )`. -/
theorem Expression.not_empty_group : (e : Expression) → (rest ts : List Tok) →
    e.yield ++ rest = .lit "(" :: .lit ")" :: ts → False
  | .primary p, rest, ts, h => by
      cases p with
      | value v =>
          obtain ⟨t, h1, h2⟩ := v.yield_eq
          simp only [Expression.yield, PrimaryExpression.yield, h1, List.cons_append,
            List.cons.injEq] at h
          rw [h.1] at h2; exact absurd h2 (by decide)
      | identifier s => simp [Expression.yield, PrimaryExpression.yield] at h
      | grouped_expression e =>
          simp only [Expression.yield, PrimaryExpression.yield, List.cons_append,
            List.cons.injEq, true_and, List.append_assoc] at h
          exact e.head_ne_expression _ _ _ h (by decide)
      | array_expression es => simp [Expression.yield, PrimaryExpression.yield] at h
      | index_expression x =>
          obtain ⟨s, us, h1, -⟩ := x.index_head
          simp [Expression.yield, PrimaryExpression.yield, h1] at h
      | slice_expression x =>
          obtain ⟨s, us, h1, -⟩ := x.slice_head
          simp [Expression.yield, PrimaryExpression.yield, h1] at h
      | method_call x =>
          obtain ⟨s, us, h1, -⟩ := x.method_call_head
          simp [Expression.yield, PrimaryExpression.yield, h1] at h
      | function_call x =>
          obtain ⟨s, us, h1, -⟩ := x.function_call_head
          simp [Expression.yield, PrimaryExpression.yield, h1] at h
  | .binary_expression l op r, rest, ts, h =>
      Expression.not_empty_group l (.lit op.text :: (r.yield ++ rest)) ts
        (by simpa [Expression.yield] using h)
  | .has_expression l r, rest, ts, h =>
      Expression.not_empty_group l (.lit "has" :: (r.yield ++ rest)) ts
        (by simpa [Expression.yield] using h)
  | .unary_expression u _, rest, ts, h => by
      cases u <;> simp [Expression.yield, UnOp.text] at h
  | .lambda_block _ _, rest, ts, h => by simp [Expression.yield] at h
  | .lambda_arrow _ _, rest, ts, h => by simp [Expression.yield] at h
  | .dialogue _ _, rest, ts, h => by simp [Expression.yield] at h
  | .skill_check _ _ _ _, rest, ts, h => by simp [Expression.yield] at h

theorem closedAt_operator (o : InfixOp) (ts : List Tok) :
    closedAt (.lit o.text :: ts) = false := by
  simp [closedAt, o.operator_token]

mutual
/-- An index or slice object in front of `f ( ) ...`, where what follows `)` is neither an
operator nor `"["`, is the identifier `f` or the call `f()`. -/
theorem Addressable.empty_call_object : (o : Addressable) → (rest : List Tok) → (f : String) →
    (ts : List Tok) → closedAt ts = true →
    o.yield ++ rest = .identifier f :: .lit "(" :: .lit ")" :: ts →
    (o = .identifier f ∧ rest = .lit "(" :: .lit ")" :: ts)
      ∨ (o = .function_call (.mk f []) ∧ rest = ts)
  | .identifier s, rest, f, ts, _, h => by
      simp only [Addressable.yield, List.cons_append, List.nil_append, List.cons.injEq,
        Tok.identifier.injEq] at h
      exact .inl ⟨by rw [h.1], h.2⟩
  | .function_call c, rest, f, ts, hs, h => by
      obtain ⟨h1, h2⟩ := FunctionCall.empty_call_call c rest f ts hs (by simpa [Addressable.yield] using h)
      exact .inr ⟨by rw [h1], h2⟩
  | .method_call m, rest, f, ts, hs, h =>
      (MethodCall.empty_call_method m rest f ts hs (by simpa [Addressable.yield] using h)).elim
  | .index_expression x, rest, f, ts, hs, h =>
      (IndexExpression.empty_call_index x rest f ts hs (by simpa [Addressable.yield] using h)).elim
  | .slice_expression x, rest, f, ts, hs, h =>
      (SliceExpression.empty_call_slice x rest f ts hs (by simpa [Addressable.yield] using h)).elim
/-- A function call in front of `f ( ) ...` is the call `f()`. -/
theorem FunctionCall.empty_call_call : (c : FunctionCall) → (rest : List Tok) → (f : String) →
    (ts : List Tok) → closedAt ts = true →
    c.yield ++ rest = .identifier f :: .lit "(" :: .lit ")" :: ts →
    c = .mk f [] ∧ rest = ts
  | .mk g [], rest, f, ts, _, h => by
      simp only [FunctionCall.yield, yieldExpressions, List.cons_append, List.nil_append,
        List.cons.injEq, Tok.identifier.injEq, true_and] at h
      exact ⟨by rw [h.1], h.2⟩
  | .mk g (a :: as), rest, f, ts, _, h => by
      simp only [FunctionCall.yield, yieldExpressions, List.cons_append, List.append_assoc,
        List.cons.injEq, Tok.identifier.injEq, true_and] at h
      exact (a.head_ne_expression _ _ _ h.2 (by decide)).elim
/-- No method call begins `f ( ) ...`. -/
theorem MethodCall.empty_call_method : (m : MethodCall) → (rest : List Tok) → (f : String) →
    (ts : List Tok) → closedAt ts = true →
    m.yield ++ rest = .identifier f :: .lit "(" :: .lit ")" :: ts → False
  | .mk (.identifier s) n args, rest, f, ts, _, h => by
      simp [MethodCall.yield, Receiver.yield] at h
  | .mk (.method_call m) n args, rest, f, ts, hs, h =>
      MethodCall.empty_call_method m _ f ts hs
        (by simpa [MethodCall.yield, Receiver.yield] using h)
/-- No index expression begins `f ( ) ...` when what follows `)` is no `"["`. -/
theorem IndexExpression.empty_call_index : (x : IndexExpression) → (rest : List Tok) →
    (f : String) → (ts : List Tok) → closedAt ts = true →
    x.yield ++ rest = .identifier f :: .lit "(" :: .lit ")" :: ts → False
  | .mk o i, rest, f, ts, hs, h => by
      have h' : o.yield ++ (.lit "[" :: (i.yield ++ .lit "]" :: rest))
          = .identifier f :: .lit "(" :: .lit ")" :: ts := by
        simpa [IndexExpression.yield] using h
      rcases Addressable.empty_call_object o _ f ts hs h' with ⟨-, h2⟩ | ⟨-, h2⟩
      · simp at h2
      · rw [← h2] at hs; simp [closedAt] at hs
/-- No slice expression begins `f ( ) ...` when what follows `)` is no `"["`. -/
theorem SliceExpression.empty_call_slice : (x : SliceExpression) → (rest : List Tok) →
    (f : String) → (ts : List Tok) → closedAt ts = true →
    x.yield ++ rest = .identifier f :: .lit "(" :: .lit ")" :: ts → False
  | .mk o a b, rest, f, ts, hs, h => by
      have h' : o.yield ++ (.lit "[" :: (yieldOptExpression a ++ .lit ".." ::
          (yieldOptExpression b ++ .lit "]" :: rest)))
          = .identifier f :: .lit "(" :: .lit ")" :: ts := by
        simpa [SliceExpression.yield] using h
      rcases Addressable.empty_call_object o _ f ts hs h' with ⟨-, h2⟩ | ⟨-, h2⟩
      · simp at h2
      · rw [← h2] at hs; simp [closedAt] at hs
end

/-- An expression in front of `f ( ) ...`, where what follows `)` is neither an operator nor `"["`, is the
identifier `f` or the call `f()`. -/
theorem Expression.empty_call_expression : (e : Expression) → (rest : List Tok) → (f : String) →
    (ts : List Tok) → closedAt ts = true →
    e.yield ++ rest = .identifier f :: .lit "(" :: .lit ")" :: ts →
    (e = .primary (.identifier f) ∧ rest = .lit "(" :: .lit ")" :: ts)
      ∨ (e = .primary (.function_call (.mk f [])) ∧ rest = ts)
  | .primary p, rest, f, ts, hs, h => by
      cases p with
      | value v =>
          obtain ⟨t, h1, h2⟩ := v.yield_eq
          simp only [Expression.yield, PrimaryExpression.yield, h1, List.cons_append,
            List.nil_append, List.cons.injEq] at h
          rw [h.1] at h1
          cases v with
          | bool b => cases b <;> simp [Value.yield] at h1
          | _ => simp [Value.yield] at h1
      | identifier s =>
          simp only [Expression.yield, PrimaryExpression.yield, List.cons_append,
            List.nil_append, List.cons.injEq, Tok.identifier.injEq] at h
          exact .inl ⟨by rw [h.1], h.2⟩
      | grouped_expression e => simp [Expression.yield, PrimaryExpression.yield] at h
      | array_expression es => simp [Expression.yield, PrimaryExpression.yield] at h
      | index_expression x =>
          exact (x.empty_call_index rest f ts hs
            (by simpa [Expression.yield, PrimaryExpression.yield] using h)).elim
      | slice_expression x =>
          exact (x.empty_call_slice rest f ts hs
            (by simpa [Expression.yield, PrimaryExpression.yield] using h)).elim
      | method_call x =>
          exact (x.empty_call_method rest f ts hs
            (by simpa [Expression.yield, PrimaryExpression.yield] using h)).elim
      | function_call x =>
          obtain ⟨h1, h2⟩ := x.empty_call_call rest f ts hs
            (by simpa [Expression.yield, PrimaryExpression.yield] using h)
          exact .inr ⟨by rw [h1], h2⟩
  | .binary_expression l op r, rest, f, ts, hs, h => by
      have h' : l.yield ++ (.lit op.text :: (r.yield ++ rest))
          = .identifier f :: .lit "(" :: .lit ")" :: ts := by
        simpa [Expression.yield] using h
      have h5 : closedAt (Tok.lit op.text :: (r.yield ++ rest)) = false :=
        closedAt_operator (.binary op) _
      rcases Expression.empty_call_expression l _ f ts hs h' with ⟨-, h2⟩ | ⟨-, h2⟩
      · simp only [List.cons.injEq, Tok.lit.injEq] at h2
        cases op <;> exact absurd h2.1 (by decide)
      · rw [← h2, h5] at hs; exact absurd hs (by decide)
  | .has_expression l r, rest, f, ts, hs, h => by
      have h' : l.yield ++ (.lit "has" :: (r.yield ++ rest))
          = .identifier f :: .lit "(" :: .lit ")" :: ts := by
        simpa [Expression.yield] using h
      have h5 : closedAt (Tok.lit "has" :: (r.yield ++ rest)) = false :=
        closedAt_operator .has _
      rcases Expression.empty_call_expression l _ f ts hs h' with ⟨-, h2⟩ | ⟨-, h2⟩
      · simp at h2
      · rw [← h2, h5] at hs; exact absurd hs (by decide)
  | .unary_expression u _, rest, f, ts, _, h => by simp [Expression.yield] at h
  | .lambda_block _ _, rest, f, ts, _, h => by simp [Expression.yield] at h
  | .lambda_arrow _ _, rest, f, ts, _, h => by simp [Expression.yield] at h
  | .dialogue _ _, rest, f, ts, _, h => by simp [Expression.yield] at h
  | .skill_check _ _ _ _, rest, f, ts, _, h => by simp [Expression.yield] at h

/-- A `repeat($._statement)` in front of a closing brace is empty. -/
theorem statements_before_close (ss : List Statement) (rest ts : List Tok)
    (h : yieldStatements ss ++ .lit "\x7d" :: rest = .lit "\x7d" :: ts) :
    ss = [] ∧ rest = ts := by
  cases ss with
  | nil => simpa [yieldStatements] using h
  | cons s ss =>
      simp only [yieldStatements, List.append_assoc] at h
      exact (s.head_ne_statement _ _ _ h (by decide)).elim

/-- The alternatives of `_statement` a statement can belong to, by the token it begins
with. -/
theorem Statement.cases_of_head (s : Statement) (rest : List Tok) (t : Tok) (ts : List Tok)
    (h : s.yield ++ rest = t :: ts) :
    (∃ e, s = .expression e ∧ startsExpression t = true)
      ∨ (∃ x v, s = .reassignment x v ∧ t = .identifier x)
      ∨ (t = .lit "var" ∧ ∃ n v, s = .assignment n v)
      ∨ (t = .lit "fn" ∧ ∃ n ps b, s = .function_definition n ps b)
      ∨ (t = .lit "hero" ∧ ∃ n st, s = .hero_declaration n st)
      ∨ (t = .lit "enemy" ∧ ∃ n st, s = .enemy_declaration n st)
      ∨ (t = .lit "item" ∧ ∃ n st, s = .item_declaration n st)
      ∨ (t = .lit "quest" ∧ ∃ n q, s = .quest_declaration n q)
      ∨ (t = .lit "encounter" ∧ ∃ n b, s = .encounter_block n b)
      ∨ (t = .lit "give" ∧ ∃ i g, s = .give_statement i g)
      ∨ (t = .lit "take" ∧ ∃ i g, s = .take_statement i g)
      ∨ (t = .lit "spawn" ∧ ∃ n o, s = .spawn_statement n o)
      ∨ (t = .lit "strike" ∧ ∃ g w, s = .strike_statement g w)
      ∨ (t = .lit "if" ∧ ∃ c b a, s = .if_statement (.mk c b a))
      ∨ (t = .lit "while" ∧ ∃ c b, s = .while_statement c b)
      ∨ (t = .lit "for" ∧ ∃ i e b, s = .for_in_statement i e b)
      ∨ (t = .lit "return" ∧ ∃ v, s = .return_statement v)
      ∨ (t = .lit "\x7b" ∧ ∃ b, s = .block (.mk b)) := by
  obtain ⟨u, us, h1, hc⟩ := s.yield_starts_statement
  rw [h1] at h
  simp only [List.cons_append, List.cons.injEq] at h
  rw [h.1] at hc
  exact hc

/-- A statement that begins with a string token which is no statement keyword is an
expression statement. -/
theorem Statement.expression_of_lit (s : Statement) (rest : List Tok) (k : String)
    (ts : List Tok) (h : s.yield ++ rest = .lit k :: ts)
    (hk : k ∉ ["var", "fn", "hero", "enemy", "item", "quest", "encounter", "give", "take",
      "spawn", "strike", "if", "while", "for", "return", "\x7b"]) :
    ∃ e, s = .expression e := by
  have hc := s.cases_of_head _ _ _ h
  simp only [Tok.lit.injEq, reduceCtorEq, and_false, exists_false, false_or] at hc
  rcases hc with ⟨e, rfl, -⟩ | ⟨rfl, -⟩ | ⟨rfl, -⟩ | ⟨rfl, -⟩ | ⟨rfl, -⟩ | ⟨rfl, -⟩ | ⟨rfl, -⟩
    | ⟨rfl, -⟩ | ⟨rfl, -⟩ | ⟨rfl, -⟩ | ⟨rfl, -⟩ | ⟨rfl, -⟩ | ⟨rfl, -⟩ | ⟨rfl, -⟩ | ⟨rfl, -⟩
    | ⟨rfl, -⟩ | ⟨rfl, -⟩
  · exact ⟨e, rfl⟩
  all_goals simp at hk

/-- A statement that begins with an identifier is an expression statement or a
reassignment of that identifier. -/
theorem Statement.of_identifier (s : Statement) (rest : List Tok) (x : String)
    (ts : List Tok) (h : s.yield ++ rest = .identifier x :: ts) :
    (∃ e, s = .expression e) ∨ (∃ v, s = .reassignment x v) := by
  have hc := s.cases_of_head _ _ _ h
  simp only [reduceCtorEq, false_and, false_or, or_false, Tok.identifier.injEq] at hc
  rcases hc with ⟨e, rfl, -⟩ | ⟨y, v, rfl, rfl⟩
  · exact .inl ⟨e, rfl⟩
  · exact .inr ⟨v, rfl⟩

/-- The statements in front of `f ( ) }` are the one call `f()`. -/
theorem statements_empty_call (ss : List Statement) (rest : List Tok) (f : String)
    (ts : List Tok)
    (h : yieldStatements ss ++ .lit "\x7d" :: rest
      = .identifier f :: .lit "(" :: .lit ")" :: .lit "\x7d" :: ts) :
    ss = [.expression (.primary (.function_call (.mk f [])))] ∧ rest = ts := by
  cases ss with
  | nil => simp [yieldStatements] at h
  | cons s ss =>
      simp only [yieldStatements, List.append_assoc] at h
      rcases s.of_identifier _ _ _ h with ⟨e, rfl⟩ | ⟨v, rfl⟩
      · rcases e.empty_call_expression _ f (.lit "\x7d" :: ts) rfl
          (by simpa [Statement.yield] using h) with ⟨-, h2⟩ | ⟨rfl, h2⟩
        · cases ss with
          | nil => simp [yieldStatements] at h2
          | cons s2 ss =>
              simp only [yieldStatements, List.append_assoc] at h2
              obtain ⟨e2, rfl⟩ := s2.expression_of_lit _ _ _ h2 (by decide)
              exact (e2.not_empty_group _ _ (by simpa [Statement.yield] using h2)).elim
        · obtain ⟨rfl, rfl⟩ := statements_before_close ss rest ts h2
          exact ⟨rfl, rfl⟩
      · simp [Statement.yield] at h

/-- The dialogue choices in front of the closing brace of `dialogueExample`. -/
theorem choices_of_example (cs : List DialogueChoice) (rest : List Tok)
    (h : yieldDialogueChoices cs ++ .lit "\x7d" :: rest = dialogueExample.drop 3) :
    cs = [.mk "go" (.expression (.primary (.function_call (.mk "doThing" [])))) true,
      .mk "stay" (.block (.mk [.expression (.primary (.function_call (.mk "wait" [])))])) false]
    ∧ rest = [] := by
  simp only [dialogueExample, List.drop_succ_cons, List.drop_zero] at h
  -- the first choice
  rcases cs with _ | ⟨⟨o1, b1, k1⟩, cs⟩
  · simp [yieldDialogueChoices] at h
  simp only [yieldDialogueChoices, DialogueChoice.yield, List.cons_append, List.append_assoc,
    List.cons.injEq, Tok.string.injEq, true_and] at h
  obtain ⟨rfl, h⟩ := h
  rcases b1 with e1 | ⟨⟨body1⟩⟩
  swap
  · simp [Body.yield, Block.yield] at h
  simp only [Body.yield] at h
  rcases e1.empty_call_expression _ "doThing" (.lit "," :: Tok.string "stay" :: .lit "=>" :: .lit "\x7b"
      :: .identifier "wait" :: .lit "(" :: .lit ")" :: .lit "\x7d" :: [.lit "\x7d"]) rfl h with ⟨-, h2⟩ | ⟨rfl, h2⟩
  · cases k1 <;> rcases cs with _ | ⟨⟨o2, b2, k2⟩, cs⟩ <;>
      simp [yieldComma, yieldDialogueChoices, DialogueChoice.yield] at h2
  cases k1
  · rcases cs with _ | ⟨⟨o2, b2, k2⟩, cs⟩ <;>
      simp [yieldComma, yieldDialogueChoices, DialogueChoice.yield] at h2
  simp only [yieldComma, List.cons_append, List.nil_append, List.cons.injEq, true_and] at h2
  -- the second choice
  rcases cs with _ | ⟨⟨o2, b2, k2⟩, cs⟩
  · simp [yieldDialogueChoices] at h2
  simp only [yieldDialogueChoices, DialogueChoice.yield, List.cons_append, List.append_assoc,
    List.cons.injEq, Tok.string.injEq, true_and] at h2
  obtain ⟨rfl, h2⟩ := h2
  rcases b2 with e2 | ⟨⟨body2⟩⟩
  · exact (e2.head_ne_expression _ _ _ h2 (by decide)).elim
  simp only [Body.yield, Block.yield, List.cons_append, List.append_assoc, List.cons.injEq,
    true_and] at h2
  obtain ⟨rfl, h3⟩ := statements_empty_call body2 _ _ _ h2
  cases k2
  swap
  · simp [yieldComma] at h3
  rcases cs with _ | ⟨⟨o3, b3, k3⟩, cs⟩
  · simp only [yieldComma, yieldDialogueChoices, List.nil_append, List.cons.injEq, true_and] at h3
    exact ⟨rfl, h3⟩
  · simp [yieldComma, yieldDialogueChoices, DialogueChoice.yield] at h3

/-- The one expression in front of `dialogueExample` is the dialogue with its two choices. -/
theorem Expression.of_dialogue_example : (e : Expression) → (rest : List Tok) →
    e.yield ++ rest = dialogueExample → e = dialogueExampleTree ∧ rest = []
  | .primary p, rest, h => (p.head_ne_primary rest "say" _ (by decide) (by decide) (by decide)
      (by simpa [Expression.yield, dialogueExample] using h)).elim
  | .binary_expression l op r, rest, h => by
      obtain ⟨-, h2⟩ := Expression.of_dialogue_example l (.lit op.text :: (r.yield ++ rest))
        (by simpa [Expression.yield] using h)
      simp at h2
  | .has_expression l r, rest, h => by
      obtain ⟨-, h2⟩ := Expression.of_dialogue_example l (.lit "has" :: (r.yield ++ rest))
        (by simpa [Expression.yield] using h)
      simp at h2
  | .unary_expression u _, rest, h => by
      cases u <;> simp [Expression.yield, UnOp.text, dialogueExample] at h
  | .lambda_block _ _, rest, h => by simp [Expression.yield, dialogueExample] at h
  | .lambda_arrow _ _, rest, h => by simp [Expression.yield, dialogueExample] at h
  | .skill_check _ _ _ _, rest, h => by simp [Expression.yield, dialogueExample] at h
  | .dialogue t cs, rest, h => by
      have h' : t = "hi" ∧ yieldDialogueChoices cs ++ .lit "\x7d" :: rest = dialogueExample.drop 3 := by
        simpa [Expression.yield, dialogueExample] using h
      obtain ⟨rfl, rfl⟩ := choices_of_example cs rest h'.2
      rw [h'.1]
      exact ⟨rfl, rfl⟩


/-- A `repeat($._statement)` without tokens is empty. -/
theorem statements_of_nil (ss : List Statement) (h : yieldStatements ss = []) : ss = [] := by
  cases ss with
  | nil => rfl
  | cons s ss =>
      obtain ⟨t, us, h1, -⟩ := s.yield_starts_statement
      simp [yieldStatements, h1] at h

/-- A statement that begins with a string, number or dice token is an expression
statement. -/
theorem Statement.expression_of_value (s : Statement) (rest : List Tok) (t : Tok)
    (ts : List Tok) (h : s.yield ++ rest = t :: ts)
    (ht : (∃ x, t = .string x) ∨ (∃ x, t = .num x) ∨ (∃ x, t = .dice x)) :
    ∃ e, s = .expression e := by
  have hc := s.cases_of_head _ _ _ h
  rcases ht with ⟨x, rfl⟩ | ⟨x, rfl⟩ | ⟨x, rfl⟩ <;>
    · simp only [reduceCtorEq, false_and, and_false, exists_false, or_false] at hc
      obtain ⟨e, rfl, -⟩ := hc
      exact ⟨e, rfl⟩

/-- No expression begins with `say STRING { STRING }`: a bare string is no item of a `say`
body. -/
theorem Expression.not_bare_string_choice : (e : Expression) → (rest : List Tok) →
    (t o : String) → (ts : List Tok) →
    e.yield ++ rest
      = .lit "say" :: .string t :: .lit "\x7b" :: .string o :: .lit "\x7d" :: ts → False
  | .primary p, rest, t, o, ts, h => p.head_ne_primary rest "say" _ (by decide) (by decide) (by decide)
      (by simpa [Expression.yield] using h)
  | .binary_expression l op r, rest, t, o, ts, h =>
      Expression.not_bare_string_choice l (.lit op.text :: (r.yield ++ rest)) t o ts
        (by simpa [Expression.yield] using h)
  | .has_expression l r, rest, t, o, ts, h =>
      Expression.not_bare_string_choice l (.lit "has" :: (r.yield ++ rest)) t o ts
        (by simpa [Expression.yield] using h)
  | .unary_expression u _, rest, t, o, ts, h => by
      cases u <;> simp [Expression.yield, UnOp.text] at h
  | .lambda_block _ _, rest, t, o, ts, h => by simp [Expression.yield] at h
  | .lambda_arrow _ _, rest, t, o, ts, h => by simp [Expression.yield] at h
  | .skill_check _ _ _ _, rest, t, o, ts, h => by simp [Expression.yield] at h
  | .dialogue _ [], rest, t, o, ts, h => by
      simp [Expression.yield, yieldDialogueChoices] at h
  | .dialogue _ (.mk _ _ _ :: _), rest, t, o, ts, h => by
      simp [Expression.yield, yieldDialogueChoices, DialogueChoice.yield] at h

/-- C6. Inside a `say` body every item is a dialogue choice whose option is a string
literal: the tokens of a dialogue choice begin with a string token followed by `=>`, and no
expression derives `say STRING { STRING }`, a `say` body holding a bare string.  The
tokens of `say "hi" { "go" => doThing(), "stay" => { wait() } }` have exactly one derivation
as a source file: one expression statement, the dialogue with the two choices `"go"` (body
the call `doThing()`, followed by a comma) and `"stay"` (body a block).  Outside a `say`
body, the source file `"go"` has exactly one derivation: one expression statement, the
string. -/
theorem dialogue_choice_option_is_string :
    (∀ c : DialogueChoice, ∃ o ts, c.yield = .string o :: .lit "=>" :: ts)
    ∧ (∀ (t o : String) (e : Expression),
        e.yield ≠ [.lit "say", .string t, .lit "\x7b", .string o, .lit "\x7d"])
    ∧ (SourceFile.ParsesAs dialogueExample ⟨[.expression dialogueExampleTree]⟩
      ∧ ∀ f : SourceFile, f.yield = dialogueExample → f = ⟨[.expression dialogueExampleTree]⟩)
    ∧ (SourceFile.ParsesAs [.string "go"] ⟨[.expression (.primary (.value (.string "go")))]⟩
      ∧ ∀ f : SourceFile, f.yield = [.string "go"] →
          f = ⟨[.expression (.primary (.value (.string "go")))]⟩) := by
  refine ⟨?_, ?_, ⟨⟨rfl, rfl⟩, ?_⟩, ⟨⟨rfl, rfl⟩, ?_⟩⟩
  · rintro ⟨o, b, k⟩
    exact ⟨o, _, rfl⟩
  · intro t o e h
    exact e.not_bare_string_choice [] t o [] (by simpa using h)
  · rintro ⟨ss⟩ h
    cases ss with
    | nil => simp [SourceFile.yield, yieldStatements, dialogueExample] at h
    | cons s ss =>
        simp only [SourceFile.yield, yieldStatements] at h
        obtain ⟨e, rfl⟩ := s.expression_of_lit _ "say" (dialogueExample.drop 1) h (by decide)
        obtain ⟨rfl, h2⟩ := e.of_dialogue_example _ (by simpa [Statement.yield] using h)
        rw [statements_of_nil ss h2]
  · rintro ⟨ss⟩ h
    cases ss with
    | nil => simp [SourceFile.yield, yieldStatements] at h
    | cons s ss =>
        simp only [SourceFile.yield, yieldStatements] at h
        obtain ⟨e, rfl⟩ := s.expression_of_value _ _ _ h (.inl ⟨_, rfl⟩)
        obtain ⟨p, rfl, h1, h2⟩ := e.token_then_stop _ (.string "go") [] rfl rfl
          (by simpa [Statement.yield] using h)
        rw [statements_of_nil ss h2,
          p.eq_of_single_token (.value (.string "go")) (.string "go") h1 rfl]

/-- An expression in front of one operand token that nothing continues is the primary
expression of that token. -/
theorem Expression.of_token_expression (e : Expression) (rest : List Tok) (p : PrimaryExpression)
    (t : Tok) (ts : List Tok) (hp : p.yield = [t]) (ht : t.isOperand = true)
    (hs : stopsAt ts = true) (h : e.yield ++ rest = t :: ts) :
    e = .primary p ∧ rest = ts := by
  obtain ⟨q, rfl, h1, h2⟩ := e.token_then_stop rest t ts ht hs h
  rw [q.eq_of_single_token p t h1 hp]
  exact ⟨rfl, h2⟩

/-- A stat entry in front of `name : token` followed by a token that continues nothing. -/
theorem StatEntry.of_token_entry (x : StatEntry) (rest : List Tok) (k : String)
    (p : PrimaryExpression) (t : Tok) (ts : List Tok) (hp : p.yield = [t])
    (ht : t.isOperand = true) (hs : stopsAt ts = true)
    (h : x.yield ++ rest = .identifier k :: .lit ":" :: t :: ts) :
    x = .mk k (.primary p) ∧ rest = ts := by
  obtain ⟨stat, v⟩ := x
  simp only [StatEntry.yield, List.cons_append, List.cons.injEq, Tok.identifier.injEq,
    true_and] at h
  obtain ⟨rfl, h⟩ := h
  obtain ⟨rfl, h2⟩ := v.of_token_expression rest p t ts hp ht hs h
  exact ⟨rfl, h2⟩

/-- The optional stat block in front of `hp : 10 , str : 2 }`. -/
theorem stats_of_hero (st : Option StatBlock) (rest ts : List Tok)
    (h : yieldOptStatBlock st ++ .lit "\x7d" :: rest
      = .identifier "hp" :: .lit ":" :: .num "10" :: .lit "," :: .identifier "str" :: .lit ":"
          :: .num "2" :: .lit "\x7d" :: ts) :
    st = some (.mk (.mk "hp" (.primary (.value (.num "10"))))
        [.mk "str" (.primary (.value (.num "2")))] false) ∧ rest = ts := by
  rcases st with _ | ⟨⟨e0, es, k⟩⟩
  · simp [yieldOptStatBlock] at h
  simp only [yieldOptStatBlock, StatBlock.yield, List.append_assoc] at h
  obtain ⟨rfl, h1⟩ := e0.of_token_entry _ "hp" (.value (.num "10")) (.num "10") _ rfl rfl (by rfl) h
  rcases es with _ | ⟨e1, es⟩
  · cases k <;> simp [yieldMoreStatEntries, yieldComma] at h1
  simp only [yieldMoreStatEntries, List.cons_append, List.append_assoc, List.cons.injEq,
    true_and] at h1
  obtain ⟨rfl, h2⟩ := e1.of_token_entry _ "str" (.value (.num "2")) (.num "2") _ rfl rfl (by rfl) h1
  rcases es with _ | ⟨e2, es⟩
  · cases k
    · simp only [yieldMoreStatEntries, yieldComma, List.nil_append, List.cons.injEq,
        true_and] at h2
      exact ⟨rfl, h2⟩
    · simp [yieldMoreStatEntries, yieldComma] at h2
  · simp [yieldMoreStatEntries] at h2

/-- The optional stat block in front of `hp : 5 }`. -/
theorem stats_of_enemy (st : Option StatBlock) (rest ts : List Tok)
    (h : yieldOptStatBlock st ++ .lit "\x7d" :: rest
      = .identifier "hp" :: .lit ":" :: .num "5" :: .lit "\x7d" :: ts) :
    st = some (.mk (.mk "hp" (.primary (.value (.num "5")))) [] false) ∧ rest = ts := by
  rcases st with _ | ⟨⟨e0, es, k⟩⟩
  · simp [yieldOptStatBlock] at h
  simp only [yieldOptStatBlock, StatBlock.yield, List.append_assoc] at h
  obtain ⟨rfl, h1⟩ := e0.of_token_entry _ "hp" (.value (.num "5")) (.num "5") _ rfl rfl (by rfl) h
  rcases es with _ | ⟨e2, es⟩
  · cases k
    · simp only [yieldMoreStatEntries, yieldComma, List.nil_append, List.cons.injEq,
        true_and] at h1
      exact ⟨rfl, h1⟩
    · simp [yieldMoreStatEntries, yieldComma] at h1
  · simp [yieldMoreStatEntries] at h1

/-- A statement that begins with the keyword of a statement form is of that form. -/
theorem Statement.of_keyword (s : Statement) (rest : List Tok) (k : String) (ts : List Tok)
    (h : s.yield ++ rest = .lit k :: ts)
    (hk : k ∉ ["true", "false", "(", "[", "-", "not", "fn", "say", "check"]) :
    (k = "var" ∧ ∃ n v, s = .assignment n v)
      ∨ (k = "hero" ∧ ∃ n st, s = .hero_declaration n st)
      ∨ (k = "enemy" ∧ ∃ n st, s = .enemy_declaration n st)
      ∨ (k = "item" ∧ ∃ n st, s = .item_declaration n st)
      ∨ (k = "quest" ∧ ∃ n q, s = .quest_declaration n q)
      ∨ (k = "encounter" ∧ ∃ n b, s = .encounter_block n b)
      ∨ (k = "give" ∧ ∃ i g, s = .give_statement i g)
      ∨ (k = "take" ∧ ∃ i g, s = .take_statement i g)
      ∨ (k = "spawn" ∧ ∃ n o, s = .spawn_statement n o)
      ∨ (k = "strike" ∧ ∃ g w, s = .strike_statement g w)
      ∨ (k = "if" ∧ ∃ c b a, s = .if_statement (.mk c b a))
      ∨ (k = "while" ∧ ∃ c b, s = .while_statement c b)
      ∨ (k = "for" ∧ ∃ i e b, s = .for_in_statement i e b)
      ∨ (k = "return" ∧ ∃ v, s = .return_statement v)
      ∨ (k = "\x7b" ∧ ∃ b, s = .block (.mk b)) := by
  have hc := s.cases_of_head _ _ _ h
  simp only [Tok.lit.injEq, reduceCtorEq, and_false, exists_false, false_or] at hc
  rcases hc with ⟨e, -, he⟩ | hv | ⟨rfl, -⟩ | hc
  · simp only [startsExpression, decide_eq_true_eq] at he
    exact absurd he hk
  · exact .inl hv
  · simp at hk
  · exact .inr hc

/-- The statements in front of `strike Goblin with "Sword" }`. -/
theorem statements_of_strike (ss : List Statement) (rest ts : List Tok)
    (h : yieldStatements ss ++ .lit "\x7d" :: rest
      = .lit "strike" :: .identifier "Goblin" :: .lit "with" :: .string "Sword" :: .lit "\x7d"
          :: ts) :
    ss = [.strike_statement (.primary (.identifier "Goblin"))
      (.primary (.value (.string "Sword")))] ∧ rest = ts := by
  cases ss with
  | nil => simp [yieldStatements] at h
  | cons s ss =>
      simp only [yieldStatements, List.append_assoc] at h
      have hc := s.of_keyword _ _ _ h (by decide)
      simp only [String.reduceEq, false_and, false_or, or_false, true_and] at hc
      obtain ⟨g, w, rfl⟩ := hc
      simp only [Statement.yield, List.cons_append, List.append_assoc, List.cons.injEq,
        true_and] at h
      obtain ⟨rfl, h1⟩ := g.of_token_expression _ (.identifier "Goblin") (.identifier "Goblin") _ rfl rfl
        (by rfl) h
      simp only [List.cons.injEq, true_and] at h1
      obtain ⟨rfl, h2⟩ := w.of_token_expression _ (.value (.string "Sword")) (.string "Sword") _ rfl rfl
        (by rfl) h1
      obtain ⟨rfl, rfl⟩ := statements_before_close ss rest ts h2
      exact ⟨rfl, rfl⟩

/-- The statements in front of `give "Sword" to Mira }`. -/
theorem statements_of_give (ss : List Statement) (rest ts : List Tok)
    (h : yieldStatements ss ++ .lit "\x7d" :: rest
      = .lit "give" :: .string "Sword" :: .lit "to" :: .identifier "Mira" :: .lit "\x7d"
          :: ts) :
    ss = [.give_statement (.primary (.value (.string "Sword")))
      (.primary (.identifier "Mira"))] ∧ rest = ts := by
  cases ss with
  | nil => simp [yieldStatements] at h
  | cons s ss =>
      simp only [yieldStatements, List.append_assoc] at h
      have hc := s.of_keyword _ _ _ h (by decide)
      simp only [String.reduceEq, false_and, false_or, or_false, true_and] at hc
      obtain ⟨i, g, rfl⟩ := hc
      simp only [Statement.yield, List.cons_append, List.append_assoc, List.cons.injEq,
        true_and] at h
      obtain ⟨rfl, h1⟩ := i.of_token_expression _ (.value (.string "Sword")) (.string "Sword") _ rfl rfl
        (by rfl) h
      simp only [List.cons.injEq, true_and] at h1
      obtain ⟨rfl, h2⟩ := g.of_token_expression _ (.identifier "Mira") (.identifier "Mira") _ rfl rfl
        (by rfl) h1
      obtain ⟨rfl, rfl⟩ := statements_before_close ss rest ts h2
      exact ⟨rfl, rfl⟩


/-- The if statement in front of the last seventeen tokens of the end-to-end example. -/
theorem if_of_example (c : Expression) (b : Block) (a : Option Alternative)
    (ss : List Statement)
    (h : (Statement.if_statement (.mk c b a)).yield ++ yieldStatements ss
      = endToEndExample.drop 18) :
    Statement.if_statement (.mk c b a) = endToEndIf ∧ ss = [] := by
  simp only [endToEndExample, List.drop_succ_cons, List.drop_zero, Statement.yield,
    IfStatement.yield, List.cons_append, List.append_assoc, List.cons.injEq, true_and] at h
  obtain ⟨body⟩ := b
  rcases c.two_operands _ (.identifier "Mira") .has (.string "Sword") _ rfl rfl (by rfl) h with
    ⟨pa, rfl, -, h1⟩ | ⟨pa, pb, rfl, ha, hb, h1⟩
  · simp [Block.yield, InfixOp.text] at h1
  rw [pa.eq_of_single_token (.identifier "Mira") _ ha rfl,
    pb.eq_of_single_token (.value (.string "Sword")) _ hb rfl]
  simp only [Block.yield, List.cons_append, List.append_assoc, List.cons.injEq, true_and] at h1
  obtain ⟨rfl, h2⟩ := statements_of_strike body _ _ h1
  rcases a with _ | (i | ⟨⟨body2⟩⟩)
  · cases ss with
    | nil => simp [yieldOptAlternative, yieldStatements] at h2
    | cons s ss =>
        simp only [yieldOptAlternative, yieldStatements, List.nil_append, List.append_assoc] at h2
        exact (s.head_ne_statement _ _ _ h2 (by decide)).elim
  · obtain ⟨c2, b2, a2⟩ := i
    simp [yieldOptAlternative, Alternative.yield, IfStatement.yield] at h2
  · simp only [yieldOptAlternative, Alternative.yield, Block.yield, List.cons_append,
      List.append_assoc, List.cons.injEq, true_and, List.nil_append] at h2
    obtain ⟨rfl, h3⟩ := statements_of_give body2 _ _ h2
    exact ⟨rfl, statements_of_nil ss h3⟩

/-- C7. The tokens of the end-to-end example
`hero "Mira" { hp: 10, str: 2 } enemy "Goblin" { hp: 5 }
if Mira has "Sword" { strike Goblin with "Sword" } else { give "Sword" to Mira }`
are accepted, and have exactly one derivation as a source file: three statements, in order
a hero declaration, an enemy declaration and an if statement whose condition is the has
expression of owner `Mira` and item `"Sword"`, whose consequence holds one strike statement
and whose alternative is a block holding one give statement. -/
theorem end_to_end_example :
    SourceFile.ParsesAs endToEndExample endToEndTree
    ∧ endToEndTree.statements =
        [.hero_declaration "Mira"
          (some (.mk (.mk "hp" (.primary (.value (.num "10"))))
            [.mk "str" (.primary (.value (.num "2")))] false)),
         .enemy_declaration "Goblin"
          (some (.mk (.mk "hp" (.primary (.value (.num "5")))) [] false)),
         .if_statement (.mk
          (.has_expression (.primary (.identifier "Mira"))
            (.primary (.value (.string "Sword"))))
          (.mk [.strike_statement (.primary (.identifier "Goblin"))
            (.primary (.value (.string "Sword")))])
          (some (.block (.mk [.give_statement (.primary (.value (.string "Sword")))
            (.primary (.identifier "Mira"))]))))]
    ∧ ∀ f : SourceFile, f.yield = endToEndExample → f = endToEndTree := by
  refine ⟨⟨rfl, rfl⟩, rfl, ?_⟩
  rintro ⟨ss⟩ h
  simp only [SourceFile.yield] at h
  -- the hero declaration
  rcases ss with _ | ⟨s1, ss⟩
  · simp [yieldStatements, endToEndExample] at h
  simp only [yieldStatements] at h
  have hc := s1.of_keyword _ "hero" (endToEndExample.drop 1) h (by decide)
  simp only [String.reduceEq, false_and, false_or, or_false, true_and] at hc
  obtain ⟨n1, st1, rfl⟩ := hc
  simp only [endToEndExample, Statement.yield, List.cons_append, List.append_assoc,
    List.nil_append, List.cons.injEq, Tok.string.injEq, true_and] at h
  obtain ⟨rfl, h0⟩ := h
  obtain ⟨rfl, h1⟩ := stats_of_hero st1 _ _ h0
  -- the enemy declaration
  rcases ss with _ | ⟨s2, ss⟩
  · simp [yieldStatements] at h1
  simp only [yieldStatements] at h1
  have hc := s2.of_keyword _ "enemy" (endToEndExample.drop 12) h1 (by decide)
  simp only [String.reduceEq, false_and, false_or, or_false, true_and] at hc
  obtain ⟨n2, st2, rfl⟩ := hc
  simp only [Statement.yield, List.cons_append, List.append_assoc, List.nil_append,
    List.cons.injEq, Tok.string.injEq, true_and] at h1
  obtain ⟨rfl, h2⟩ := h1
  obtain ⟨rfl, h3⟩ := stats_of_enemy st2 _ _ h2
  -- the if statement
  rcases ss with _ | ⟨s3, ss⟩
  · simp [yieldStatements] at h3
  simp only [yieldStatements] at h3
  have hc := s3.of_keyword _ "if" (endToEndExample.drop 19) h3 (by decide)
  simp only [String.reduceEq, false_and, false_or, or_false, true_and] at hc
  obtain ⟨c, b, a, rfl⟩ := hc
  obtain ⟨h4, rfl⟩ := if_of_example c b a ss h3
  rw [h4]
  rfl

theorem Addressable.yield_toExpression_object (o : Addressable) : o.toExpression.yield = o.yield := by
  cases o <;> simp [Addressable.toExpression, Expression.yield, PrimaryExpression.yield,
    Addressable.yield]

theorem Addressable.kind_mem_object (o : Addressable) : o.toExpression.kind ∈ addressableKinds := by
  cases o <;> simp [Addressable.toExpression, Expression.kind, PrimaryExpression.kind,
    addressableKinds]

theorem Addressable.of_kind_object (e : Expression) (h : e.kind ∈ addressableKinds) :
    ∃ o : Addressable, o.toExpression = e := by
  cases e with
  | primary p =>
      cases p with
      | value v => cases v <;> simp [Expression.kind, PrimaryExpression.kind, Value.kind,
          addressableKinds] at h
      | identifier s => exact ⟨.identifier s, rfl⟩
      | grouped_expression e => simp [Expression.kind, PrimaryExpression.kind, addressableKinds] at h
      | array_expression es => simp [Expression.kind, PrimaryExpression.kind, addressableKinds] at h
      | index_expression x => exact ⟨.index_expression x, rfl⟩
      | slice_expression x => exact ⟨.slice_expression x, rfl⟩
      | method_call x => exact ⟨.method_call x, rfl⟩
      | function_call x => exact ⟨.function_call x, rfl⟩
  | _ => simp [Expression.kind, addressableKinds] at h

theorem stopsAt_noOperatorAt (ts : List Tok) (h : stopsAt ts = true) : noOperatorAt ts = true := by
  cases ts with
  | nil => rfl
  | cons t ts => simp_all [stopsAt, noOperatorAt]

theorem noOperatorAt_operator (o : InfixOp) (ts : List Tok) :
    noOperatorAt (.lit o.text :: ts) = false := by
  simp [noOperatorAt, o.operator_token]

/-- An expression in front of one value token (no identifier) followed by no operator is the
primary expression of that token. -/
theorem Expression.of_value_token : (e : Expression) → (rest : List Tok) →
    (p : PrimaryExpression) → (t : Tok) → (ts : List Tok) → p.yield = [t] →
    t.isOperand = true → (∀ s, t ≠ .identifier s) → noOperatorAt ts = true →
    e.yield ++ rest = t :: ts → e = .primary p ∧ rest = ts
  | .primary q, rest, p, t, ts, hp, ht, hi, hs, h => by
      have key : ∀ s us, (Tok.identifier s :: us) ++ rest = t :: ts → False := by
        intro s us h
        simp only [List.cons_append, List.cons.injEq] at h
        exact hi s h.1.symm
      have hq : q.yield = [t] ∧ rest = ts := by
        cases q with
        | value v =>
            obtain ⟨t1, h1, -⟩ := v.yield_eq
            simp only [Expression.yield, PrimaryExpression.yield, h1, List.cons_append,
              List.nil_append, List.cons.injEq] at h ⊢
            exact ⟨⟨h.1, trivial⟩, h.2⟩
        | identifier s =>
            exact (key s [] (by simpa [Expression.yield, PrimaryExpression.yield] using h)).elim
        | grouped_expression e =>
            simp only [Expression.yield, PrimaryExpression.yield, List.cons_append,
              List.cons.injEq] at h
            rw [← h.1] at ht; exact absurd ht (by decide)
        | array_expression es =>
            simp only [Expression.yield, PrimaryExpression.yield, List.cons_append,
              List.cons.injEq] at h
            rw [← h.1] at ht; exact absurd ht (by decide)
        | index_expression x =>
            obtain ⟨s, us, h1, -⟩ := x.index_head
            rw [Expression.yield, PrimaryExpression.yield, h1] at h
            exact (key s us h).elim
        | slice_expression x =>
            obtain ⟨s, us, h1, -⟩ := x.slice_head
            rw [Expression.yield, PrimaryExpression.yield, h1] at h
            exact (key s us h).elim
        | method_call x =>
            obtain ⟨s, us, h1, -⟩ := x.method_call_head
            rw [Expression.yield, PrimaryExpression.yield, h1] at h
            exact (key s us h).elim
        | function_call x =>
            obtain ⟨s, us, h1, -⟩ := x.function_call_head
            rw [Expression.yield, PrimaryExpression.yield, h1] at h
            exact (key s us h).elim
      rw [q.eq_of_single_token p t hq.1 hp]
      exact ⟨rfl, hq.2⟩
  | .binary_expression l op r, rest, p, t, ts, hp, ht, hi, hs, h => by
      obtain ⟨-, h2⟩ := Expression.of_value_token l (.lit op.text :: (r.yield ++ rest)) p t ts
        hp ht hi hs (by simpa [Expression.yield] using h)
      have h5 : noOperatorAt (Tok.lit op.text :: (r.yield ++ rest)) = false :=
        noOperatorAt_operator (.binary op) _
      rw [← h2, h5] at hs; exact absurd hs (by decide)
  | .has_expression l r, rest, p, t, ts, hp, ht, hi, hs, h => by
      obtain ⟨-, h2⟩ := Expression.of_value_token l (.lit "has" :: (r.yield ++ rest)) p t ts
        hp ht hi hs (by simpa [Expression.yield] using h)
      have h5 : noOperatorAt (Tok.lit "has" :: (r.yield ++ rest)) = false :=
        noOperatorAt_operator .has _
      rw [← h2, h5] at hs; exact absurd hs (by decide)
  | .unary_expression u _, rest, p, t, ts, _, ht, _, _, h => by
      simp only [Expression.yield, List.cons_append, List.cons.injEq] at h
      rw [← h.1, UnOp.unary_not_operand] at ht; exact absurd ht (by decide)
  | .lambda_block _ _, rest, p, t, ts, _, ht, _, _, h => by
      simp only [Expression.yield, List.cons_append, List.cons.injEq] at h
      rw [← h.1] at ht; exact absurd ht (by decide)
  | .lambda_arrow _ _, rest, p, t, ts, _, ht, _, _, h => by
      simp only [Expression.yield, List.cons_append, List.cons.injEq] at h
      rw [← h.1] at ht; exact absurd ht (by decide)
  | .dialogue _ _, rest, p, t, ts, _, ht, _, _, h => by
      simp only [Expression.yield, List.cons_append, List.cons.injEq] at h
      rw [← h.1] at ht; exact absurd ht (by decide)
  | .skill_check _ _ _ _, rest, p, t, ts, _, ht, _, _, h => by
      simp only [Expression.yield, List.cons_append, List.cons.injEq] at h
      rw [← h.1] at ht; exact absurd ht (by decide)

/-- An expression in front of `( token )` followed by no operator is the grouped
expression of that token. -/
theorem Expression.of_grouped_token : (e : Expression) → (rest : List Tok) →
    (p : PrimaryExpression) → (t : Tok) → (ts : List Tok) → p.yield = [t] →
    t.isOperand = true → noOperatorAt ts = true →
    e.yield ++ rest = .lit "(" :: t :: .lit ")" :: ts →
    e = .primary (.grouped_expression (.primary p)) ∧ rest = ts
  | .primary q, rest, p, t, ts, hp, ht, hs, h => by
      cases q with
      | value v =>
          obtain ⟨t1, h1, h2⟩ := v.yield_eq
          simp only [Expression.yield, PrimaryExpression.yield, h1, List.cons_append,
            List.cons.injEq] at h
          rw [h.1] at h2; exact absurd h2 (by decide)
      | identifier s => simp [Expression.yield, PrimaryExpression.yield] at h
      | grouped_expression e =>
          simp only [Expression.yield, PrimaryExpression.yield, List.cons_append,
            List.cons.injEq, true_and, List.append_assoc] at h
          obtain ⟨rfl, h2⟩ := e.of_token_expression _ p t _ hp ht (by rfl) h
          simp only [List.cons.injEq, true_and] at h2
          exact ⟨rfl, h2⟩
      | array_expression es => simp [Expression.yield, PrimaryExpression.yield] at h
      | index_expression x =>
          obtain ⟨s, us, h1, -⟩ := x.index_head
          simp [Expression.yield, PrimaryExpression.yield, h1] at h
      | slice_expression x =>
          obtain ⟨s, us, h1, -⟩ := x.slice_head
          simp [Expression.yield, PrimaryExpression.yield, h1] at h
      | method_call x =>
          obtain ⟨s, us, h1, -⟩ := x.method_call_head
          simp [Expression.yield, PrimaryExpression.yield, h1] at h
      | function_call x =>
          obtain ⟨s, us, h1, -⟩ := x.function_call_head
          simp [Expression.yield, PrimaryExpression.yield, h1] at h
  | .binary_expression l op r, rest, p, t, ts, hp, ht, hs, h => by
      obtain ⟨-, h2⟩ := Expression.of_grouped_token l (.lit op.text :: (r.yield ++ rest)) p t ts
        hp ht hs (by simpa [Expression.yield] using h)
      have h5 : noOperatorAt (Tok.lit op.text :: (r.yield ++ rest)) = false :=
        noOperatorAt_operator (.binary op) _
      rw [← h2, h5] at hs; exact absurd hs (by decide)
  | .has_expression l r, rest, p, t, ts, hp, ht, hs, h => by
      obtain ⟨-, h2⟩ := Expression.of_grouped_token l (.lit "has" :: (r.yield ++ rest)) p t ts
        hp ht hs (by simpa [Expression.yield] using h)
      have h5 : noOperatorAt (Tok.lit "has" :: (r.yield ++ rest)) = false :=
        noOperatorAt_operator .has _
      rw [← h2, h5] at hs; exact absurd hs (by decide)
  | .unary_expression u _, rest, p, t, ts, _, _, _, h => by
      cases u <;> simp [Expression.yield, UnOp.text] at h
  | .lambda_block _ _, rest, p, t, ts, _, _, _, h => by simp [Expression.yield] at h
  | .lambda_arrow _ _, rest, p, t, ts, _, _, _, h => by simp [Expression.yield] at h
  | .dialogue _ _, rest, p, t, ts, _, _, _, h => by simp [Expression.yield] at h
  | .skill_check _ _ _ _, rest, p, t, ts, _, _, _, h => by simp [Expression.yield] at h

/-- An expression in front of `[ token ]` followed by no operator is the array of that
token. -/
theorem Expression.of_array_token : (e : Expression) → (rest : List Tok) →
    (p : PrimaryExpression) → (t : Tok) → (ts : List Tok) → p.yield = [t] →
    t.isOperand = true → noOperatorAt ts = true →
    e.yield ++ rest = .lit "[" :: t :: .lit "]" :: ts →
    e = .primary (.array_expression [.primary p]) ∧ rest = ts
  | .primary q, rest, p, t, ts, hp, ht, hs, h => by
      cases q with
      | value v =>
          obtain ⟨t1, h1, h2⟩ := v.yield_eq
          simp only [Expression.yield, PrimaryExpression.yield, h1, List.cons_append,
            List.cons.injEq] at h
          rw [h.1] at h2; exact absurd h2 (by decide)
      | identifier s => simp [Expression.yield, PrimaryExpression.yield] at h
      | grouped_expression e => simp [Expression.yield, PrimaryExpression.yield] at h
      | array_expression es =>
          simp only [Expression.yield, PrimaryExpression.yield, List.cons_append,
            List.cons.injEq, true_and, List.append_assoc] at h
          rcases es with _ | ⟨e0, es⟩
          · simp only [yieldExpressions, List.nil_append, List.cons.injEq] at h
            rw [← h.1] at ht; exact absurd ht (by decide)
          simp only [yieldExpressions, List.append_assoc] at h
          obtain ⟨rfl, h2⟩ := e0.of_token_expression _ p t _ hp ht (by rfl) h
          rcases es with _ | ⟨e1, es⟩
          · simp only [yieldMoreExpressions, List.nil_append, List.cons.injEq, true_and] at h2
            exact ⟨rfl, h2⟩
          · simp [yieldMoreExpressions] at h2
      | index_expression x =>
          obtain ⟨s, us, h1, -⟩ := x.index_head
          simp [Expression.yield, PrimaryExpression.yield, h1] at h
      | slice_expression x =>
          obtain ⟨s, us, h1, -⟩ := x.slice_head
          simp [Expression.yield, PrimaryExpression.yield, h1] at h
      | method_call x =>
          obtain ⟨s, us, h1, -⟩ := x.method_call_head
          simp [Expression.yield, PrimaryExpression.yield, h1] at h
      | function_call x =>
          obtain ⟨s, us, h1, -⟩ := x.function_call_head
          simp [Expression.yield, PrimaryExpression.yield, h1] at h
  | .binary_expression l op r, rest, p, t, ts, hp, ht, hs, h => by
      obtain ⟨-, h2⟩ := Expression.of_array_token l (.lit op.text :: (r.yield ++ rest)) p t ts
        hp ht hs (by simpa [Expression.yield] using h)
      have h5 : noOperatorAt (Tok.lit op.text :: (r.yield ++ rest)) = false :=
        noOperatorAt_operator (.binary op) _
      rw [← h2, h5] at hs; exact absurd hs (by decide)
  | .has_expression l r, rest, p, t, ts, hp, ht, hs, h => by
      obtain ⟨-, h2⟩ := Expression.of_array_token l (.lit "has" :: (r.yield ++ rest)) p t ts
        hp ht hs (by simpa [Expression.yield] using h)
      have h5 : noOperatorAt (Tok.lit "has" :: (r.yield ++ rest)) = false :=
        noOperatorAt_operator .has _
      rw [← h2, h5] at hs; exact absurd hs (by decide)
  | .unary_expression u _, rest, p, t, ts, _, _, _, h => by
      cases u <;> simp [Expression.yield, UnOp.text] at h
  | .lambda_block _ _, rest, p, t, ts, _, _, _, h => by simp [Expression.yield] at h
  | .lambda_arrow _ _, rest, p, t, ts, _, _, _, h => by simp [Expression.yield] at h
  | .dialogue _ _, rest, p, t, ts, _, _, _, h => by simp [Expression.yield] at h
  | .skill_check _ _ _ _, rest, p, t, ts, _, _, _, h => by simp [Expression.yield] at h


/-- C8. The object of every index expression and of every slice expression is one of the
five addressable kinds identifier, method call, index expression, slice expression and
function call; every expression of one of these kinds is accepted as the object of an index
and of a slice expression; no index or slice has a literal, an array, a grouped, a unary or
a binary expression as its object.  Every index or slice expression begins with an
identifier token, so none derives `(a)[0]` or `"abc"[0]`: each of these two source files
has exactly one derivation, a grouped expression (a string) followed by an array. -/
theorem index_object_is_addressable :
    ((∀ x : IndexExpression, x.object.toExpression.kind ∈ addressableKinds)
      ∧ (∀ x : SliceExpression, x.object.toExpression.kind ∈ addressableKinds))
    ∧ (∀ e : Expression, e.kind ∈ addressableKinds →
        (∀ i : Expression, ∃ x : IndexExpression, x.object.toExpression = e
          ∧ x.yield = e.yield ++ .lit "[" :: i.yield ++ [.lit "]"])
        ∧ (∀ a b : Option Expression, ∃ x : SliceExpression, x.object.toExpression = e
          ∧ x.yield = e.yield ++ .lit "[" :: yieldOptExpression a ++ .lit ".." ::
              yieldOptExpression b ++ [.lit "]"]))
    ∧ (∀ k ∈ [Kind.bool, .dice, .num, .string, .array_expression, .grouped_expression,
          .unary_expression, .binary_expression],
        (∀ x : IndexExpression, x.object.toExpression.kind ≠ k)
          ∧ (∀ x : SliceExpression, x.object.toExpression.kind ≠ k))
    ∧ ((∀ x : IndexExpression, ∃ s ts, x.yield = .identifier s :: ts)
      ∧ (∀ x : SliceExpression, ∃ s ts, x.yield = .identifier s :: ts))
    ∧ (∀ f : SourceFile,
        f.yield = [.lit "(", .identifier "a", .lit ")", .lit "[", .num "0", .lit "]"] →
        f = ⟨[.expression (.primary (.grouped_expression (.primary (.identifier "a")))),
          .expression (.primary (.array_expression [.primary (.value (.num "0"))]))]⟩)
    ∧ (∀ f : SourceFile,
        f.yield = [.string "abc", .lit "[", .num "0", .lit "]"] →
        f = ⟨[.expression (.primary (.value (.string "abc"))),
          .expression (.primary (.array_expression [.primary (.value (.num "0"))]))]⟩) := by
  refine ⟨⟨fun x => x.object.kind_mem_object, fun x => x.object.kind_mem_object⟩, ?_, ?_,
    ⟨fun x => ?_, fun x => ?_⟩, ?_, ?_⟩
  · intro e he
    obtain ⟨o, rfl⟩ := Addressable.of_kind_object e he
    refine ⟨fun i => ⟨.mk o i, rfl, ?_⟩, fun a b => ⟨.mk o a b, rfl, ?_⟩⟩
    · simp [IndexExpression.yield, o.yield_toExpression_object]
    · simp [SliceExpression.yield, o.yield_toExpression_object]
  · intro k hk
    constructor
    · intro x hx
      have := x.object.kind_mem_object
      rw [hx] at this
      revert this hk
      cases k <;> simp [addressableKinds]
    · intro x hx
      have := x.object.kind_mem_object
      rw [hx] at this
      revert this hk
      cases k <;> simp [addressableKinds]
  · obtain ⟨s, ts, h, -⟩ := x.index_head
    exact ⟨s, ts, h⟩
  · obtain ⟨s, ts, h, -⟩ := x.slice_head
    exact ⟨s, ts, h⟩
  · rintro ⟨ss⟩ h
    simp only [SourceFile.yield] at h
    rcases ss with _ | ⟨s1, ss⟩
    · simp [yieldStatements] at h
    simp only [yieldStatements] at h
    obtain ⟨e1, rfl⟩ := s1.expression_of_lit _ "(" _ h (by decide)
    obtain ⟨rfl, h1⟩ := e1.of_grouped_token _ (.identifier "a") (.identifier "a")
      [.lit "[", .num "0", .lit "]"] rfl rfl
      (by rfl) (by simpa [Statement.yield] using h)
    rcases ss with _ | ⟨s2, ss⟩
    · simp [yieldStatements] at h1
    simp only [yieldStatements] at h1
    obtain ⟨e2, rfl⟩ := s2.expression_of_lit _ "[" _ h1 (by decide)
    obtain ⟨rfl, h2⟩ := e2.of_array_token _ (.value (.num "0")) (.num "0") [] rfl rfl
      (by rfl) (by simpa [Statement.yield] using h1)
    rw [statements_of_nil ss h2]
  · rintro ⟨ss⟩ h
    simp only [SourceFile.yield] at h
    rcases ss with _ | ⟨s1, ss⟩
    · simp [yieldStatements] at h
    simp only [yieldStatements] at h
    obtain ⟨e1, rfl⟩ := s1.expression_of_value _ _ _ h (.inl ⟨_, rfl⟩)
    obtain ⟨rfl, h1⟩ := e1.of_value_token _ (.value (.string "abc")) (.string "abc")
      [.lit "[", .num "0", .lit "]"] rfl rfl
      (by simp) (by rfl) (by simpa [Statement.yield] using h)
    rcases ss with _ | ⟨s2, ss⟩
    · simp [yieldStatements] at h1
    simp only [yieldStatements] at h1
    obtain ⟨e2, rfl⟩ := s2.expression_of_lit _ "[" _ h1 (by decide)
    obtain ⟨rfl, h2⟩ := e2.of_array_token _ (.value (.num "0")) (.num "0") [] rfl rfl
      (by rfl) (by simpa [Statement.yield] using h1)
    rw [statements_of_nil ss h2]

/-- Every method call begins with an identifier token followed by `"."`. -/
theorem MethodCall.dot_second : (m : MethodCall) →
    ∃ s ts, m.yield = .identifier s :: .lit "." :: ts
  | .mk (.identifier s) n args => ⟨s, _, rfl⟩
  | .mk (.method_call m) n args => by
      obtain ⟨s, ts, h⟩ := MethodCall.dot_second m
      exact ⟨s, ts ++ (.lit "." :: .identifier n :: .lit "(" :: yieldExpressions args
        ++ [.lit ")"]), by simp [MethodCall.yield, Receiver.yield, h]⟩

theorem Receiver.yield_toExpression_receiver (r : Receiver) : r.toExpression.yield = r.yield := by
  cases r <;> simp [Receiver.toExpression, Expression.yield, PrimaryExpression.yield,
    Receiver.yield]

theorem Receiver.kind_mem_receiver (r : Receiver) : r.toExpression.kind ∈ receiverKinds := by
  cases r <;> simp [Receiver.toExpression, Expression.kind, PrimaryExpression.kind,
    receiverKinds]

theorem Receiver.of_kind_receiver (e : Expression) (h : e.kind ∈ receiverKinds) :
    ∃ r : Receiver, r.toExpression = e := by
  cases e with
  | primary p =>
      cases p with
      | value v => cases v <;> simp [Expression.kind, PrimaryExpression.kind, Value.kind,
          receiverKinds] at h
      | identifier s => exact ⟨.identifier s, rfl⟩
      | method_call x => exact ⟨.method_call x, rfl⟩
      | _ => simp [Expression.kind, PrimaryExpression.kind, receiverKinds] at h
  | _ => simp [Expression.kind, receiverKinds] at h

mutual
/-- An index or slice object in front of `x [ token ] ...`, where what follows `]` is
neither an operator nor `"["`. -/
theorem Addressable.index_token_object : (o : Addressable) → (rest : List Tok) → (x : String) →
    (p : PrimaryExpression) → (t : Tok) → (ts : List Tok) → p.yield = [t] →
    t.isOperand = true → closedAt ts = true →
    o.yield ++ rest = .identifier x :: .lit "[" :: t :: .lit "]" :: ts →
    (o = .identifier x ∧ rest = .lit "[" :: t :: .lit "]" :: ts)
      ∨ (o = .index_expression (.mk (.identifier x) (.primary p)) ∧ rest = ts)
  | .identifier s, rest, x, p, t, ts, _, _, _, h => by
      simp only [Addressable.yield, List.cons_append, List.nil_append, List.cons.injEq,
        Tok.identifier.injEq] at h
      exact .inl ⟨by rw [h.1], h.2⟩
  | .index_expression i, rest, x, p, t, ts, hp, ht, hs, h => by
      obtain ⟨h1, h2⟩ := IndexExpression.index_token_index i rest x p t ts hp ht hs
        (by simpa [Addressable.yield] using h)
      exact .inr ⟨by rw [h1], h2⟩
  | .method_call m, rest, x, p, t, ts, _, _, _, h => by
      obtain ⟨s, us, h1⟩ := m.dot_second
      simp [Addressable.yield, h1] at h
  | .slice_expression i, rest, x, p, t, ts, hp, ht, hs, h =>
      (SliceExpression.index_token_slice i rest x p t ts hp ht hs
        (by simpa [Addressable.yield] using h)).elim
  | .function_call (.mk f args), rest, x, p, t, ts, _, _, _, h => by
      simp [Addressable.yield, FunctionCall.yield] at h
/-- An index expression in front of `x [ token ] ...` is the index of `x`. -/
theorem IndexExpression.index_token_index : (i : IndexExpression) → (rest : List Tok) →
    (x : String) → (p : PrimaryExpression) → (t : Tok) → (ts : List Tok) → p.yield = [t] →
    t.isOperand = true → closedAt ts = true →
    i.yield ++ rest = .identifier x :: .lit "[" :: t :: .lit "]" :: ts →
    i = .mk (.identifier x) (.primary p) ∧ rest = ts
  | .mk o e, rest, x, p, t, ts, hp, ht, hs, h => by
      have h' : o.yield ++ (.lit "[" :: (e.yield ++ .lit "]" :: rest))
          = .identifier x :: .lit "[" :: t :: .lit "]" :: ts := by
        simpa [IndexExpression.yield] using h
      rcases Addressable.index_token_object o _ x p t ts hp ht hs h' with ⟨rfl, h2⟩ | ⟨-, h2⟩
      · simp only [List.cons.injEq, true_and] at h2
        obtain ⟨rfl, h3⟩ := e.of_token_expression _ p t _ hp ht (by rfl) h2
        simp only [List.cons.injEq, true_and] at h3
        exact ⟨rfl, h3⟩
      · rw [← h2] at hs; simp [closedAt] at hs
/-- No slice expression begins `x [ token ] ...`. -/
theorem SliceExpression.index_token_slice : (i : SliceExpression) → (rest : List Tok) →
    (x : String) → (p : PrimaryExpression) → (t : Tok) → (ts : List Tok) → p.yield = [t] →
    t.isOperand = true → closedAt ts = true →
    i.yield ++ rest = .identifier x :: .lit "[" :: t :: .lit "]" :: ts → False
  | .mk o a b, rest, x, p, t, ts, hp, ht, hs, h => by
      have h' : o.yield ++ (.lit "[" :: (yieldOptExpression a ++ .lit ".." ::
          (yieldOptExpression b ++ .lit "]" :: rest)))
          = .identifier x :: .lit "[" :: t :: .lit "]" :: ts := by
        simpa [SliceExpression.yield] using h
      rcases Addressable.index_token_object o _ x p t ts hp ht hs h' with ⟨rfl, h2⟩ | ⟨-, h2⟩
      · simp only [List.cons.injEq, true_and] at h2
        cases a with
        | none =>
            simp only [yieldOptExpression, List.nil_append, List.cons.injEq] at h2
            rw [← h2.1] at ht; exact absurd ht (by decide)
        | some e =>
            simp only [yieldOptExpression] at h2
            obtain ⟨-, h3⟩ := e.of_token_expression _ p t _ hp ht (by rfl) h2
            simp at h3
      · rw [← h2] at hs; simp [closedAt] at hs
end

/-- An expression in front of `x [ token ] ...`, where what follows `]` is neither an
operator nor `"["`, is the identifier `x` or the index of `x`. -/
theorem Expression.index_token_expression : (e : Expression) → (rest : List Tok) → (x : String) →
    (p : PrimaryExpression) → (t : Tok) → (ts : List Tok) → p.yield = [t] →
    t.isOperand = true → closedAt ts = true →
    e.yield ++ rest = .identifier x :: .lit "[" :: t :: .lit "]" :: ts →
    (e = .primary (.identifier x) ∧ rest = .lit "[" :: t :: .lit "]" :: ts)
      ∨ (e = .primary (.index_expression (.mk (.identifier x) (.primary p))) ∧ rest = ts)
  | .primary q, rest, x, p, t, ts, hp, ht, hs, h => by
      cases q with
      | value v =>
          obtain ⟨t1, h1, h2⟩ := v.yield_eq
          simp only [Expression.yield, PrimaryExpression.yield, h1, List.cons_append,
            List.nil_append, List.cons.injEq] at h
          rw [h.1] at h1
          cases v with
          | bool b => cases b <;> simp [Value.yield] at h1
          | _ => simp [Value.yield] at h1
      | identifier s =>
          simp only [Expression.yield, PrimaryExpression.yield, List.cons_append,
            List.nil_append, List.cons.injEq, Tok.identifier.injEq] at h
          exact .inl ⟨by rw [h.1], h.2⟩
      | grouped_expression e => simp [Expression.yield, PrimaryExpression.yield] at h
      | array_expression es => simp [Expression.yield, PrimaryExpression.yield] at h
      | index_expression i =>
          obtain ⟨h1, h2⟩ := i.index_token_index rest x p t ts hp ht hs
            (by simpa [Expression.yield, PrimaryExpression.yield] using h)
          exact .inr ⟨by rw [h1], h2⟩
      | slice_expression i =>
          exact (i.index_token_slice rest x p t ts hp ht hs
            (by simpa [Expression.yield, PrimaryExpression.yield] using h)).elim
      | method_call m =>
          obtain ⟨s, us, h1⟩ := m.dot_second
          simp [Expression.yield, PrimaryExpression.yield, h1] at h
      | function_call f =>
          obtain ⟨g, args⟩ := f
          simp [Expression.yield, PrimaryExpression.yield, FunctionCall.yield] at h
  | .binary_expression l op r, rest, x, p, t, ts, hp, ht, hs, h => by
      have h' : l.yield ++ (.lit op.text :: (r.yield ++ rest))
          = .identifier x :: .lit "[" :: t :: .lit "]" :: ts := by
        simpa [Expression.yield] using h
      have h5 : closedAt (Tok.lit op.text :: (r.yield ++ rest)) = false :=
        closedAt_operator (.binary op) _
      rcases Expression.index_token_expression l _ x p t ts hp ht hs h' with ⟨-, h2⟩ | ⟨-, h2⟩
      · simp only [List.cons.injEq, Tok.lit.injEq] at h2
        cases op <;> exact absurd h2.1 (by decide)
      · rw [← h2, h5] at hs; exact absurd hs (by decide)
  | .has_expression l r, rest, x, p, t, ts, hp, ht, hs, h => by
      have h' : l.yield ++ (.lit "has" :: (r.yield ++ rest))
          = .identifier x :: .lit "[" :: t :: .lit "]" :: ts := by
        simpa [Expression.yield] using h
      have h5 : closedAt (Tok.lit "has" :: (r.yield ++ rest)) = false :=
        closedAt_operator .has _
      rcases Expression.index_token_expression l _ x p t ts hp ht hs h' with ⟨-, h2⟩ | ⟨-, h2⟩
      · simp at h2
      · rw [← h2, h5] at hs; exact absurd hs (by decide)
  | .unary_expression u _, rest, x, p, t, ts, _, _, _, h => by simp [Expression.yield] at h
  | .lambda_block _ _, rest, x, p, t, ts, _, _, _, h => by simp [Expression.yield] at h
  | .lambda_arrow _ _, rest, x, p, t, ts, _, _, _, h => by simp [Expression.yield] at h
  | .dialogue _ _, rest, x, p, t, ts, _, _, _, h => by simp [Expression.yield] at h
  | .skill_check _ _ _ _, rest, x, p, t, ts, _, _, _, h => by simp [Expression.yield] at h

/-- An argument list in front of `)` is empty. -/
theorem arguments_before_close (args : List Expression) (rest ts : List Tok)
    (h : yieldExpressions args ++ .lit ")" :: rest = .lit ")" :: ts) :
    args = [] ∧ rest = ts := by
  cases args with
  | nil => simpa [yieldExpressions] using h
  | cons a as =>
      simp only [yieldExpressions, List.append_assoc] at h
      exact (a.head_ne_expression _ _ _ h (by decide)).elim

mutual
/-- A method call in front of `a . b ( ) . c ( ) ...`, where what follows continues
nothing, is `a.b()` or `a.b().c()`. -/
theorem MethodCall.chain_method : (m : MethodCall) → (rest : List Tok) → (a b c : String) →
    (ts : List Tok) → stopsAt ts = true →
    m.yield ++ rest = methodChainExample a b c ++ ts →
    (m = methodOnce a b ∧ rest = .lit "." :: .identifier c :: .lit "(" :: .lit ")" :: ts)
      ∨ (m = methodTwice a b c ∧ rest = ts)
  | .mk r n args, rest, a, b, c, ts, hs, h => by
      have h' : r.yield ++ (.lit "." :: .identifier n :: .lit "(" ::
          (yieldExpressions args ++ .lit ")" :: rest)) = methodChainExample a b c ++ ts := by
        simpa [MethodCall.yield] using h
      rcases Receiver.chain_receiver r _ a b c ts hs h' with ⟨rfl, h2⟩ | ⟨rfl, h2⟩ | ⟨-, h2⟩
      · simp only [methodChainExample, List.drop_succ_cons, List.drop_zero, List.cons_append,
          List.nil_append, List.cons.injEq, Tok.identifier.injEq, true_and] at h2
        obtain ⟨rfl, h3⟩ := h2
        obtain ⟨rfl, h4⟩ := arguments_before_close args _ _ h3
        exact .inl ⟨rfl, h4⟩
      · simp only [List.cons.injEq, Tok.identifier.injEq, true_and] at h2
        obtain ⟨rfl, h3⟩ := h2
        obtain ⟨rfl, h4⟩ := arguments_before_close args _ _ h3
        exact .inr ⟨rfl, h4⟩
      · rw [← h2] at hs; simp [stopsAt, Tok.isOperator, Tok.opensSuffix] at hs
/-- A receiver in front of `a . b ( ) . c ( ) ...`. -/
theorem Receiver.chain_receiver : (r : Receiver) → (rest : List Tok) → (a b c : String) →
    (ts : List Tok) → stopsAt ts = true →
    r.yield ++ rest = methodChainExample a b c ++ ts →
    (r = .identifier a ∧ rest = (methodChainExample a b c).drop 1 ++ ts)
      ∨ (r = .method_call (methodOnce a b)
          ∧ rest = .lit "." :: .identifier c :: .lit "(" :: .lit ")" :: ts)
      ∨ (r = .method_call (methodTwice a b c) ∧ rest = ts)
  | .identifier s, rest, a, b, c, ts, _, h => by
      simp only [Receiver.yield, methodChainExample, List.cons_append, List.nil_append,
        List.cons.injEq, Tok.identifier.injEq] at h
      exact .inl ⟨by rw [h.1], by simpa [methodChainExample] using h.2⟩
  | .method_call m, rest, a, b, c, ts, hs, h => by
      rcases MethodCall.chain_method m rest a b c ts hs (by simpa [Receiver.yield] using h) with
        ⟨rfl, h2⟩ | ⟨rfl, h2⟩
      · exact .inr (.inl ⟨rfl, h2⟩)
      · exact .inr (.inr ⟨rfl, h2⟩)
end

/-- An index or slice object in front of `a . b ( ) . c ( ) ...`. -/
theorem Addressable.chain_object : (o : Addressable) → (rest : List Tok) → (a b c : String) →
    (ts : List Tok) → stopsAt ts = true →
    o.yield ++ rest = methodChainExample a b c ++ ts →
    (o = .identifier a ∧ rest = (methodChainExample a b c).drop 1 ++ ts)
      ∨ (o = .method_call (methodOnce a b)
          ∧ rest = .lit "." :: .identifier c :: .lit "(" :: .lit ")" :: ts)
      ∨ (o = .method_call (methodTwice a b c) ∧ rest = ts)
  | .identifier s, rest, a, b, c, ts, _, h => by
      simp only [Addressable.yield, methodChainExample, List.cons_append, List.nil_append,
        List.cons.injEq, Tok.identifier.injEq] at h
      exact .inl ⟨by rw [h.1], by simpa [methodChainExample] using h.2⟩
  | .method_call m, rest, a, b, c, ts, hs, h => by
      rcases MethodCall.chain_method m rest a b c ts hs (by simpa [Addressable.yield] using h) with
        ⟨rfl, h2⟩ | ⟨rfl, h2⟩
      · exact .inr (.inl ⟨rfl, h2⟩)
      · exact .inr (.inr ⟨rfl, h2⟩)
  | .function_call (.mk f args), rest, a, b, c, ts, _, h => by
      simp [Addressable.yield, FunctionCall.yield, methodChainExample] at h
  | .index_expression (.mk o i), rest, a, b, c, ts, hs, h => by
      have h' : o.yield ++ (.lit "[" :: (i.yield ++ .lit "]" :: rest))
          = methodChainExample a b c ++ ts := by
        simpa [Addressable.yield, IndexExpression.yield] using h
      rcases Addressable.chain_object o _ a b c ts hs h' with ⟨-, h2⟩ | ⟨-, h2⟩ | ⟨-, h2⟩
      · simp [methodChainExample] at h2
      · simp at h2
      · rw [← h2] at hs; simp [stopsAt, Tok.isOperator, Tok.opensSuffix] at hs
  | .slice_expression (.mk o x y), rest, a, b, c, ts, hs, h => by
      have h' : o.yield ++ (.lit "[" :: (yieldOptExpression x ++ .lit ".." ::
          (yieldOptExpression y ++ .lit "]" :: rest))) = methodChainExample a b c ++ ts := by
        simpa [Addressable.yield, SliceExpression.yield] using h
      rcases Addressable.chain_object o _ a b c ts hs h' with ⟨-, h2⟩ | ⟨-, h2⟩ | ⟨-, h2⟩
      · simp [methodChainExample] at h2
      · simp at h2
      · rw [← h2] at hs; simp [stopsAt, Tok.isOperator, Tok.opensSuffix] at hs

/-- An expression in front of `a . b ( ) . c ( ) ...`, where what follows continues
nothing, is `a`, `a.b()` or `a.b().c()`. -/
theorem Expression.chain_expression : (e : Expression) → (rest : List Tok) → (a b c : String) →
    (ts : List Tok) → stopsAt ts = true →
    e.yield ++ rest = methodChainExample a b c ++ ts →
    (e = .primary (.identifier a) ∧ rest = (methodChainExample a b c).drop 1 ++ ts)
      ∨ (e = .primary (.method_call (methodOnce a b))
          ∧ rest = .lit "." :: .identifier c :: .lit "(" :: .lit ")" :: ts)
      ∨ (e = .primary (.method_call (methodTwice a b c)) ∧ rest = ts)
  | .primary q, rest, a, b, c, ts, hs, h => by
      have key : ∀ o : Addressable, o.yield = q.yield →
          (o = .identifier a ∧ rest = (methodChainExample a b c).drop 1 ++ ts)
            ∨ (o = .method_call (methodOnce a b)
              ∧ rest = .lit "." :: .identifier c :: .lit "(" :: .lit ")" :: ts)
            ∨ (o = .method_call (methodTwice a b c) ∧ rest = ts) := by
        intro o ho
        exact o.chain_object rest a b c ts hs (by rw [ho]; simpa [Expression.yield] using h)
      cases q with
      | value v =>
          obtain ⟨t1, h1, h2⟩ := v.yield_eq
          simp only [Expression.yield, PrimaryExpression.yield, h1, methodChainExample,
            List.cons_append, List.nil_append, List.cons.injEq] at h
          rw [h.1] at h1
          cases v with
          | bool b => cases b <;> simp [Value.yield] at h1
          | _ => simp [Value.yield] at h1
      | grouped_expression e =>
          simp [Expression.yield, PrimaryExpression.yield, methodChainExample] at h
      | array_expression es =>
          simp [Expression.yield, PrimaryExpression.yield, methodChainExample] at h
      | identifier s =>
          rcases key (.identifier s) rfl with ⟨h1, h2⟩ | ⟨h1, -⟩ | ⟨h1, -⟩
          · simp only [Addressable.identifier.injEq] at h1
            exact .inl ⟨by rw [h1], h2⟩
          · simp at h1
          · simp at h1
      | method_call m =>
          rcases key (.method_call m) rfl with ⟨h1, -⟩ | ⟨h1, h2⟩ | ⟨h1, h2⟩
          · simp at h1
          · simp only [Addressable.method_call.injEq] at h1
            exact .inr (.inl ⟨by rw [h1], h2⟩)
          · simp only [Addressable.method_call.injEq] at h1
            exact .inr (.inr ⟨by rw [h1], h2⟩)
      | index_expression i =>
          rcases key (.index_expression i) rfl with ⟨h1, -⟩ | ⟨h1, -⟩ | ⟨h1, -⟩ <;> simp at h1
      | slice_expression i =>
          rcases key (.slice_expression i) rfl with ⟨h1, -⟩ | ⟨h1, -⟩ | ⟨h1, -⟩ <;> simp at h1
      | function_call f =>
          rcases key (.function_call f) rfl with ⟨h1, -⟩ | ⟨h1, -⟩ | ⟨h1, -⟩ <;> simp at h1
  | .binary_expression l op r, rest, a, b, c, ts, hs, h => by
      have h' : l.yield ++ (.lit op.text :: (r.yield ++ rest))
          = methodChainExample a b c ++ ts := by
        simpa [Expression.yield] using h
      have h5 : stopsAt (Tok.lit op.text :: (r.yield ++ rest)) = false :=
        stopsAt_operator (.binary op) _
      rcases Expression.chain_expression l _ a b c ts hs h' with ⟨-, h2⟩ | ⟨-, h2⟩ | ⟨-, h2⟩
      · simp only [methodChainExample, List.drop_succ_cons, List.drop_zero, List.cons_append,
          List.cons.injEq, Tok.lit.injEq] at h2
        cases op <;> exact absurd h2.1 (by decide)
      · simp only [List.cons.injEq, Tok.lit.injEq] at h2
        cases op <;> exact absurd h2.1 (by decide)
      · rw [← h2, h5] at hs; exact absurd hs (by decide)
  | .has_expression l r, rest, a, b, c, ts, hs, h => by
      have h' : l.yield ++ (.lit "has" :: (r.yield ++ rest))
          = methodChainExample a b c ++ ts := by
        simpa [Expression.yield] using h
      have h5 : stopsAt (Tok.lit "has" :: (r.yield ++ rest)) = false :=
        stopsAt_operator .has _
      rcases Expression.chain_expression l _ a b c ts hs h' with ⟨-, h2⟩ | ⟨-, h2⟩ | ⟨-, h2⟩
      · simp [methodChainExample] at h2
      · simp at h2
      · rw [← h2, h5] at hs; exact absurd hs (by decide)
  | .unary_expression u _, rest, a, b, c, ts, _, h => by
      simp [Expression.yield, methodChainExample] at h
  | .lambda_block _ _, rest, a, b, c, ts, _, h => by
      simp [Expression.yield, methodChainExample] at h
  | .lambda_arrow _ _, rest, a, b, c, ts, _, h => by
      simp [Expression.yield, methodChainExample] at h
  | .dialogue _ _, rest, a, b, c, ts, _, h => by
      simp [Expression.yield, methodChainExample] at h
  | .skill_check _ _ _ _, rest, a, b, c, ts, _, h => by
      simp [Expression.yield, methodChainExample] at h

/-- No statements begin with `"."`. -/
theorem statements_not_dot (ss : List Statement) (ts : List Tok)
    (h : yieldStatements ss = .lit "." :: ts) : False := by
  cases ss with
  | nil => simp [yieldStatements] at h
  | cons s ss =>
      simp only [yieldStatements] at h
      exact s.head_ne_statement _ _ _ h (by decide)

/-- No source file derives `x[0].m()`. -/
theorem no_file_index_then_method (x m : String) (f : SourceFile) :
    f.yield ≠ indexThenMethodExample x m := by
  obtain ⟨ss⟩ := f
  intro h
  simp only [SourceFile.yield, indexThenMethodExample] at h
  rcases ss with _ | ⟨s1, ss⟩
  · simp [yieldStatements] at h
  simp only [yieldStatements] at h
  rcases s1.of_identifier _ _ _ h with ⟨e1, rfl⟩ | ⟨v, rfl⟩
  · rcases e1.index_token_expression _ x (.value (.num "0")) (.num "0")
        [.lit ".", .identifier m, .lit "(", .lit ")"] rfl rfl (by rfl)
        (by simpa [Statement.yield] using h) with ⟨-, h1⟩ | ⟨-, h1⟩
    · rcases ss with _ | ⟨s2, ss⟩
      · simp [yieldStatements] at h1
      simp only [yieldStatements] at h1
      obtain ⟨e2, rfl⟩ := s2.expression_of_lit _ "[" _ h1 (by decide)
      obtain ⟨-, h2⟩ := e2.of_array_token _ (.value (.num "0")) (.num "0")
        [.lit ".", .identifier m, .lit "(", .lit ")"] rfl rfl (by rfl)
        (by simpa [Statement.yield] using h1)
      exact statements_not_dot ss _ h2
    · exact statements_not_dot ss _ h1
  · simp [Statement.yield] at h

/-- No source file derives `f().g()`. -/
theorem no_file_call_then_method (f g : String) (file : SourceFile) :
    file.yield ≠ callThenMethodExample f g := by
  obtain ⟨ss⟩ := file
  intro h
  simp only [SourceFile.yield, callThenMethodExample] at h
  rcases ss with _ | ⟨s1, ss⟩
  · simp [yieldStatements] at h
  simp only [yieldStatements] at h
  rcases s1.of_identifier _ _ _ h with ⟨e1, rfl⟩ | ⟨v, rfl⟩
  · rcases e1.empty_call_expression _ f [.lit ".", .identifier g, .lit "(", .lit ")"] (by rfl)
        (by simpa [Statement.yield] using h) with ⟨-, h1⟩ | ⟨-, h1⟩
    · rcases ss with _ | ⟨s2, ss⟩
      · simp [yieldStatements] at h1
      simp only [yieldStatements] at h1
      obtain ⟨e2, rfl⟩ := s2.expression_of_lit _ "(" _ h1 (by decide)
      exact e2.not_empty_group _ _ (by simpa [Statement.yield] using h1)
    · exact statements_not_dot ss _ h1
  · simp [Statement.yield] at h

/-- No method call derives tokens whose second token is not `"."`. -/
theorem MethodCall.second_is_dot (m : MethodCall) (t u : Tok) (ts : List Tok)
    (h : m.yield = t :: u :: ts) : u = .lit "." := by
  obtain ⟨s, us, h1⟩ := m.dot_second
  rw [h1] at h
  simp only [List.cons.injEq] at h
  exact h.2.1.symm

/-- The one source file of `a.b().c()`. -/
theorem file_of_method_chain (a b c : String) (f : SourceFile)
    (h : f.yield = methodChainExample a b c) :
    f = ⟨[.expression (.primary (.method_call (methodTwice a b c)))]⟩ := by
  obtain ⟨ss⟩ := f
  simp only [SourceFile.yield] at h
  rcases ss with _ | ⟨s1, ss⟩
  · simp [yieldStatements, methodChainExample] at h
  simp only [yieldStatements] at h
  rcases s1.of_identifier _ a ((methodChainExample a b c).drop 1) h with ⟨e1, rfl⟩ | ⟨v, rfl⟩
  · rcases e1.chain_expression _ a b c [] rfl (by simpa [Statement.yield] using h) with
      ⟨-, h1⟩ | ⟨-, h1⟩ | ⟨rfl, h1⟩
    · exact (statements_not_dot ss _ (by simpa [methodChainExample] using h1)).elim
    · exact (statements_not_dot ss _ h1).elim
    · rw [statements_of_nil ss h1]
  · simp [Statement.yield, methodChainExample] at h

/-- C9, the claim as stated fails: no method call, and no source file at all, derives
`a[0].m()` or `f().g()`. -/
theorem method_receiver_counterexample :
    (¬ ∃ m : MethodCall, m.yield = indexThenMethodExample "a" "m")
    ∧ (¬ ∃ m : MethodCall, m.yield = callThenMethodExample "f" "g")
    ∧ (¬ ∃ f : SourceFile, f.yield = indexThenMethodExample "a" "m")
    ∧ (¬ ∃ f : SourceFile, f.yield = callThenMethodExample "f" "g") := by
  refine ⟨?_, ?_, ?_, ?_⟩
  · rintro ⟨m, h⟩
    exact absurd (m.second_is_dot _ _ _ h) (by decide)
  · rintro ⟨m, h⟩
    exact absurd (m.second_is_dot _ _ _ h) (by decide)
  · rintro ⟨f, h⟩
    exact no_file_index_then_method _ _ f h
  · rintro ⟨f, h⟩
    exact no_file_call_then_method _ _ f h

/-- C9, amended.  The receiver of every method call is an identifier or a method call;
every expression of one of these two kinds is accepted as a receiver; index, slice and
function call are not receivers: for all names, neither a method call nor a source file
derives `x[0].m()` or `f().g()`. -/
theorem method_receiver_kinds :
    (∀ m : MethodCall, m.receiver.toExpression.kind ∈ receiverKinds)
    ∧ (∀ e : Expression, e.kind ∈ receiverKinds →
        ∀ (n : String) (args : List Expression), ∃ m : MethodCall,
          m.receiver.toExpression = e
          ∧ m.yield = e.yield ++ .lit "." :: .identifier n :: .lit "(" ::
              yieldExpressions args ++ [.lit ")"])
    ∧ (∀ k ∈ [Kind.index_expression, .slice_expression, .function_call],
        ∀ m : MethodCall, m.receiver.toExpression.kind ≠ k)
    ∧ (∀ x n : String, (∀ m : MethodCall, m.yield ≠ indexThenMethodExample x n)
        ∧ (∀ f : SourceFile, f.yield ≠ indexThenMethodExample x n))
    ∧ (∀ g n : String, (∀ m : MethodCall, m.yield ≠ callThenMethodExample g n)
        ∧ (∀ f : SourceFile, f.yield ≠ callThenMethodExample g n)) := by
  refine ⟨fun m => m.receiver.kind_mem_receiver, ?_, ?_, ?_, ?_⟩
  · intro e he n args
    obtain ⟨r, rfl⟩ := Receiver.of_kind_receiver e he
    exact ⟨.mk r n args, rfl, by simp [MethodCall.yield, r.yield_toExpression_receiver]⟩
  · intro k hk m hm
    have := m.receiver.kind_mem_receiver
    rw [hm] at this
    revert this hk
    cases k <;> simp [receiverKinds]
  · intro x n
    refine ⟨fun m h => ?_, no_file_index_then_method x n⟩
    exact absurd (m.second_is_dot _ _ _ h) (by decide)
  · intro g n
    refine ⟨fun m h => ?_, no_file_call_then_method g n⟩
    exact absurd (m.second_is_dot _ _ _ h) (by decide)

/-- C10. The receiver of every method call is an identifier or another method call, so a
chain nests to the left: for identifiers `a`, `b`, `c` the tokens of `a.b().c()` have
exactly one derivation, as an expression and as a source file: the method call `c` whose
receiver is the method call `a.b()`.  A call on an index result, `arr[0].method()`, is
derived by no method call and by no source file. -/
theorem method_chain_nests_left :
    (∀ m : MethodCall, (∃ s, m.receiver = .identifier s) ∨ (∃ r, m.receiver = .method_call r))
    ∧ (∀ a b c : String,
        SourceFile.ParsesAs (methodChainExample a b c)
          ⟨[.expression (.primary (.method_call (methodTwice a b c)))]⟩
        ∧ (methodTwice a b c).receiver = .method_call (methodOnce a b)
        ∧ (methodOnce a b).receiver = .identifier a
        ∧ (∀ e : Expression, e.yield = methodChainExample a b c →
            e = .primary (.method_call (methodTwice a b c)))
        ∧ (∀ f : SourceFile, f.yield = methodChainExample a b c →
            f = ⟨[.expression (.primary (.method_call (methodTwice a b c)))]⟩))
    ∧ (∀ m : MethodCall, m.yield ≠ indexThenMethodExample "arr" "method")
    ∧ (∀ f : SourceFile, f.yield ≠ indexThenMethodExample "arr" "method") := by
  refine ⟨?_, ?_, ?_, no_file_index_then_method _ _⟩
  · rintro ⟨r, n, args⟩
    cases r with
    | identifier s => exact .inl ⟨s, rfl⟩
    | method_call r => exact .inr ⟨r, rfl⟩
  · intro a b c
    refine ⟨⟨rfl, rfl⟩, rfl, rfl, ?_, file_of_method_chain a b c⟩
    intro e h
    rcases e.chain_expression [] a b c [] rfl (by simpa using h) with ⟨-, h1⟩ | ⟨-, h1⟩ | ⟨h1, -⟩
    · simp [methodChainExample] at h1
    · simp at h1
    · exact h1
  · intro m h
    exact absurd (m.second_is_dot _ _ _ h) (by decide)

theorem digits_of_star (s : List Char) (h : Regex.Matches (.star Pattern.digit) s) :
    ∀ c ∈ s, c.isDigit = true := fun c hc =>
  Regex.mentions_of_matches _ _ h c hc

theorem digits_of_plus (s : List Char) (h : Regex.Matches Pattern.digit.plus s) :
    s ≠ [] ∧ ∀ c ∈ s, c.isDigit = true := by
  refine ⟨?_, fun c hc => ?_⟩
  · rintro rfl
    exact absurd ((Regex.matches_nil_iff_nullable _).mp h) (by decide)
  · have := Regex.mentions_of_matches _ _ h c hc
    simpa [Regex.plus, Regex.mentions, Pattern.digit] using this

/-- The texts of the pattern of `num`: digits, or digits, a dot and digits. -/
theorem num_matches_iff (s : List Char) :
    Regex.Matches Pattern.num s ↔
      (s ≠ [] ∧ ∀ c ∈ s, c.isDigit = true)
      ∨ ∃ n m, s = n ++ '.' :: m ∧ n ≠ [] ∧ m ≠ []
          ∧ (∀ c ∈ n, c.isDigit = true) ∧ (∀ c ∈ m, c.isDigit = true) := by
  constructor
  · intro h
    cases h with
    | seq _ _ n t hn ht =>
        obtain ⟨n0, dn⟩ := digits_of_plus n hn
        cases ht with
        | left _ _ _ h1 =>
            cases h1 with
            | seq _ _ d m hd hm =>
                cases hd with
                | cls _ c hc =>
                    obtain ⟨m0, dm⟩ := digits_of_plus m hm
                    have : c = '.' := by simpa using hc
                    subst this
                    exact .inr ⟨n, m, by simp, n0, m0, dn, dm⟩
        | right _ _ _ h1 =>
            cases h1
            exact .inl ⟨by simpa using n0, by simpa using dn⟩
  · rintro (⟨h0, hd⟩ | ⟨n, m, rfl, n0, m0, dn, dm⟩)
    · exact num_matches_digits s h0 hd
    · exact .seq _ _ n ('.' :: m) (digits_match_plus n n0 dn)
        (.left _ _ _ (.seq _ _ ['.'] m (.cls _ '.' (by decide)) (digits_match_plus m m0 dm)))

/-- Two texts that agree up to their first character that is not a digit. -/
theorem digits_split : (n n2 : List Char) → (x y : Char) → (r r2 : List Char) →
    (∀ c ∈ n, c.isDigit = true) → (∀ c ∈ n2, c.isDigit = true) →
    x.isDigit = false → y.isDigit = false →
    n ++ x :: r = n2 ++ y :: r2 → n = n2 ∧ x :: r = y :: r2
  | [], [], _, _, _, _, _, _, _, _, h => ⟨rfl, by simpa using h⟩
  | [], c :: n2, x, _, _, _, _, d2, hx, _, h => by
      simp only [List.nil_append, List.cons_append, List.cons.injEq] at h
      have := d2 c (List.mem_cons_self _ _)
      rw [← h.1, hx] at this
      exact absurd this (by decide)
  | c :: n, [], _, y, _, _, d1, _, _, hy, h => by
      simp only [List.nil_append, List.cons_append, List.cons.injEq] at h
      have := d1 c (List.mem_cons_self _ _)
      rw [h.1, hy] at this
      exact absurd this (by decide)
  | c :: n, c2 :: n2, x, y, r, r2, d1, d2, hx, hy, h => by
      simp only [List.cons_append, List.cons.injEq] at h
      obtain ⟨h1, h2⟩ := digits_split n n2 x y r r2
        (fun d hd => d1 d (List.mem_cons_of_mem _ hd))
        (fun d hd => d2 d (List.mem_cons_of_mem _ hd)) hx hy h.2
      exact ⟨by rw [h.1, h1], h2⟩

theorem num_not_ends_dot (s : List Char) : ¬ Regex.Matches Pattern.num (s ++ ['.']) := by
  intro h
  rcases (num_matches_iff _).mp h with ⟨-, hd⟩ | ⟨n, m, h1, -, m0, dn, dm⟩
  · exact absurd (hd '.' (by simp)) (by decide)
  · have h2 := congrArg List.reverse h1
    simp only [List.reverse_append, List.reverse_cons, List.reverse_nil, List.nil_append,
      List.singleton_append, List.append_assoc] at h2
    cases hm : m.reverse with
    | nil => exact m0 (by simpa using hm)
    | cons c t =>
        rw [hm] at h2
        simp only [List.cons_append, List.cons.injEq] at h2
        have := dm c (by rw [← List.mem_reverse, hm]; simp)
        rw [← h2.1] at this
        exact absurd this (by decide)

theorem num_not_starts_dot (s : List Char) : ¬ Regex.Matches Pattern.num ('.' :: s) := by
  intro h
  rcases (num_matches_iff _).mp h with ⟨-, hd⟩ | ⟨n, m, h1, n0, -, dn, -⟩
  · exact absurd (hd '.' (by simp)) (by decide)
  · cases n with
    | nil => exact n0 rfl
    | cons c n =>
        simp only [List.cons_append, List.cons.injEq] at h1
        have := dn c (List.mem_cons_self _ _)
        rw [← h1.1] at this
        exact absurd this (by decide)

/-- The longest number at the start of `digits . . ...` is the digits. -/
theorem num_longest_before_dots (n m : List Char) (hn : n ≠ [])
    (dn : ∀ c ∈ n, c.isDigit = true) :
    Pattern.num.longest (n ++ '.' :: '.' :: m) = some n.length := by
  apply Regex.longest_eq_some
  · simp
  · rw [List.take_left, Regex.accepts_iff_matches]
    exact num_matches_digits n hn dn
  · intro k h1 _
    rw [Regex.not_accepts_iff]
    intro hk
    rw [List.take_append_eq_append_take] at hk
    obtain ⟨j, hj⟩ : ∃ j, k - n.length = j + 1 := ⟨k - n.length - 1, by omega⟩
    have h2 : List.take k n = n := List.take_of_length_le (by omega)
    rw [hj, h2, List.take_succ_cons] at hk
    rcases (num_matches_iff _).mp hk with ⟨-, hd⟩ | ⟨n2, m2, h3, -, m0, dn2, dm⟩
    · exact absurd (hd '.' (by simp)) (by decide)
    · obtain ⟨-, h4⟩ := digits_split n n2 '.' '.' _ m2 dn dn2 (by decide) (by decide) h3
      simp only [List.cons.injEq, true_and] at h4
      cases j with
      | zero => exact m0 (by simpa using h4.symm)
      | succ j =>
          rw [List.take_succ_cons] at h4
          have := dm '.' (by rw [← h4]; simp)
          exact absurd this (by decide)

/-- C17. A number is a non-empty run of digits, optionally followed by a dot and another
non-empty run of digits: a text matches the pattern of `num` exactly when it has one of
these two shapes.  No number ends in a dot and none starts with one.  For a non-empty digit
text `N` and any text `M`, the longest number at the start of `N..M` is `N`; in `0..10` the
longest number at the start is `0`, no number starts at the two dots, and the longest number
at the start of `10` is `10`. -/
theorem num_digits_dot_digits :
    (∀ s : List Char, Pattern.num.accepts s = true ↔
      (s ≠ [] ∧ ∀ c ∈ s, c.isDigit = true)
      ∨ ∃ n m, s = n ++ '.' :: m ∧ n ≠ [] ∧ m ≠ []
          ∧ (∀ c ∈ n, c.isDigit = true) ∧ (∀ c ∈ m, c.isDigit = true))
    ∧ (∀ s : List Char, Pattern.num.accepts (s ++ ['.']) = false)
    ∧ (∀ s : List Char, Pattern.num.accepts ('.' :: s) = false)
    ∧ (∀ n m : List Char, n ≠ [] → (∀ c ∈ n, c.isDigit = true) →
        Pattern.num.longest (n ++ '.' :: '.' :: m) = some n.length
        ∧ n.length < (n ++ '.' :: '.' :: m).length)
    ∧ Pattern.num.longest "0..10".toList = some 1
    ∧ Pattern.num.longest "..10".toList = none
    ∧ Pattern.num.longest "10".toList = some 2 := by
  refine ⟨fun s => ?_, fun s => ?_, fun s => ?_, fun n m hn dn => ?_, by decide, by decide,
    by decide⟩
  · rw [Regex.accepts_iff_matches]; exact num_matches_iff s
  · rw [Regex.not_accepts_iff]; exact num_not_ends_dot s
  · rw [Regex.not_accepts_iff]; exact num_not_starts_dot s
  · exact ⟨num_longest_before_dots n m hn dn, by simp⟩

namespace Regex

theorem star_of_cls (p : Char → Bool) : (s : List Char) → (∀ c ∈ s, p c = true) →
    Matches (.star (.cls p)) s
  | [], _ => .done _
  | c :: s, h =>
      .more _ [c] s (.cls _ c (h c (List.mem_cons_self c s)))
        (star_of_cls p s (fun d hd => h d (List.mem_cons_of_mem c hd)))

theorem cls_of_star (p : Char → Bool) (s : List Char) (h : Matches (.star (.cls p)) s) :
    ∀ c ∈ s, p c = true := fun c hc => mentions_of_matches _ _ h c hc

theorem matches_char_iff (c : Char) (s : List Char) : Matches (Regex.char c) s ↔ s = [c] := by
  constructor
  · intro h
    cases h with
    | cls _ d hd =>
        have : d = c := by simpa using hd
        rw [this]
  · rintro rfl
    exact .cls _ c (by simp)

end Regex

namespace Regex

theorem matches_never_iff (s : List Char) : Matches .never s ↔ False := by
  constructor
  · intro h
    cases h
  · exact False.elim

theorem matches_alt_iff (a b : Regex) (s : List Char) :
    Matches (.alt a b) s ↔ Matches a s ∨ Matches b s := by
  constructor
  · intro h
    cases h with
    | left _ _ _ h => exact .inl h
    | right _ _ _ h => exact .inr h
  · rintro (h | h)
    · exact .left _ _ _ h
    · exact .right _ _ _ h

theorem matches_seq_iff (a b : Regex) (s : List Char) :
    Matches (.seq a b) s ↔ ∃ u v, s = u ++ v ∧ Matches a u ∧ Matches b v := by
  constructor
  · intro h
    cases h with
    | seq _ _ u v hu hv => exact ⟨u, v, rfl, hu, hv⟩
  · rintro ⟨u, v, rfl, hu, hv⟩
    exact .seq _ _ u v hu hv

theorem matches_seq_never (b : Regex) (s : List Char) : Matches (.seq .never b) s ↔ False := by
  rw [matches_seq_iff]
  constructor
  · rintro ⟨u, v, -, hu, -⟩
    cases hu
  · exact False.elim

theorem matches_seq_empty (b : Regex) (s : List Char) :
    Matches (.seq .empty b) s ↔ Matches b s := by
  rw [matches_seq_iff]
  constructor
  · rintro ⟨u, v, rfl, hu, hv⟩
    cases hu
    exact hv
  · intro h
    exact ⟨[], s, rfl, .empty, h⟩

theorem matches_seq_assoc (a b c : Regex) (s : List Char) :
    Matches (.seq (.seq a b) c) s ↔ Matches (.seq a (.seq b c)) s := by
  simp only [matches_seq_iff]
  constructor
  · rintro ⟨u, v, rfl, ⟨u1, u2, rfl, h1, h2⟩, h3⟩
    exact ⟨u1, u2 ++ v, by simp, h1, u2, v, rfl, h2, h3⟩
  · rintro ⟨u, v, rfl, h1, v1, v2, rfl, h2, h3⟩
    exact ⟨u ++ v1, v2, by simp, ⟨u, v1, rfl, h1, h2⟩, h3⟩

theorem matches_seq_alt (a b c : Regex) (s : List Char) :
    Matches (.seq (.alt a b) c) s ↔ Matches (.seq a c) s ∨ Matches (.seq b c) s := by
  simp only [matches_seq_iff, matches_alt_iff]
  constructor
  · rintro ⟨u, v, rfl, h1 | h1, h3⟩
    · exact .inl ⟨u, v, rfl, h1, h3⟩
    · exact .inr ⟨u, v, rfl, h1, h3⟩
  · rintro (⟨u, v, rfl, h1, h3⟩ | ⟨u, v, rfl, h1, h3⟩)
    · exact ⟨u, v, rfl, .inl h1, h3⟩
    · exact ⟨u, v, rfl, .inr h1, h3⟩

end Regex

/-- What may follow one character of a block comment body, before and after a `*`. -/
theorem blockBody_cons (c : Char) (w : List Char) :
    (Regex.Matches Pattern.blockBody (c :: w) ↔
      if c = '*' then
        Regex.Matches (.seq (.star (Regex.char '*'))
          (.star (.seq (.cls (fun c => c != '/' && c != '*'))
            (.seq (.star (.cls (fun c => c != '*'))) (Regex.plus (.char '*')))))) w
      else Regex.Matches Pattern.blockBody w)
    ∧ (Regex.Matches (.seq (.star (Regex.char '*'))
          (.star (.seq (.cls (fun c => c != '/' && c != '*'))
            (.seq (.star (.cls (fun c => c != '*'))) (Regex.plus (.char '*')))))) (c :: w) ↔
      if c = '*' then
        Regex.Matches (.seq (.star (Regex.char '*'))
          (.star (.seq (.cls (fun c => c != '/' && c != '*'))
            (.seq (.star (.cls (fun c => c != '*'))) (Regex.plus (.char '*')))))) w
      else if c = '/' then False
      else Regex.Matches Pattern.blockBody w) := by
  rw [← Regex.matches_deriv_iff, ← Regex.matches_deriv_iff]
  by_cases h1 : c = '*'
  · subst h1
    simp [Pattern.blockBody, Regex.deriv, Regex.nullable, Regex.plus, Regex.char,
      Regex.matches_seq_assoc, Regex.matches_seq_empty, Regex.matches_seq_never,
      Regex.matches_alt_iff, Regex.matches_never_iff, Regex.matches_seq_alt]
  · by_cases h2 : c = '/'
    · subst h2
      simp [Pattern.blockBody, Regex.deriv, Regex.nullable, Regex.plus, Regex.char,
        Regex.matches_seq_assoc, Regex.matches_seq_empty, Regex.matches_seq_never,
        Regex.matches_alt_iff, Regex.matches_never_iff, Regex.matches_seq_alt]
    · simp [Pattern.blockBody, Regex.deriv, Regex.nullable, Regex.plus, Regex.char,
        Regex.matches_seq_assoc, Regex.matches_seq_empty, Regex.matches_seq_never,
        Regex.matches_alt_iff, Regex.matches_never_iff, Regex.matches_seq_alt, h1, h2]

theorem blockRun_iff : (w : List Char) →
    (Regex.Matches Pattern.blockBody w ↔ blockRun false w = true)
    ∧ (Regex.Matches (.seq (.star (Regex.char '*'))
          (.star (.seq (.cls (fun c => c != '/' && c != '*'))
            (.seq (.star (.cls (fun c => c != '*'))) (Regex.plus (.char '*')))))) w ↔
        blockRun true w = true)
  | [] => by
      constructor
      · rw [Regex.matches_nil_iff_nullable]; decide
      · rw [Regex.matches_nil_iff_nullable]; decide
  | c :: w => by
      obtain ⟨h1, h2⟩ := blockBody_cons c w
      obtain ⟨i1, i2⟩ := blockRun_iff w
      rw [h1, h2]
      by_cases hs : c = '*'
      · subst hs
        simp [blockRun, i2]
      · by_cases hc : c = '/'
        · subst hc
          simp [blockRun, i1]
        · simp [blockRun, hs, hc, i1]

/-- A text the automaton takes is empty or ends in `*`. -/
theorem blockRun_ends : (w : List Char) → (st : Bool) → blockRun st w = true →
    (st = true ∧ w = []) ∨ ∃ b, w = b ++ ['*']
  | [], st, h => .inl ⟨by simpa [blockRun] using h, rfl⟩
  | c :: w, st, h => by
      right
      by_cases hs : c = '*'
      · subst hs
        simp only [blockRun, beq_self_eq_true, if_true] at h
        rcases blockRun_ends w true h with ⟨-, rfl⟩ | ⟨b, rfl⟩
        · exact ⟨[], rfl⟩
        · exact ⟨'*' :: b, rfl⟩
      · have h2 : blockRun false w = true := by
          simp only [blockRun, beq_iff_eq, hs, if_false] at h
          split at h
          · exact absurd h (by decide)
          · exact h
        rcases blockRun_ends w false h2 with ⟨h3, -⟩ | ⟨b, rfl⟩
        · exact absurd h3 (by decide)
        · exact ⟨c :: b, rfl⟩

/-- The automaton takes `b*` exactly when `b` does not hold the closing pair. -/
theorem blockRun_close : (b : List Char) →
    blockRun false (b ++ ['*']) = !containsClose b
    ∧ blockRun true (b ++ ['*']) = !containsClose ('*' :: b)
  | [] => by decide
  | c :: b => by
      obtain ⟨h1, h2⟩ := blockRun_close b
      simp only [containsClose, beq_self_eq_true, Bool.true_and] at h2
      by_cases hs : c = '*'
      · subst hs
        simp [blockRun, containsClose, h2]
      · have hs2 : (c == '*') = false := by simpa using hs
        by_cases hc : c = '/'
        · subst hc
          simp [blockRun, containsClose, h1]
        · have hc2 : (c == '/') = false := by simpa using hc
          simp [blockRun, containsClose, h1, hs2, hc2]

theorem blockBody_iff (w : List Char) :
    Regex.Matches Pattern.blockBody w ↔ ∃ b, w = b ++ ['*'] ∧ containsClose b = false := by
  rw [(blockRun_iff w).1]
  constructor
  · intro h
    rcases blockRun_ends w false h with ⟨h1, -⟩ | ⟨b, rfl⟩
    · exact absurd h1 (by decide)
    · refine ⟨b, rfl, ?_⟩
      rw [(blockRun_close b).1] at h
      simpa using h
  · rintro ⟨b, rfl, hb⟩
    rw [(blockRun_close b).1, hb]
    rfl

/-- The texts of the block alternative of `comment`. -/
theorem blockComment_iff (s : List Char) :
    Regex.Matches Pattern.blockComment s ↔
      ∃ b, s = '/' :: '*' :: b ++ ['*', '/'] ∧ containsClose b = false := by
  simp only [Pattern.blockComment, Regex.matches_seq_iff, Regex.matches_char_iff, blockBody_iff]
  constructor
  · rintro ⟨u, v, rfl, rfl, u2, v2, rfl, rfl, u3, v3, rfl, ⟨b, rfl, hb⟩, rfl⟩
    exact ⟨b, by simp, hb⟩
  · rintro ⟨b, rfl, hb⟩
    exact ⟨['/'], _, rfl, rfl, ['*'], _, rfl, rfl, b ++ ['*'], ['/'], by simp, ⟨b, rfl, hb⟩, rfl⟩

theorem containsClose_append (x y : List Char) :
    containsClose (x ++ '*' :: '/' :: y) = true := by
  induction x with
  | nil => simp [containsClose]
  | cons c x ih => simp [containsClose, ih]

theorem containsClose_tail (c : Char) (x : List Char) (h : containsClose (c :: x) = false) :
    containsClose x = false := by
  simp only [containsClose, Bool.or_eq_false_iff] at h
  exact h.2

/-- Two texts without the closing pair that agree up to their first closing pair are the
same. -/
theorem close_unique : (b b2 : List Char) → (r r2 : List Char) →
    containsClose b = false → containsClose b2 = false →
    b ++ '*' :: '/' :: r = b2 ++ '*' :: '/' :: r2 → b = b2
  | [], [], _, _, _, _, _ => rfl
  | [], c :: b2, r, r2, _, h2, h => by
      simp only [List.nil_append, List.cons_append, List.cons.injEq] at h
      obtain ⟨rfl, h3⟩ := h
      cases b2 with
      | nil => simp at h3
      | cons d b2 =>
          simp only [List.cons_append, List.cons.injEq] at h3
          obtain ⟨rfl, -⟩ := h3
          simp [containsClose] at h2
  | c :: b, [], r, r2, h1, _, h => by
      simp only [List.nil_append, List.cons_append, List.cons.injEq] at h
      obtain ⟨rfl, h3⟩ := h
      cases b with
      | nil => simp at h3
      | cons d b =>
          simp only [List.cons_append, List.cons.injEq] at h3
          obtain ⟨rfl, -⟩ := h3
          simp [containsClose] at h1
  | c :: b, c2 :: b2, r, r2, h1, h2, h => by
      simp only [List.cons_append, List.cons.injEq] at h
      rw [h.1, close_unique b b2 r r2 (containsClose_tail _ _ h1) (containsClose_tail _ _ h2) h.2]

/-- The longest block comment at the start of a text ends at the first closing pair. -/
theorem blockComment_longest (b rest : List Char) (hb : containsClose b = false) :
    Pattern.blockComment.longest ('/' :: '*' :: b ++ '*' :: '/' :: rest)
      = some (b.length + 4) := by
  apply Regex.longest_eq_some
  · simp
  · rw [Regex.accepts_iff_matches, blockComment_iff]
    refine ⟨b, ?_, hb⟩
    have : '/' :: '*' :: b ++ '*' :: '/' :: rest = ('/' :: '*' :: b ++ ['*', '/']) ++ rest := by
      simp
    rw [this, List.take_left' (by simp)]
  · intro k h1 h2
    rw [Regex.not_accepts_iff, blockComment_iff]
    rintro ⟨b2, h3, hb2⟩
    have h4 := List.take_append_drop k ('/' :: '*' :: b ++ '*' :: '/' :: rest)
    rw [h3] at h4
    simp only [List.cons_append, List.append_assoc, List.cons.injEq, true_and,
      List.nil_append] at h4
    have h5 := close_unique b2 b _ _ hb2 hb h4
    have h6 := congrArg List.length h3
    rw [List.length_take, Nat.min_eq_left h2] at h6
    simp only [List.length_cons, List.length_append, List.length_nil, h5] at h6
    omega

/-- After `/*`, a text without the closing pair begins no block comment. -/
theorem blockComment_unterminated (s : List Char) (hs : containsClose s = false) :
    Pattern.blockComment.longest ('/' :: '*' :: s) = none := by
  apply Regex.longest_eq_none
  intro k _
  rw [Regex.not_accepts_iff, blockComment_iff]
  rintro ⟨b2, h3, -⟩
  have h4 := List.take_append_drop k ('/' :: '*' :: s)
  rw [h3] at h4
  simp only [List.cons_append, List.append_assoc, List.cons.injEq, true_and,
    List.nil_append] at h4
  rw [← h4, containsClose_append] at hs
  exact absurd hs (by decide)

/-- C11. A block comment ends at the first `*/` after its opening.  A text matches the block
alternative of `comment` exactly when it is `/*`, a text `b` without `*/`, and `*/`.  So
`/**/` and `/***/` are comments and `/*/` is not.  At the start of `/*` `b` `*/` followed by
anything, with `b` free of `*/`, the longest comment is `/*` `b` `*/`: no match goes past the
first closing pair.  After `/*`, a text without `*/` begins no comment at all. -/
theorem block_comment_ends_at_first_close :
    (∀ s : List Char, Pattern.blockComment.accepts s = true ↔
      ∃ b, s = '/' :: '*' :: b ++ ['*', '/'] ∧ containsClose b = false)
    ∧ Pattern.blockComment.accepts ['/', '*', '*', '/'] = true
    ∧ Pattern.blockComment.accepts ['/', '*', '*', '*', '/'] = true
    ∧ Pattern.blockComment.accepts ['/', '*', '/'] = false
    ∧ (∀ b rest : List Char, containsClose b = false →
        Pattern.blockComment.longest ('/' :: '*' :: b ++ '*' :: '/' :: rest)
          = some (b.length + 4))
    ∧ (∀ s : List Char, containsClose s = false →
        Pattern.blockComment.longest ('/' :: '*' :: s) = none) := by
  refine ⟨fun s => ?_, by decide, by decide, by decide, blockComment_longest,
    blockComment_unterminated⟩
  rw [Regex.accepts_iff_matches]
  exact blockComment_iff s

namespace Regex

/-- Induction over the pieces of a repetition. -/
theorem star_induction (a : Regex) (P : List Char → Prop) (h0 : P [])
    (h1 : ∀ s t, Matches a s → Matches (.star a) t → P t → P (s ++ t)) (w : List Char)
    (h : Matches (.star a) w) : P w := by
  generalize hr : Regex.star a = r at h
  induction h with
  | empty => simp at hr
  | cls p c hp => simp at hr
  | seq a b s t _ _ _ _ => simp at hr
  | left a b s _ _ => simp at hr
  | right a b s _ _ => simp at hr
  | done a => exact h0
  | more a2 s t hs ht _ ih =>
      simp only [star.injEq] at hr
      subst hr
      exact h1 s t hs ht (ih rfl)

end Regex

/-- The texts of one step of a line comment. -/
theorem lineStep_cases (g : List Char) (h : Regex.Matches Pattern.lineStep g) :
    (∃ c, g = [c] ∧ c ≠ '\\' ∧ c ≠ '\n') ∨ (∃ d, g = ['\\', d] ∧ d ≠ '\n')
      ∨ g = ['\\', '\n'] ∨ g = ['\\', '\r', '\n'] := by
  simp only [Pattern.lineStep, Regex.matches_alt_iff, Regex.matches_seq_iff,
    Regex.matches_char_iff, Regex.opt] at h
  rcases h with ⟨u, v, rfl, rfl, h | ⟨u2, v2, rfl, h2 | h2, rfl⟩⟩ | h
  · cases h with
    | cls _ d hd => exact .inr (.inl ⟨d, rfl, by simpa using hd⟩)
  · subst h2
    exact .inr (.inr (.inr rfl))
  · cases h2
    exact .inr (.inr (.inl rfl))
  · cases h with
    | cls _ c hc => exact .inl ⟨c, rfl, by simpa using hc⟩

/-- Every newline inside the steps of a line comment comes right after a backslash, or after
a backslash and a carriage return. -/
theorem lineSteps_newline (w : List Char) (h : Regex.Matches (.star Pattern.lineStep) w) :
    ∀ x y, w = x ++ '\n' :: y →
      (∃ z, x = z ++ ['\\']) ∨ (∃ z, x = z ++ ['\\', '\r']) := by
  refine Regex.star_induction Pattern.lineStep
    (fun w => ∀ x y, w = x ++ '\n' :: y →
      (∃ z, x = z ++ ['\\']) ∨ (∃ z, x = z ++ ['\\', '\r'])) ?_ ?_ w h
  · intro x y hx
    simp at hx
  · intro g t hg _ ih x y hx
    rcases List.append_eq_append_iff.mp hx with ⟨a, rfl, h2⟩ | ⟨c, h1, h2⟩
    · rcases ih a y h2 with ⟨z, rfl⟩ | ⟨z, rfl⟩
      · exact .inl ⟨g ++ z, by simp⟩
      · exact .inr ⟨g ++ z, by simp⟩
    · cases c with
      | nil =>
          rcases ih [] y (by simpa using h2.symm) with ⟨z, hz⟩ | ⟨z, hz⟩
          · simp at hz
          · simp at hz
      | cons d c =>
          simp only [List.cons_append, List.cons.injEq] at h2
          obtain ⟨rfl, -⟩ := h2
          rcases lineStep_cases g hg with ⟨c1, rfl, -, hc⟩ | ⟨d1, rfl, hd⟩ | rfl | rfl
          · rcases x with _ | ⟨x1, x⟩
            · simp at h1
              exact absurd h1.1 hc
            · simp at h1
          · rcases x with _ | ⟨x1, _ | ⟨x2, x⟩⟩
            · simp at h1
            · simp at h1
              exact absurd h1.2.1 hd
            · simp at h1
          · rcases x with _ | ⟨x1, _ | ⟨x2, x⟩⟩
            · simp at h1
            · simp at h1
              exact .inl ⟨[], by simp [← h1.1]⟩
            · simp at h1
          · rcases x with _ | ⟨x1, _ | ⟨x2, _ | ⟨x3, x⟩⟩⟩
            · simp at h1
            · simp at h1
            · simp at h1
              exact .inr ⟨[], by simp [← h1.1, ← h1.2.1]⟩
            · simp at h1

theorem lineSteps_of_plain : (a : List Char) → '\\' ∉ a → '\n' ∉ a →
    Regex.Matches (.star Pattern.lineStep) a
  | [], _, _ => .done _
  | c :: a, h1, h2 => by
      simp only [List.mem_cons, not_or] at h1 h2
      exact .more _ [c] a
        (.right _ _ _ (.cls _ c (by simp [Ne.symm h1.1, Ne.symm h2.1])))
        (lineSteps_of_plain a h1.2 h2.2)

/-- The texts of the line alternative of `comment`. -/
theorem lineComment_iff (s : List Char) :
    Regex.Matches Pattern.lineComment s ↔
      ∃ w, s = '/' :: '/' :: w ∧ Regex.Matches (.star Pattern.lineStep) w := by
  simp only [Pattern.lineComment, Regex.matches_seq_iff, Regex.matches_char_iff]
  constructor
  · rintro ⟨u, v, rfl, rfl, u2, v2, rfl, rfl, h⟩
    exact ⟨v2, rfl, h⟩
  · rintro ⟨w, rfl, h⟩
    exact ⟨['/'], _, rfl, rfl, ['/'], w, rfl, rfl, h⟩

theorem lineComment_newline (s : List Char) (h : Regex.Matches Pattern.lineComment s)
    (x y : List Char) (hx : s = x ++ '\n' :: y) :
    (∃ z, x = z ++ ['\\']) ∨ (∃ z, x = z ++ ['\\', '\r']) := by
  obtain ⟨w, rfl, hw⟩ := (lineComment_iff s).mp h
  rcases x with _ | ⟨x1, _ | ⟨x2, x⟩⟩
  · simp at hx
  · simp at hx
  · simp only [List.cons_append, List.cons.injEq] at hx
    obtain ⟨rfl, rfl, h3⟩ := hx
    rcases lineSteps_newline w hw x y h3 with ⟨z, rfl⟩ | ⟨z, rfl⟩
    · exact .inl ⟨_ :: _ :: z, rfl⟩
    · exact .inr ⟨_ :: _ :: z, rfl⟩

/-- A line comment without a backslash holds no newline. -/
theorem lineComment_plain (s : List Char) (h : Regex.Matches Pattern.lineComment s)
    (hb : '\\' ∉ s) : '\n' ∉ s := by
  intro hn
  obtain ⟨x, y, rfl⟩ := List.append_of_mem hn
  rcases lineComment_newline _ h x y rfl with ⟨z, rfl⟩ | ⟨z, rfl⟩
  · exact hb (by simp)
  · exact hb (by simp)

/-- The longest line comment at the start of `//`, a text without backslash and newline,
and a newline, ends before the newline. -/
theorem lineComment_longest (a rest : List Char) (hb : '\\' ∉ a) (hn : '\n' ∉ a) :
    Pattern.lineComment.longest ('/' :: '/' :: a ++ '\n' :: rest) = some (a.length + 2) := by
  apply Regex.longest_eq_some
  · simp
  · rw [Regex.accepts_iff_matches, lineComment_iff]
    refine ⟨a, ?_, lineSteps_of_plain a hb hn⟩
    have : '/' :: '/' :: a ++ '\n' :: rest = ('/' :: '/' :: a) ++ '\n' :: rest := by simp
    rw [this, List.take_left' (by simp)]
  · intro k h1 h2
    rw [Regex.not_accepts_iff]
    intro hk
    have h3 : List.take k ('/' :: '/' :: a ++ '\n' :: rest)
        = ('/' :: '/' :: a) ++ '\n' :: List.take (k - (a.length + 3)) rest := by
      obtain ⟨j, rfl⟩ : ∃ j, k = (a.length + 2) + (j + 1) := ⟨k - (a.length + 3), by omega⟩
      have e : '/' :: '/' :: a ++ '\n' :: rest = ('/' :: '/' :: a) ++ '\n' :: rest := by simp
      have l : (a.length + 2) = ('/' :: '/' :: a).length := by simp
      rw [e, l, List.take_append, List.take_succ_cons]
      have : ('/' :: '/' :: a).length + (j + 1) - (a.length + 3) = j := by
        simp only [List.length_cons]; omega
      rw [this]
    rcases lineComment_newline _ hk _ _ h3 with ⟨z, hz⟩ | ⟨z, hz⟩
    · have : '\\' ∈ '/' :: '/' :: a := by rw [hz]; simp
      simp at this
      exact hb this
    · have : '\\' ∈ '/' :: '/' :: a := by rw [hz]; simp
      simp at this
      exact hb this

/-- C12, the claim as stated fails: the six characters `//a\`, newline, `b` match the line
alternative of `comment` and hold a newline; in that text followed by a newline and `c` the
longest line comment is these six characters, past the first newline.  So not every matched
text is free of newlines. -/
theorem line_comment_counterexample :
    Pattern.lineComment.accepts ['/', '/', 'a', '\\', '\n', 'b'] = true
    ∧ '\n' ∈ ['/', '/', 'a', '\\', '\n', 'b']
    ∧ Pattern.lineComment.longest ['/', '/', 'a', '\\', '\n', 'b', '\n', 'c'] = some 6
    ∧ ¬ ∀ s : List Char, Pattern.lineComment.accepts s = true → '\n' ∉ s :=
  ⟨by decide, by decide, by decide,
    fun h => h ['/', '/', 'a', '\\', '\n', 'b'] (by decide) (by decide)⟩

/-- C12, amended.  Every text matched by the line alternative of `comment` begins with `//`,
and every newline in it comes right after a backslash, or after a backslash and a carriage
return; a matched text without a backslash holds no newline.  At the start of `//` `a`
newline followed by anything, with `a` free of backslashes and newlines, the longest line
comment is `//` `a`: the comment stops at the first newline that no backslash escapes. -/
theorem line_comment_stops_at_unescaped_newline :
    (∀ s : List Char, Pattern.lineComment.accepts s = true → ∃ t, s = '/' :: '/' :: t)
    ∧ (∀ s : List Char, Pattern.lineComment.accepts s = true →
        ∀ x y, s = x ++ '\n' :: y →
          (∃ z, x = z ++ ['\\']) ∨ (∃ z, x = z ++ ['\\', '\r']))
    ∧ (∀ s : List Char, Pattern.lineComment.accepts s = true → '\\' ∉ s → '\n' ∉ s)
    ∧ (∀ a rest : List Char, '\\' ∉ a → '\n' ∉ a →
        Pattern.lineComment.accepts ('/' :: '/' :: a) = true
        ∧ Pattern.lineComment.longest ('/' :: '/' :: a ++ '\n' :: rest)
            = some (a.length + 2)) := by
  refine ⟨fun s h => ?_, fun s h => ?_, fun s h => ?_, fun a rest hb hn => ⟨?_, ?_⟩⟩
  · rw [Regex.accepts_iff_matches] at h
    obtain ⟨w, rfl, -⟩ := (lineComment_iff s).mp h
    exact ⟨w, rfl⟩
  · rw [Regex.accepts_iff_matches] at h
    exact lineComment_newline s h
  · rw [Regex.accepts_iff_matches] at h
    exact lineComment_plain s h
  · rw [Regex.accepts_iff_matches, lineComment_iff]
    exact ⟨a, rfl, lineSteps_of_plain a hb hn⟩
  · exact lineComment_longest a rest hb hn

/-- The tokens `a o1 b o2 c` over primary operands when `o1` is complete before `o2`. -/
theorem InfixOp.groups_left (o1 o2 : InfixOp) (a b c : PrimaryExpression)
    (ha : a.resolved = true) (hb : b.resolved = true) (hc : c.resolved = true)
    (h : o2.level ≤ o1.level) :
    Expression.ParsesAs (a.yield ++ .lit o1.text :: (b.yield ++ .lit o2.text :: c.yield))
        (o2.apply (o1.apply (.primary a) (.primary b)) (.primary c))
    ∧ (o1.apply (.primary a) (o2.apply (.primary b) (.primary c))).yield
        = a.yield ++ .lit o1.text :: (b.yield ++ .lit o2.text :: c.yield)
    ∧ (o1.apply (.primary a) (o2.apply (.primary b) (.primary c))).resolved = false
    ∧ (a.yield.length = 1 → b.yield.length = 1 → c.yield.length = 1 →
        ∀ e, Expression.ParsesAs
            (a.yield ++ .lit o1.text :: (b.yield ++ .lit o2.text :: c.yield)) e →
          e = o2.apply (o1.apply (.primary a) (.primary b)) (.primary c)) := by
  have h1 : resolve ⟨o1.level, some .left⟩ o2.level = .reduce := by
    rcases lt_or_eq_of_le h with h2 | h2
    · exact resolve_looser _ _ _ h2
    · rw [h2]; exact resolve_left _
  have r1 := InfixOp.resolved_left_nested o1 o2 a b c
  have r2 := InfixOp.resolved_right_nested o1 o2 a b c
  simp only [ha, hb, hc, h1, Bool.and_true, beq_self_eq_true] at r1 r2
  have r2' : (o1.apply (.primary a) (o2.apply (.primary b) (.primary c))).resolved = false := by
    rw [r2]; decide
  refine ⟨⟨by simp [InfixOp.yield_apply, Expression.yield], r1⟩,
    by simp [InfixOp.yield_apply, Expression.yield], r2', ?_⟩
  intro la lb lc e he
  rcases Expression.three_operand_trees o1 o2 a b c la lb lc e he.1 with h3 | h3
  · exact h3
  · rw [h3] at he
    exact absurd (he.2.symm.trans r2') (by decide)

/-- The tokens `a o1 b o2 c` over primary operands when `o2` is tighter than `o1`. -/
theorem InfixOp.groups_right (o1 o2 : InfixOp) (a b c : PrimaryExpression)
    (ha : a.resolved = true) (hb : b.resolved = true) (hc : c.resolved = true)
    (h : o1.level < o2.level) :
    Expression.ParsesAs (a.yield ++ .lit o1.text :: (b.yield ++ .lit o2.text :: c.yield))
        (o1.apply (.primary a) (o2.apply (.primary b) (.primary c)))
    ∧ (o2.apply (o1.apply (.primary a) (.primary b)) (.primary c)).yield
        = a.yield ++ .lit o1.text :: (b.yield ++ .lit o2.text :: c.yield)
    ∧ (o2.apply (o1.apply (.primary a) (.primary b)) (.primary c)).resolved = false
    ∧ (a.yield.length = 1 → b.yield.length = 1 → c.yield.length = 1 →
        ∀ e, Expression.ParsesAs
            (a.yield ++ .lit o1.text :: (b.yield ++ .lit o2.text :: c.yield)) e →
          e = o1.apply (.primary a) (o2.apply (.primary b) (.primary c))) := by
  have h1 : resolve ⟨o1.level, some .left⟩ o2.level = .shift := resolve_tighter _ _ _ h
  have r1 := InfixOp.resolved_left_nested o1 o2 a b c
  have r2 := InfixOp.resolved_right_nested o1 o2 a b c
  simp only [ha, hb, hc, h1, Bool.and_true, beq_self_eq_true] at r1 r2
  have r1' : (o2.apply (o1.apply (.primary a) (.primary b)) (.primary c)).resolved = false := by
    rw [r1]; decide
  refine ⟨⟨by simp [InfixOp.yield_apply, Expression.yield], r2⟩,
    by simp [InfixOp.yield_apply, Expression.yield], r1', ?_⟩
  intro la lb lc e he
  rcases Expression.three_operand_trees o1 o2 a b c la lb lc e he.1 with h3 | h3
  · rw [h3] at he
    exact absurd (he.2.symm.trans r1') (by decide)
  · exact h3

/-- C14. The rule of `has` is `prec.left(3, ...)`, the level of `==` and `!=`, and it is
left associative with them.  For primary operands `a`, `b`, `c` and a binary operator `p`:
when `p` is at level 3 or below (`or`, `and`, `==`, `!=`) the tokens `a has b p c` parse as
`p(has(a, b), c)` and the grouping `has(a, p(b, c))` is rejected; when `p` is above level 3
(comparison, range, additive, multiplicative) they parse as `has(a, p(b, c))` and
`p(has(a, b), c)` is rejected.  The tokens `a p b has c` parse as `has(p(a, b), c)` when `p`
is at level 3 or above, and as `p(a, has(b, c))` when `p` is below (`or`, `and`); the other
grouping is rejected.  The tokens `a has b has c` parse as `has(has(a, b), c)`.  When the
operands are single tokens, no other tree at all derives these tokens and is kept. -/
theorem has_shares_equality_level (p : BinOp) (a b c : PrimaryExpression)
    (ha : a.resolved = true) (hb : b.resolved = true) (hc : c.resolved = true) :
    (hasLevel = 3 ∧ BinOp.eq.level = hasLevel ∧ BinOp.ne.level = hasLevel
      ∧ (Expression.has_expression (.primary a) (.primary b)).precInfo
          = ⟨hasLevel, some .left⟩)
    ∧ (p.level ≤ hasLevel →
        Expression.ParsesAs (a.yield ++ .lit "has" :: (b.yield ++ .lit p.text :: c.yield))
          (.binary_expression (.has_expression (.primary a) (.primary b)) p (.primary c))
        ∧ (Expression.has_expression (.primary a)
              (.binary_expression (.primary b) p (.primary c))).yield
            = a.yield ++ .lit "has" :: (b.yield ++ .lit p.text :: c.yield)
        ∧ (Expression.has_expression (.primary a)
              (.binary_expression (.primary b) p (.primary c))).resolved = false
        ∧ (a.yield.length = 1 → b.yield.length = 1 → c.yield.length = 1 →
            ∀ e, Expression.ParsesAs
                (a.yield ++ .lit "has" :: (b.yield ++ .lit p.text :: c.yield)) e →
              e = .binary_expression (.has_expression (.primary a) (.primary b)) p
                (.primary c)))
    ∧ (hasLevel < p.level →
        Expression.ParsesAs (a.yield ++ .lit "has" :: (b.yield ++ .lit p.text :: c.yield))
          (.has_expression (.primary a) (.binary_expression (.primary b) p (.primary c)))
        ∧ (Expression.binary_expression (.has_expression (.primary a) (.primary b)) p
              (.primary c)).yield
            = a.yield ++ .lit "has" :: (b.yield ++ .lit p.text :: c.yield)
        ∧ (Expression.binary_expression (.has_expression (.primary a) (.primary b)) p
              (.primary c)).resolved = false
        ∧ (a.yield.length = 1 → b.yield.length = 1 → c.yield.length = 1 →
            ∀ e, Expression.ParsesAs
                (a.yield ++ .lit "has" :: (b.yield ++ .lit p.text :: c.yield)) e →
              e = .has_expression (.primary a)
                (.binary_expression (.primary b) p (.primary c))))
    ∧ (hasLevel ≤ p.level →
        Expression.ParsesAs (a.yield ++ .lit p.text :: (b.yield ++ .lit "has" :: c.yield))
          (.has_expression (.binary_expression (.primary a) p (.primary b)) (.primary c))
        ∧ (Expression.binary_expression (.primary a) p
              (.has_expression (.primary b) (.primary c))).yield
            = a.yield ++ .lit p.text :: (b.yield ++ .lit "has" :: c.yield)
        ∧ (Expression.binary_expression (.primary a) p
              (.has_expression (.primary b) (.primary c))).resolved = false
        ∧ (a.yield.length = 1 → b.yield.length = 1 → c.yield.length = 1 →
            ∀ e, Expression.ParsesAs
                (a.yield ++ .lit p.text :: (b.yield ++ .lit "has" :: c.yield)) e →
              e = .has_expression (.binary_expression (.primary a) p (.primary b))
                (.primary c)))
    ∧ (p.level < hasLevel →
        Expression.ParsesAs (a.yield ++ .lit p.text :: (b.yield ++ .lit "has" :: c.yield))
          (.binary_expression (.primary a) p (.has_expression (.primary b) (.primary c)))
        ∧ (Expression.has_expression (.binary_expression (.primary a) p (.primary b))
              (.primary c)).yield
            = a.yield ++ .lit p.text :: (b.yield ++ .lit "has" :: c.yield)
        ∧ (Expression.has_expression (.binary_expression (.primary a) p (.primary b))
              (.primary c)).resolved = false
        ∧ (a.yield.length = 1 → b.yield.length = 1 → c.yield.length = 1 →
            ∀ e, Expression.ParsesAs
                (a.yield ++ .lit p.text :: (b.yield ++ .lit "has" :: c.yield)) e →
              e = .binary_expression (.primary a) p
                (.has_expression (.primary b) (.primary c))))
    ∧ (Expression.ParsesAs (a.yield ++ .lit "has" :: (b.yield ++ .lit "has" :: c.yield))
          (.has_expression (.has_expression (.primary a) (.primary b)) (.primary c))
        ∧ (Expression.has_expression (.primary a)
              (.has_expression (.primary b) (.primary c))).resolved = false) := by
  refine ⟨⟨rfl, rfl, rfl, rfl⟩, fun h => ?_, fun h => ?_, fun h => ?_, fun h => ?_, ?_⟩
  · exact InfixOp.groups_left .has (.binary p) a b c ha hb hc h
  · exact InfixOp.groups_right .has (.binary p) a b c ha hb hc h
  · exact InfixOp.groups_left (.binary p) .has a b c ha hb hc h
  · exact InfixOp.groups_right (.binary p) .has a b c ha hb hc h
  · have := InfixOp.groups_left .has .has a b c ha hb hc (le_refl _)
    exact ⟨this.1, this.2.2.1⟩

/-- C14 at the examples of the claim: `a has b == c` is `Eq(Has(a, b), c)`, `a == b has c`
is `Has(Eq(a, b), c)`, `a has b and c` is `And(Has(a, b), c)` and `a has b + c` is
`Has(a, Add(b, c))`. -/
theorem has_shares_equality_level_witness :
    Expression.ParsesAs [.identifier "a", .lit "has", .identifier "b", .lit "==", .identifier "c"]
        (.binary_expression
          (.has_expression (.primary (.identifier "a")) (.primary (.identifier "b"))) .eq
          (.primary (.identifier "c")))
    ∧ Expression.ParsesAs
        [.identifier "a", .lit "==", .identifier "b", .lit "has", .identifier "c"]
        (.has_expression
          (.binary_expression (.primary (.identifier "a")) .eq (.primary (.identifier "b")))
          (.primary (.identifier "c")))
    ∧ Expression.ParsesAs
        [.identifier "a", .lit "has", .identifier "b", .lit "and", .identifier "c"]
        (.binary_expression
          (.has_expression (.primary (.identifier "a")) (.primary (.identifier "b"))) .and
          (.primary (.identifier "c")))
    ∧ Expression.ParsesAs
        [.identifier "a", .lit "has", .identifier "b", .lit "+", .identifier "c"]
        (.has_expression (.primary (.identifier "a"))
          (.binary_expression (.primary (.identifier "b")) .add (.primary (.identifier "c"))))
    ∧ (Expression.binary_expression
        (.has_expression (.primary (.identifier "a")) (.primary (.identifier "b"))) .add
        (.primary (.identifier "c"))).resolved = false :=
  ⟨((has_shares_equality_level .eq (.identifier "a") (.identifier "b") (.identifier "c")
      rfl rfl rfl).2.1 (by decide)).1,
    ((has_shares_equality_level .eq (.identifier "a") (.identifier "b") (.identifier "c")
      rfl rfl rfl).2.2.2.1 (by decide)).1,
    ((has_shares_equality_level .and (.identifier "a") (.identifier "b") (.identifier "c")
      rfl rfl rfl).2.1 (by decide)).1,
    ((has_shares_equality_level .add (.identifier "a") (.identifier "b") (.identifier "c")
      rfl rfl rfl).2.2.1 (by decide)).1,
    ((has_shares_equality_level .add (.identifier "a") (.identifier "b") (.identifier "c")
      rfl rfl rfl).2.2.1 (by decide)).2.2.1⟩

/-- The tokens of a trailing `repeat(seq(",", $._expression))`, each element after its
comma. -/
theorem yieldMoreExpressions_eq (es : List Expression) :
    yieldMoreExpressions es = (es.map (fun e => Tok.lit "," :: e.yield)).flatten := by
  induction es with
  | nil => rfl
  | cons e es ih => simp [yieldMoreExpressions, ih]

/-- The tokens of a list of expressions are the tokens of the elements with one comma
between neighbours. -/
theorem yieldExpressions_eq (es : List Expression) :
    yieldExpressions es = List.intercalate [Tok.lit ","] (es.map Expression.yield) := by
  cases es with
  | nil => rfl
  | cons e es =>
      simp only [yieldExpressions, List.map_cons, List.intercalate]
      induction es generalizing e with
      | nil => simp [yieldMoreExpressions]
      | cons e2 es ih =>
          simp only [yieldMoreExpressions, List.map_cons, List.intersperse_cons_cons,
            List.flatten_cons, List.cons_append, List.nil_append, List.singleton_append]
          rw [ih e2]

/-- No expression ends with a comma. -/
theorem Expression.yield_ends_expression : (e : Expression) →
    ∃ ts t, e.yield = ts ++ [t] ∧ t ≠ .lit ","
  | .primary p => by
      cases p with
      | value v =>
          obtain ⟨t, h1, h2⟩ := v.yield_eq
          exact ⟨[], t, by simp [Expression.yield, PrimaryExpression.yield, h1],
            fun h => by rw [h] at h2; exact absurd h2 (by decide)⟩
      | identifier s => exact ⟨[], _, rfl, by simp⟩
      | grouped_expression e => exact ⟨_, _, rfl, by simp⟩
      | array_expression es => exact ⟨_, _, rfl, by simp⟩
      | index_expression x =>
          obtain ⟨o, i⟩ := x
          exact ⟨_, _, rfl, by simp⟩
      | slice_expression x =>
          obtain ⟨o, a, b⟩ := x
          exact ⟨_, _, rfl, by simp⟩
      | method_call x =>
          obtain ⟨r, n, args⟩ := x
          exact ⟨_, _, rfl, by simp⟩
      | function_call x =>
          obtain ⟨f, args⟩ := x
          exact ⟨_, _, rfl, by simp⟩
  | .binary_expression l op r => by
      obtain ⟨ts, t, h1, h2⟩ := r.yield_ends_expression
      exact ⟨l.yield ++ .lit op.text :: ts, t, by simp [Expression.yield, h1], h2⟩
  | .unary_expression u e => by
      obtain ⟨ts, t, h1, h2⟩ := e.yield_ends_expression
      exact ⟨.lit u.text :: ts, t, by simp [Expression.yield, h1], h2⟩
  | .has_expression l r => by
      obtain ⟨ts, t, h1, h2⟩ := r.yield_ends_expression
      exact ⟨l.yield ++ .lit "has" :: ts, t, by simp [Expression.yield, h1], h2⟩
  | .lambda_block ps b => by
      obtain ⟨body⟩ := b
      exact ⟨.lit "fn" :: (yieldParameterList ps ++ .lit "\x7b" :: yieldStatements body),
        .lit "\x7d", by simp [Expression.yield, Block.yield], by simp⟩
  | .lambda_arrow ps e => by
      obtain ⟨ts, t, h1, h2⟩ := e.yield_ends_expression
      exact ⟨.lit "fn" :: (yieldParameterList ps ++ .lit "=>" :: ts), t,
        by simp [Expression.yield, h1], h2⟩
  | .dialogue t cs => ⟨_, _, rfl, by simp⟩
  | .skill_check s d ok ko => by
      refine ⟨.lit "check" :: (s.yield ++ .lit "vs" :: (d.yield ++ .lit "\x7b" ::
        (.lit "success" :: ok.yield ++ .lit "failure" :: ko.yield))), .lit "\x7d", ?_, by simp⟩
      simp [Expression.yield]

theorem yieldMoreExpressions_ends : (es : List Expression) →
    yieldMoreExpressions es = [] ∨ ∃ ts t, yieldMoreExpressions es = ts ++ [t] ∧ t ≠ .lit ","
  | [] => .inl rfl
  | e :: es => by
      right
      rcases yieldMoreExpressions_ends es with h | ⟨ts, t, h1, h2⟩
      · obtain ⟨us, u, h3, h4⟩ := e.yield_ends_expression
        exact ⟨.lit "," :: us, u, by simp [yieldMoreExpressions, h, h3], h4⟩
      · exact ⟨.lit "," :: (e.yield ++ ts), t, by simp [yieldMoreExpressions, h1], h2⟩

/-- A list of expressions has no tokens or ends with a token that is no comma. -/
theorem yieldExpressions_ends (es : List Expression) :
    yieldExpressions es = [] ∨ ∃ ts t, yieldExpressions es = ts ++ [t] ∧ t ≠ .lit "," := by
  cases es with
  | nil => exact .inl rfl
  | cons e es =>
      right
      rcases yieldMoreExpressions_ends es with h | ⟨ts, t, h1, h2⟩
      · obtain ⟨us, u, h3, h4⟩ := e.yield_ends_expression
        exact ⟨us, u, by simp [yieldExpressions, h, h3], h4⟩
      · exact ⟨e.yield ++ ts, t, by simp [yieldExpressions, h1], h2⟩

/-- No array derives a list of tokens that ends with `, ]`. -/
theorem array_no_trailing_comma (es : List Expression) (ts : List Tok) :
    (PrimaryExpression.array_expression es).yield ≠ .lit "[" :: ts ++ [.lit ",", .lit "]"] := by
  intro h
  have h1 : yieldExpressions es ++ [.lit "]"] = (ts ++ [.lit ","]) ++ [.lit "]"] := by
    simpa [PrimaryExpression.yield] using h
  have h2 := List.append_cancel_right h1
  rcases yieldExpressions_ends es with h3 | ⟨us, u, h3, h4⟩
  · rw [h3] at h2
    simp at h2
  · rw [h3] at h2
    have h5 := congrArg List.reverse h2
    simp only [List.reverse_append, List.reverse_cons, List.reverse_nil, List.nil_append,
      List.singleton_append, List.cons.injEq] at h5
    exact h4 h5.1

theorem stopsAt_more_elements (ps : List PrimaryExpression) (k : String) (ts : List Tok)
    (hk : k = "]" ∨ k = ",") :
    stopsAt (yieldMoreExpressions (ps.map Expression.primary) ++ .lit k :: ts) = true := by
  cases ps with
  | nil => rcases hk with rfl | rfl <;> rfl
  | cons p ps => rfl

/-- The elements after the first in front of `]`, against single operand tokens. -/
theorem more_elements_of_tokens : (ps : List PrimaryExpression) →
    (∀ p ∈ ps, p.yield.length = 1) → (es : List Expression) → (rest ts : List Tok) →
    yieldMoreExpressions es ++ .lit "]" :: rest
      = yieldMoreExpressions (ps.map Expression.primary) ++ .lit "]" :: ts →
    es = ps.map Expression.primary ∧ rest = ts
  | [], _, es, rest, ts, h => by
      cases es with
      | nil => exact ⟨rfl, by simpa [yieldMoreExpressions] using h⟩
      | cons e es => simp [yieldMoreExpressions] at h
  | p :: ps, hp, es, rest, ts, h => by
      obtain ⟨t, h1, h2⟩ := p.single_token (hp p (List.mem_cons_self _ _))
      cases es with
      | nil => simp [yieldMoreExpressions] at h
      | cons e es =>
          simp only [yieldMoreExpressions, List.map_cons, Expression.yield, h1, List.cons_append,
            List.nil_append, List.append_assoc, List.cons.injEq, true_and] at h
          obtain ⟨rfl, h3⟩ := e.of_token_expression _ p t _ h1 h2
            (stopsAt_more_elements ps "]" ts (.inl rfl)) h
          obtain ⟨rfl, rfl⟩ := more_elements_of_tokens ps
            (fun q hq => hp q (List.mem_cons_of_mem _ hq)) es rest ts h3
          exact ⟨rfl, rfl⟩

/-- The elements in front of `]`, against single operand tokens. -/
theorem elements_of_tokens (ps : List PrimaryExpression) (hp : ∀ p ∈ ps, p.yield.length = 1)
    (es : List Expression) (rest ts : List Tok)
    (h : yieldExpressions es ++ .lit "]" :: rest
      = yieldExpressions (ps.map Expression.primary) ++ .lit "]" :: ts) :
    es = ps.map Expression.primary ∧ rest = ts := by
  cases ps with
  | nil =>
      cases es with
      | nil => exact ⟨rfl, by simpa [yieldExpressions] using h⟩
      | cons e es =>
          simp only [yieldExpressions, List.map_nil, List.nil_append, List.append_assoc] at h
          exact (e.head_ne_expression _ _ _ h (by decide)).elim
  | cons p ps =>
      obtain ⟨t, h1, h2⟩ := p.single_token (hp p (List.mem_cons_self _ _))
      cases es with
      | nil =>
          simp only [yieldExpressions, List.map_cons, Expression.yield, h1, List.cons_append,
            List.nil_append, List.cons.injEq] at h
          rw [← h.1] at h2
          exact absurd h2 (by decide)
      | cons e es =>
          simp only [yieldExpressions, List.map_cons, Expression.yield, h1, List.cons_append,
            List.nil_append, List.append_assoc] at h
          obtain ⟨rfl, h3⟩ := e.of_token_expression _ p t _ h1 h2
            (stopsAt_more_elements ps "]" ts (.inl rfl)) h
          obtain ⟨rfl, rfl⟩ := more_elements_of_tokens ps
            (fun q hq => hp q (List.mem_cons_of_mem _ hq)) es rest ts h3
          exact ⟨rfl, rfl⟩

/-- No elements after the first stand in front of `]` against single operand tokens and a
trailing comma. -/
theorem more_elements_trailing : (ps : List PrimaryExpression) →
    (∀ p ∈ ps, p.yield.length = 1) → (es : List Expression) → (rest ts : List Tok) →
    yieldMoreExpressions es ++ .lit "]" :: rest
      = yieldMoreExpressions (ps.map Expression.primary) ++ .lit "," :: .lit "]" :: ts →
    False
  | [], _, es, rest, ts, h => by
      cases es with
      | nil => simp [yieldMoreExpressions] at h
      | cons e es =>
          simp only [yieldMoreExpressions, List.map_nil, List.nil_append, List.cons_append,
            List.append_assoc, List.cons.injEq, true_and] at h
          exact e.head_ne_expression _ _ _ h (by decide)
  | p :: ps, hp, es, rest, ts, h => by
      obtain ⟨t, h1, h2⟩ := p.single_token (hp p (List.mem_cons_self _ _))
      cases es with
      | nil => simp [yieldMoreExpressions] at h
      | cons e es =>
          simp only [yieldMoreExpressions, List.map_cons, Expression.yield, h1, List.cons_append,
            List.nil_append, List.append_assoc, List.cons.injEq, true_and] at h
          obtain ⟨rfl, h3⟩ := e.of_token_expression _ p t _ h1 h2
            (stopsAt_more_elements ps "," _ (.inr rfl)) h
          exact more_elements_trailing ps (fun q hq => hp q (List.mem_cons_of_mem _ hq)) es rest
            ts h3

theorem elements_trailing (ps : List PrimaryExpression) (hp : ∀ p ∈ ps, p.yield.length = 1)
    (es : List Expression) (rest ts : List Tok)
    (h : yieldExpressions es ++ .lit "]" :: rest
      = yieldExpressions (ps.map Expression.primary) ++ .lit "," :: .lit "]" :: ts) :
    False := by
  cases ps with
  | nil =>
      cases es with
      | nil => simp [yieldExpressions] at h
      | cons e es =>
          simp only [yieldExpressions, List.map_nil, List.nil_append, List.append_assoc] at h
          exact e.head_ne_expression _ _ _ h (by decide)
  | cons p ps =>
      obtain ⟨t, h1, h2⟩ := p.single_token (hp p (List.mem_cons_self _ _))
      cases es with
      | nil =>
          simp only [yieldExpressions, List.map_cons, Expression.yield, h1, List.cons_append,
            List.nil_append, List.cons.injEq] at h
          rw [← h.1] at h2
          exact absurd h2 (by decide)
      | cons e es =>
          simp only [yieldExpressions, List.map_cons, Expression.yield, h1, List.cons_append,
            List.nil_append, List.append_assoc] at h
          obtain ⟨rfl, h3⟩ := e.of_token_expression _ p t _ h1 h2
            (stopsAt_more_elements ps "," _ (.inr rfl)) h
          exact more_elements_trailing ps (fun q hq => hp q (List.mem_cons_of_mem _ hq)) es rest
            ts h3

/-- An expression in front of `[`, single operand tokens with commas between them, and `]`
followed by no operator is the array of these tokens. -/
theorem Expression.of_array_tokens : (e : Expression) → (rest : List Tok) →
    (ps : List PrimaryExpression) → (ts : List Tok) → (∀ p ∈ ps, p.yield.length = 1) →
    noOperatorAt ts = true →
    e.yield ++ rest = .lit "[" :: (yieldExpressions (ps.map Expression.primary) ++ .lit "]" :: ts) →
    e = .primary (.array_expression (ps.map Expression.primary)) ∧ rest = ts
  | .primary q, rest, ps, ts, hp, hs, h => by
      cases q with
      | value v =>
          obtain ⟨t1, h1, h2⟩ := v.yield_eq
          simp only [Expression.yield, PrimaryExpression.yield, h1, List.cons_append,
            List.cons.injEq] at h
          rw [h.1] at h2; exact absurd h2 (by decide)
      | identifier s => simp [Expression.yield, PrimaryExpression.yield] at h
      | grouped_expression e => simp [Expression.yield, PrimaryExpression.yield] at h
      | array_expression es =>
          simp only [Expression.yield, PrimaryExpression.yield, List.cons_append,
            List.cons.injEq, true_and, List.append_assoc, List.nil_append] at h
          obtain ⟨rfl, rfl⟩ := elements_of_tokens ps hp es rest ts h
          exact ⟨rfl, rfl⟩
      | index_expression x =>
          obtain ⟨s, us, h1, -⟩ := x.index_head
          simp [Expression.yield, PrimaryExpression.yield, h1] at h
      | slice_expression x =>
          obtain ⟨s, us, h1, -⟩ := x.slice_head
          simp [Expression.yield, PrimaryExpression.yield, h1] at h
      | method_call x =>
          obtain ⟨s, us, h1, -⟩ := x.method_call_head
          simp [Expression.yield, PrimaryExpression.yield, h1] at h
      | function_call x =>
          obtain ⟨s, us, h1, -⟩ := x.function_call_head
          simp [Expression.yield, PrimaryExpression.yield, h1] at h
  | .binary_expression l op r, rest, ps, ts, hp, hs, h => by
      obtain ⟨-, h2⟩ := Expression.of_array_tokens l (.lit op.text :: (r.yield ++ rest)) ps ts
        hp hs (by simpa [Expression.yield] using h)
      have h5 : noOperatorAt (Tok.lit op.text :: (r.yield ++ rest)) = false :=
        noOperatorAt_operator (.binary op) _
      rw [← h2, h5] at hs; exact absurd hs (by decide)
  | .has_expression l r, rest, ps, ts, hp, hs, h => by
      obtain ⟨-, h2⟩ := Expression.of_array_tokens l (.lit "has" :: (r.yield ++ rest)) ps ts
        hp hs (by simpa [Expression.yield] using h)
      have h5 : noOperatorAt (Tok.lit "has" :: (r.yield ++ rest)) = false :=
        noOperatorAt_operator .has _
      rw [← h2, h5] at hs; exact absurd hs (by decide)
  | .unary_expression u _, rest, ps, ts, _, _, h => by
      cases u <;> simp [Expression.yield, UnOp.text] at h
  | .lambda_block _ _, rest, ps, ts, _, _, h => by simp [Expression.yield] at h
  | .lambda_arrow _ _, rest, ps, ts, _, _, h => by simp [Expression.yield] at h
  | .dialogue _ _, rest, ps, ts, _, _, h => by simp [Expression.yield] at h
  | .skill_check _ _ _ _, rest, ps, ts, _, _, h => by simp [Expression.yield] at h

/-- No expression stands in front of `[`, single operand tokens with commas between them,
a trailing comma and `]`. -/
theorem Expression.not_array_trailing : (e : Expression) → (rest : List Tok) →
    (ps : List PrimaryExpression) → (ts : List Tok) → (∀ p ∈ ps, p.yield.length = 1) →
    e.yield ++ rest
      = .lit "[" :: (yieldExpressions (ps.map Expression.primary) ++ .lit "," :: .lit "]" :: ts) →
    False
  | .primary q, rest, ps, ts, hp, h => by
      cases q with
      | value v =>
          obtain ⟨t1, h1, h2⟩ := v.yield_eq
          simp only [Expression.yield, PrimaryExpression.yield, h1, List.cons_append,
            List.cons.injEq] at h
          rw [h.1] at h2; exact absurd h2 (by decide)
      | identifier s => simp [Expression.yield, PrimaryExpression.yield] at h
      | grouped_expression e => simp [Expression.yield, PrimaryExpression.yield] at h
      | array_expression es =>
          simp only [Expression.yield, PrimaryExpression.yield, List.cons_append,
            List.cons.injEq, true_and, List.append_assoc, List.nil_append] at h
          exact elements_trailing ps hp es rest ts h
      | index_expression x =>
          obtain ⟨s, us, h1, -⟩ := x.index_head
          simp [Expression.yield, PrimaryExpression.yield, h1] at h
      | slice_expression x =>
          obtain ⟨s, us, h1, -⟩ := x.slice_head
          simp [Expression.yield, PrimaryExpression.yield, h1] at h
      | method_call x =>
          obtain ⟨s, us, h1, -⟩ := x.method_call_head
          simp [Expression.yield, PrimaryExpression.yield, h1] at h
      | function_call x =>
          obtain ⟨s, us, h1, -⟩ := x.function_call_head
          simp [Expression.yield, PrimaryExpression.yield, h1] at h
  | .binary_expression l op r, rest, ps, ts, hp, h =>
      Expression.not_array_trailing l (.lit op.text :: (r.yield ++ rest)) ps ts hp
        (by simpa [Expression.yield] using h)
  | .has_expression l r, rest, ps, ts, hp, h =>
      Expression.not_array_trailing l (.lit "has" :: (r.yield ++ rest)) ps ts hp
        (by simpa [Expression.yield] using h)
  | .unary_expression u _, rest, ps, ts, _, h => by
      cases u <;> simp [Expression.yield, UnOp.text] at h
  | .lambda_block _ _, rest, ps, ts, _, h => by simp [Expression.yield] at h
  | .lambda_arrow _ _, rest, ps, ts, _, h => by simp [Expression.yield] at h
  | .dialogue _ _, rest, ps, ts, _, h => by simp [Expression.yield] at h
  | .skill_check _ _ _ _, rest, ps, ts, _, h => by simp [Expression.yield] at h

/-- No source file derives `[`, single operand tokens with commas between them, a trailing
comma and `]`. -/
theorem no_file_array_trailing (ps : List PrimaryExpression)
    (hp : ∀ p ∈ ps, p.yield.length = 1) (f : SourceFile) :
    f.yield ≠ .lit "[" :: (yieldExpressions (ps.map Expression.primary)
      ++ [.lit ",", .lit "]"]) := by
  obtain ⟨ss⟩ := f
  intro h
  cases ss with
  | nil => simp [SourceFile.yield, yieldStatements] at h
  | cons s ss =>
      simp only [SourceFile.yield, yieldStatements] at h
      obtain ⟨e, rfl⟩ := s.expression_of_lit _ "[" _ h (by decide)
      exact e.not_array_trailing _ ps [] hp (by simpa [Statement.yield] using h)

/-- C13, the claim as stated fails: the rule of `array_expression` has no trailing comma.
The tokens `[ 1 , ]` are derived by no array, by no expression and by no source file. -/
theorem array_trailing_comma_counterexample :
    (∀ es : List Expression, (PrimaryExpression.array_expression es).yield
        ≠ [.lit "[", .num "1", .lit ",", .lit "]"])
    ∧ (∀ e : Expression, e.yield ≠ [.lit "[", .num "1", .lit ",", .lit "]"])
    ∧ (∀ f : SourceFile, f.yield ≠ [.lit "[", .num "1", .lit ",", .lit "]"]) := by
  refine ⟨fun es => array_no_trailing_comma es [.num "1"], fun e h => ?_, fun f => ?_⟩
  · exact e.not_array_trailing [] [.value (.num "1")] [] (by simp [PrimaryExpression.yield,
      Value.yield]) (by simpa [yieldExpressions, yieldMoreExpressions, Expression.yield,
      PrimaryExpression.yield, Value.yield] using h)
  · exact no_file_array_trailing [.value (.num "1")] (by simp [PrimaryExpression.yield,
      Value.yield]) f

/-- C13, amended.  An array literal is a possibly empty list of expressions in square
brackets with one comma between neighbours and no trailing comma.  For all expressions
`e1..en` (`n ≥ 0`) the array with exactly these elements derives the tokens
`[ e1 , ... , en ]`, and it is kept when its elements are.  No array derives tokens that end
with `, ]`.  When the elements are single tokens, the array is the only expression that
derives `[ e1 , ... , en ]`, and no expression and no source file derives
`[ e1 , ... , en , ]`. -/
theorem array_comma_separated :
    (∀ es : List Expression,
        (PrimaryExpression.array_expression es).yield
          = .lit "[" :: List.intercalate [Tok.lit ","] (es.map Expression.yield) ++ [.lit "]"]
        ∧ (PrimaryExpression.array_expression es).resolved = resolvedExpressions es)
    ∧ (PrimaryExpression.array_expression []).yield = [.lit "[", .lit "]"]
    ∧ Expression.ParsesAs [.lit "[", .num "1", .lit ",", .num "2", .lit "]"]
        (.primary (.array_expression [.primary (.value (.num "1")),
          .primary (.value (.num "2"))]))
    ∧ (∀ (es : List Expression) (ts : List Tok),
        (PrimaryExpression.array_expression es).yield
          ≠ .lit "[" :: ts ++ [.lit ",", .lit "]"])
    ∧ (∀ ps : List PrimaryExpression, (∀ p ∈ ps, p.yield.length = 1) →
        (∀ e : Expression,
            e.yield = (PrimaryExpression.array_expression (ps.map Expression.primary)).yield →
            e = .primary (.array_expression (ps.map Expression.primary)))
        ∧ (∀ e : Expression, e.yield ≠ .lit "[" ::
            (yieldExpressions (ps.map Expression.primary) ++ [.lit ",", .lit "]"]))
        ∧ (∀ f : SourceFile, f.yield ≠ .lit "[" ::
            (yieldExpressions (ps.map Expression.primary) ++ [.lit ",", .lit "]"]))) := by
  refine ⟨fun es => ⟨?_, ?_⟩, rfl, ⟨rfl, rfl⟩, array_no_trailing_comma, fun ps hp => ⟨fun e h => ?_,
    fun e h => ?_, no_file_array_trailing ps hp⟩⟩
  · rw [← yieldExpressions_eq]
    rfl
  · simp [PrimaryExpression.resolved]
  · exact (e.of_array_tokens [] ps [] hp rfl
      (by simpa [PrimaryExpression.yield] using h)).1
  · exact e.not_array_trailing [] ps [] hp (by simpa using h)

/-- An expression in front of `check s vs d` with single operand tokens `s`, `d` begins with
the skill check of `s` and `d`: the tokens that follow are `{ success`, a clause, `failure`,
a clause and `}`. -/
theorem Expression.check_header : (e : Expression) → (rest : List Tok) →
    (ps pd : PrimaryExpression) → (ts td : Tok) → (more : List Tok) →
    ps.yield = [ts] → ts.isOperand = true → pd.yield = [td] → td.isOperand = true →
    stopsAt more = true →
    e.yield ++ rest = .lit "check" :: ts :: .lit "vs" :: td :: more →
    ∃ ok ko rest2,
      more = .lit "\x7b" :: .lit "success" :: (CheckClause.yield ok ++ .lit "failure" ::
        (CheckClause.yield ko ++ .lit "\x7d" :: rest2))
      ∧ ((e = .skill_check (.primary ps) (.primary pd) ok ko ∧ rest2 = rest)
        ∨ noOperatorAt rest2 = false)
  | .primary q, rest, ps, pd, ts, td, more, _, _, _, _, _, h => by
      cases q with
      | value v =>
          obtain ⟨t1, h1, h2⟩ := v.yield_eq
          simp only [Expression.yield, PrimaryExpression.yield, h1, List.cons_append,
            List.cons.injEq] at h
          rw [h.1] at h2; exact absurd h2 (by decide)
      | identifier s => simp [Expression.yield, PrimaryExpression.yield] at h
      | grouped_expression e => simp [Expression.yield, PrimaryExpression.yield] at h
      | array_expression es => simp [Expression.yield, PrimaryExpression.yield] at h
      | index_expression x =>
          obtain ⟨s, us, h1, -⟩ := x.index_head
          simp [Expression.yield, PrimaryExpression.yield, h1] at h
      | slice_expression x =>
          obtain ⟨s, us, h1, -⟩ := x.slice_head
          simp [Expression.yield, PrimaryExpression.yield, h1] at h
      | method_call x =>
          obtain ⟨s, us, h1, -⟩ := x.method_call_head
          simp [Expression.yield, PrimaryExpression.yield, h1] at h
      | function_call x =>
          obtain ⟨s, us, h1, -⟩ := x.function_call_head
          simp [Expression.yield, PrimaryExpression.yield, h1] at h
  | .binary_expression l op r, rest, ps, pd, ts, td, more, h1, h2, h3, h4, hs, h => by
      obtain ⟨ok, ko, rest2, h5, h6⟩ := Expression.check_header l
        (.lit op.text :: (r.yield ++ rest)) ps pd ts td more h1 h2 h3 h4 hs
        (by simpa [Expression.yield] using h)
      refine ⟨ok, ko, rest2, h5, .inr ?_⟩
      rcases h6 with ⟨-, h7⟩ | h7
      · rw [h7]; exact noOperatorAt_operator (.binary op) _
      · exact h7
  | .has_expression l r, rest, ps, pd, ts, td, more, h1, h2, h3, h4, hs, h => by
      obtain ⟨ok, ko, rest2, h5, h6⟩ := Expression.check_header l
        (.lit "has" :: (r.yield ++ rest)) ps pd ts td more h1 h2 h3 h4 hs
        (by simpa [Expression.yield] using h)
      refine ⟨ok, ko, rest2, h5, .inr ?_⟩
      rcases h6 with ⟨-, h7⟩ | h7
      · rw [h7]; exact noOperatorAt_operator .has _
      · exact h7
  | .unary_expression u _, rest, ps, pd, ts, td, more, _, _, _, _, _, h => by
      cases u <;> simp [Expression.yield, UnOp.text] at h
  | .lambda_block _ _, rest, ps, pd, ts, td, more, _, _, _, _, _, h => by
      simp [Expression.yield] at h
  | .lambda_arrow _ _, rest, ps, pd, ts, td, more, _, _, _, _, _, h => by
      simp [Expression.yield] at h
  | .dialogue _ _, rest, ps, pd, ts, td, more, _, _, _, _, _, h => by
      simp [Expression.yield] at h
  | .skill_check s d ok ko, rest, ps, pd, ts, td, more, h1, h2, h3, h4, hs, h => by
      simp only [Expression.yield, List.cons_append, List.append_assoc, List.cons.injEq,
        true_and, List.nil_append] at h
      obtain ⟨rfl, h5⟩ := s.of_token_expression _ ps ts _ h1 h2 (by rfl) h
      simp only [List.cons.injEq, true_and] at h5
      obtain ⟨rfl, h6⟩ := d.of_token_expression _ pd td _ h3 h4 hs h5
      exact ⟨ok, ko, rest, h6.symm, .inl ⟨rfl, rfl⟩⟩

/-- A clause in front of `=>` and one operand token that nothing continues has that token
as its body. -/
theorem CheckClause.of_token_clause (k : CheckClause) (rest : List Tok)
    (p : PrimaryExpression) (t : Tok) (more : List Tok) (hp : p.yield = [t])
    (ht : t.isOperand = true) (hs : stopsAt more = true)
    (h : k.yield ++ rest = .lit "=>" :: t :: more) :
    ∃ c, k = .mk (.expression (.primary p)) c ∧ yieldComma c ++ rest = more := by
  obtain ⟨b, c⟩ := k
  simp only [CheckClause.yield, List.cons_append, List.append_assoc, List.cons.injEq,
    true_and] at h
  cases b with
  | expression e =>
      obtain ⟨rfl, h2⟩ := e.of_token_expression _ p t _ hp ht hs (by simpa [Body.yield] using h)
      exact ⟨c, rfl, h2⟩
  | block b =>
      obtain ⟨body⟩ := b
      simp only [Body.yield, Block.yield, List.cons_append, List.cons.injEq] at h
      rw [← h.1] at ht
      exact absurd ht (by decide)

/-- A primary expression of one token holds no conflict. -/
theorem PrimaryExpression.resolved_of_single (p : PrimaryExpression)
    (h : p.yield.length = 1) : p.resolved = true := by
  cases p with
  | value v => rfl
  | identifier s => rfl
  | grouped_expression e => simp [PrimaryExpression.yield] at h
  | array_expression es => simp [PrimaryExpression.yield] at h
  | index_expression x =>
      obtain ⟨o, i⟩ := x
      simp [PrimaryExpression.yield, IndexExpression.yield] at h
      omega
  | slice_expression x =>
      obtain ⟨o, a, b⟩ := x
      simp [PrimaryExpression.yield, SliceExpression.yield] at h
      omega
  | method_call x =>
      obtain ⟨r, n, args⟩ := x
      simp [PrimaryExpression.yield, MethodCall.yield] at h
      omega
  | function_call x =>
      obtain ⟨f, args⟩ := x
      simp [PrimaryExpression.yield, FunctionCall.yield] at h

/-- The clauses of an expression that derives `check s vs d` and clauses in braces, for
single operand tokens `s` and `d`. -/
theorem Expression.check_clauses (e : Expression) (ps pd : PrimaryExpression)
    (hs : ps.yield.length = 1) (hd : pd.yield.length = 1) (clauses : List Tok)
    (h : e.yield = checkTokens ps.yield pd.yield clauses) :
    ∃ ok ko rest2,
      clauses ++ [.lit "\x7d"] = .lit "success" :: (CheckClause.yield ok ++ .lit "failure" ::
        (CheckClause.yield ko ++ .lit "\x7d" :: rest2))
      ∧ ((e = .skill_check (.primary ps) (.primary pd) ok ko ∧ rest2 = [])
        ∨ noOperatorAt rest2 = false) := by
  obtain ⟨ts, h1, h2⟩ := ps.single_token hs
  obtain ⟨td, h3, h4⟩ := pd.single_token hd
  obtain ⟨ok, ko, rest2, h5, h6⟩ := e.check_header [] ps pd ts td
    (Tok.lit "\x7b" :: (clauses ++ [Tok.lit "\x7d"])) h1 h2 h3 h4 (by rfl)
    (by simpa [checkTokens, h1, h3] using h)
  refine ⟨ok, ko, rest2, ?_, h6⟩
  simpa using h5

theorem stopsAt_comma_then (c : Bool) (k : String) (ts : List Tok)
    (hk : k = "success" ∨ k = "failure" ∨ k = "\x7d") :
    stopsAt (yieldComma c ++ .lit k :: ts) = true := by
  cases c
  · rcases hk with rfl | rfl | rfl <;> rfl
  · rfl

/-- C15. A skill check is `check`, the skill, `vs`, the difficulty and, in braces, one
success clause followed by one failure clause; each clause is its keyword, `=>`, a body that
is an expression or a block, and an optional comma.  Every skill check derives tokens of
this form.  For single-token skill `s`, difficulty `d` and bodies `x`, `y`, with or without
the commas: the tokens `check s vs d { success => x failure => y }` are derived by exactly
one expression, the skill check with these parts, and it is kept; no expression at all, so
no skill check, derives the tokens with the clauses in the order failure then success, with
the failure clause missing, with the success clause missing, with no clause, with the
success clause twice or with the failure clause twice. -/
theorem skill_check_success_then_failure (ps pd px py : PrimaryExpression)
    (hs : ps.yield.length = 1) (hd : pd.yield.length = 1)
    (hx : px.yield.length = 1) (hy : py.yield.length = 1) (c1 c2 c3 : Bool) :
    (∀ (s d : Expression) (b1 b2 : Body) (k1 k2 : Bool),
        (Expression.skill_check s d (.mk b1 k1) (.mk b2 k2)).yield
          = checkTokens s.yield d.yield
              (clauseTokens "success" b1.yield k1 ++ clauseTokens "failure" b2.yield k2))
    ∧ (Expression.ParsesAs
          (checkTokens ps.yield pd.yield
            (clauseTokens "success" px.yield c1 ++ clauseTokens "failure" py.yield c2))
          (.skill_check (.primary ps) (.primary pd) (.mk (.expression (.primary px)) c1)
            (.mk (.expression (.primary py)) c2))
      ∧ ∀ e : Expression, e.yield = checkTokens ps.yield pd.yield
            (clauseTokens "success" px.yield c1 ++ clauseTokens "failure" py.yield c2) →
          e = .skill_check (.primary ps) (.primary pd) (.mk (.expression (.primary px)) c1)
            (.mk (.expression (.primary py)) c2))
    ∧ (∀ e : Expression, e.yield ≠ checkTokens ps.yield pd.yield
        (clauseTokens "failure" py.yield c2 ++ clauseTokens "success" px.yield c1))
    ∧ (∀ e : Expression, e.yield ≠ checkTokens ps.yield pd.yield
        (clauseTokens "success" px.yield c1))
    ∧ (∀ e : Expression, e.yield ≠ checkTokens ps.yield pd.yield
        (clauseTokens "failure" py.yield c2))
    ∧ (∀ e : Expression, e.yield ≠ checkTokens ps.yield pd.yield [])
    ∧ (∀ e : Expression, e.yield ≠ checkTokens ps.yield pd.yield
        (clauseTokens "success" px.yield c1 ++ clauseTokens "success" px.yield c3
          ++ clauseTokens "failure" py.yield c2))
    ∧ (∀ e : Expression, e.yield ≠ checkTokens ps.yield pd.yield
        (clauseTokens "success" px.yield c1 ++ clauseTokens "failure" py.yield c2
          ++ clauseTokens "failure" py.yield c3)) := by
  obtain ⟨tx, h1, h2⟩ := px.single_token hx
  obtain ⟨ty, h3, h4⟩ := py.single_token hy
  refine ⟨fun s d b1 b2 k1 k2 => ?_, ⟨⟨?_, ?_⟩, fun e h => ?_⟩, fun e h => ?_, fun e h => ?_,
    fun e h => ?_, fun e h => ?_, fun e h => ?_, fun e h => ?_⟩
  · simp [Expression.yield, CheckClause.yield, checkTokens, clauseTokens]
  · simp [Expression.yield, CheckClause.yield, Body.yield, checkTokens, clauseTokens]
  · simp [Expression.resolved, CheckClause.resolved, Body.resolved,
      PrimaryExpression.resolved_of_single, hs, hd, hx, hy]
  · obtain ⟨ok, ko, rest2, h5, h6⟩ := e.check_clauses ps pd hs hd _ h
    simp only [clauseTokens, h1, h3, List.cons_append, List.nil_append, List.append_assoc,
      List.cons.injEq, true_and] at h5
    obtain ⟨k1, rfl, h7⟩ := ok.of_token_clause _ px tx _ h1 h2
      (stopsAt_comma_then c1 "failure" _ (.inr (.inl rfl))) h5.symm
    have h8 : k1 = c1 ∧ CheckClause.yield ko ++ .lit "\x7d" :: rest2
        = .lit "=>" :: ty :: (yieldComma c2 ++ [.lit "\x7d"]) := by
      cases k1 <;> cases c1 <;> simp [yieldComma] at h7 ⊢ <;> exact h7
    obtain ⟨rfl, h9⟩ := h8
    obtain ⟨k2, rfl, h10⟩ := ko.of_token_clause _ py ty _ h3 h4
      (stopsAt_comma_then c2 "\x7d" _ (.inr (.inr rfl))) h9
    have h11 : k2 = c2 ∧ rest2 = [] := by
      cases k2 <;> cases c2 <;> simp [yieldComma] at h10 ⊢ <;> exact h10
    obtain ⟨rfl, rfl⟩ := h11
    rcases h6 with ⟨h12, -⟩ | h12
    · exact h12
    · exact absurd h12 (by decide)
  · obtain ⟨ok, ko, rest2, h5, -⟩ := e.check_clauses ps pd hs hd _ h
    simp [clauseTokens] at h5
  · obtain ⟨ok, ko, rest2, h5, -⟩ := e.check_clauses ps pd hs hd _ h
    simp only [clauseTokens, h1, h3, List.cons_append, List.nil_append, List.append_assoc,
      List.cons.injEq, true_and] at h5
    obtain ⟨k1, rfl, h7⟩ := ok.of_token_clause _ px tx _ h1 h2
      (stopsAt_comma_then c1 "\x7d" _ (.inr (.inr rfl))) h5.symm
    cases k1 <;> cases c1 <;> simp [yieldComma] at h7
  · obtain ⟨ok, ko, rest2, h5, -⟩ := e.check_clauses ps pd hs hd _ h
    simp [clauseTokens] at h5
  · obtain ⟨ok, ko, rest2, h5, -⟩ := e.check_clauses ps pd hs hd _ h
    simp at h5
  · obtain ⟨ok, ko, rest2, h5, -⟩ := e.check_clauses ps pd hs hd _ h
    simp only [clauseTokens, h1, h3, List.cons_append, List.nil_append, List.append_assoc,
      List.cons.injEq, true_and] at h5
    obtain ⟨k1, rfl, h7⟩ := ok.of_token_clause _ px tx _ h1 h2
      (stopsAt_comma_then c1 "success" _ (.inl rfl)) h5.symm
    cases k1 <;> cases c1 <;> simp [yieldComma] at h7
  · obtain ⟨ok, ko, rest2, h5, -⟩ := e.check_clauses ps pd hs hd _ h
    simp only [clauseTokens, h1, h3, List.cons_append, List.nil_append, List.append_assoc,
      List.cons.injEq, true_and] at h5
    obtain ⟨k1, rfl, h7⟩ := ok.of_token_clause _ px tx _ h1 h2
      (stopsAt_comma_then c1 "failure" _ (.inr (.inl rfl))) h5.symm
    have h8 : CheckClause.yield ko ++ .lit "\x7d" :: rest2
        = .lit "=>" :: ty :: (yieldComma c2 ++ .lit "failure" :: .lit "=>" :: ty ::
            (yieldComma c3 ++ [.lit "\x7d"])) := by
      cases k1 <;> cases c1 <;> simp [yieldComma] at h7 ⊢ <;> exact h7
    obtain ⟨k2, rfl, h10⟩ := ko.of_token_clause _ py ty _ h3 h4
      (stopsAt_comma_then c2 "failure" _ (.inr (.inl rfl))) h8
    cases k2 <;> cases c2 <;> simp [yieldComma] at h10

/-- C15 at `check s vs d` with identifiers: `{ success => x failure => y }` is the skill
check, `{ failure => y success => x }` and `{ success => x }` are derived by no
expression. -/
theorem skill_check_success_then_failure_witness :
    Expression.ParsesAs
        [.lit "check", .identifier "s", .lit "vs", .identifier "d", .lit "\x7b",
          .lit "success", .lit "=>", .identifier "x", .lit "failure", .lit "=>",
          .identifier "y", .lit "\x7d"]
        (.skill_check (.primary (.identifier "s")) (.primary (.identifier "d"))
          (.mk (.expression (.primary (.identifier "x"))) false)
          (.mk (.expression (.primary (.identifier "y"))) false))
    ∧ (∀ e : Expression, e.yield ≠
        [.lit "check", .identifier "s", .lit "vs", .identifier "d", .lit "\x7b",
          .lit "failure", .lit "=>", .identifier "y", .lit "success", .lit "=>",
          .identifier "x", .lit "\x7d"])
    ∧ (∀ e : Expression, e.yield ≠
        [.lit "check", .identifier "s", .lit "vs", .identifier "d", .lit "\x7b",
          .lit "success", .lit "=>", .identifier "x", .lit "\x7d"]) :=
  ⟨(skill_check_success_then_failure (.identifier "s") (.identifier "d") (.identifier "x")
      (.identifier "y") rfl rfl rfl rfl false false false).2.1.1,
    (skill_check_success_then_failure (.identifier "s") (.identifier "d") (.identifier "x")
      (.identifier "y") rfl rfl rfl rfl false false false).2.2.1,
    (skill_check_success_then_failure (.identifier "s") (.identifier "d") (.identifier "x")
      (.identifier "y") rfl rfl rfl rfl false false false).2.2.2.1⟩

/-- A statement that begins with an operand token is an expression statement or a
reassignment. -/
theorem Statement.of_operand (s : Statement) (rest : List Tok) (t : Tok) (ts : List Tok)
    (h : s.yield ++ rest = t :: ts) (ht : t.isOperand = true) :
    (∃ e, s = .expression e) ∨ (∃ x v, s = .reassignment x v ∧ t = .identifier x) := by
  rcases s.cases_of_head _ _ _ h with ⟨e, h1, -⟩ | h1 | ⟨rfl, -⟩ | ⟨rfl, -⟩ | ⟨rfl, -⟩
    | ⟨rfl, -⟩ | ⟨rfl, -⟩ | ⟨rfl, -⟩ | ⟨rfl, -⟩ | ⟨rfl, -⟩ | ⟨rfl, -⟩ | ⟨rfl, -⟩ | ⟨rfl, -⟩
    | ⟨rfl, -⟩ | ⟨rfl, -⟩ | ⟨rfl, -⟩ | ⟨rfl, -⟩ | ⟨rfl, -⟩
  · exact .inl ⟨e, h1⟩
  · exact .inr h1
  all_goals exact absurd ht (by decide)

/-- The statements that derive one operand token are the expression statement of it. -/
theorem statements_of_token (ss : List Statement) (p : PrimaryExpression) (t : Tok)
    (hp : p.yield = [t]) (ht : t.isOperand = true) (h : yieldStatements ss = [t]) :
    ss = [.expression (.primary p)] := by
  cases ss with
  | nil => simp [yieldStatements] at h
  | cons s ss =>
      simp only [yieldStatements] at h
      rcases s.of_operand _ _ _ h ht with ⟨e, rfl⟩ | ⟨x, v, rfl, -⟩
      · obtain ⟨rfl, h2⟩ := e.of_token_expression _ p t [] hp ht rfl
          (by simpa [Statement.yield] using h)
        rw [statements_of_nil ss h2]
      · simp [Statement.yield] at h

/-- The source files that derive `return` and one operand token. -/
theorem file_of_return_token (p : PrimaryExpression) (hp : p.yield.length = 1)
    (f : SourceFile) (h : f.yield = .lit "return" :: p.yield) :
    f = ⟨[.return_statement (some (.primary p))]⟩
      ∨ f = ⟨[.return_statement none, .expression (.primary p)]⟩ := by
  obtain ⟨t, h1, h2⟩ := p.single_token hp
  obtain ⟨ss⟩ := f
  rw [h1] at h
  cases ss with
  | nil => simp [SourceFile.yield, yieldStatements] at h
  | cons s ss =>
      simp only [SourceFile.yield, yieldStatements] at h
      have hk := s.of_keyword _ "return" _ h (by decide)
      simp only [String.reduceEq, false_and, false_or, true_and, or_false] at hk
      obtain ⟨v, rfl⟩ := hk
      cases v with
      | none =>
          simp only [Statement.yield, yieldOptExpression, List.cons_append, List.nil_append,
            List.cons.injEq, true_and] at h
          rw [statements_of_token ss p t h1 h2 h]
          exact .inr rfl
      | some e =>
          simp only [Statement.yield, yieldOptExpression, List.cons_append, List.cons.injEq,
            true_and] at h
          obtain ⟨rfl, h3⟩ := e.of_token_expression _ p t [] h1 h2 rfl h
          rw [statements_of_nil ss h3]
          exact .inl rfl

/-- The statements in front of `return }` ... are the one `return` without value. -/
theorem statements_return_close (ss : List Statement) (rest ts : List Tok)
    (h : yieldStatements ss ++ .lit "\x7d" :: rest = .lit "return" :: .lit "\x7d" :: ts) :
    ss = [.return_statement none] ∧ rest = ts := by
  cases ss with
  | nil => simp [yieldStatements] at h
  | cons s ss =>
      simp only [yieldStatements, List.append_assoc] at h
      have hk := s.of_keyword _ "return" _ h (by decide)
      simp only [String.reduceEq, false_and, false_or, true_and, or_false] at hk
      obtain ⟨v, rfl⟩ := hk
      cases v with
      | none =>
          simp only [Statement.yield, yieldOptExpression, List.cons_append, List.nil_append,
            List.cons.injEq, true_and] at h
          obtain ⟨rfl, rfl⟩ := statements_before_close ss rest ts h
          exact ⟨rfl, rfl⟩
      | some e =>
          simp only [Statement.yield, yieldOptExpression, List.cons_append, List.cons.injEq,
            true_and, List.append_assoc] at h
          exact (e.head_ne_expression _ _ _ h (by decide)).elim

/-- The source file that derives `return` alone. -/
theorem file_of_return (f : SourceFile) (h : f.yield = [.lit "return"]) :
    f = ⟨[.return_statement none]⟩ := by
  obtain ⟨ss⟩ := f
  cases ss with
  | nil => simp [SourceFile.yield, yieldStatements] at h
  | cons s ss =>
      simp only [SourceFile.yield, yieldStatements] at h
      have hk := s.of_keyword _ "return" _ h (by decide)
      simp only [String.reduceEq, false_and, false_or, true_and, or_false] at hk
      obtain ⟨v, rfl⟩ := hk
      cases v with
      | none =>
          simp only [Statement.yield, yieldOptExpression, List.cons_append, List.nil_append,
            List.cons.injEq, true_and] at h
          rw [statements_of_nil ss h]
      | some e =>
          obtain ⟨u, us, h1, -⟩ := e.yield_starts_expression
          simp [Statement.yield, yieldOptExpression, h1] at h

/-- C19. The value of a return statement is optional and is taken whenever an expression
follows.  The source file `return` and the block `{ return }` each have exactly one
derivation, with a return statement without value.  For every expression `e` that is kept,
the tokens `return e` parse as the source file of one return statement with value `e`; the
source file of a return without value followed by the expression statement `e` derives the
same tokens and is rejected, since `prec.right` lets the first token of `e` be shifted.
When `e` is a single token these are the only two derivations, so the parse is the only
tree that is kept. -/
theorem return_takes_following_expression :
    ((Statement.return_statement none).yield = [.lit "return"]
      ∧ ∀ e : Expression, (Statement.return_statement (some e)).yield = .lit "return" :: e.yield)
    ∧ (SourceFile.ParsesAs [.lit "return"] ⟨[.return_statement none]⟩
      ∧ ∀ f : SourceFile, f.yield = [.lit "return"] → f = ⟨[.return_statement none]⟩)
    ∧ ((Block.mk [.return_statement none]).yield = [.lit "\x7b", .lit "return", .lit "\x7d"]
      ∧ (Block.mk [.return_statement none]).resolved = true
      ∧ ∀ b : Block, b.yield = [.lit "\x7b", .lit "return", .lit "\x7d"] →
          b = .mk [.return_statement none])
    ∧ (∀ e : Expression, e.resolved = true →
        SourceFile.ParsesAs (.lit "return" :: e.yield) ⟨[.return_statement (some e)]⟩)
    ∧ (∀ e : Expression,
        (SourceFile.mk [.return_statement none, .expression e]).yield = .lit "return" :: e.yield
        ∧ (SourceFile.mk [.return_statement none, .expression e]).resolved = false)
    ∧ (∀ p : PrimaryExpression, p.yield.length = 1 →
        ∀ f : SourceFile, SourceFile.ParsesAs (.lit "return" :: p.yield) f →
          f = ⟨[.return_statement (some (.primary p))]⟩)
    ∧ SourceFile.ParsesAs [.lit "return", .identifier "x", .lit "+", .num "1"]
        ⟨[.return_statement (some (.binary_expression (.primary (.identifier "x")) .add
          (.primary (.value (.num "1")))))]⟩ := by
  refine ⟨⟨rfl, fun e => rfl⟩, ⟨⟨rfl, rfl⟩, file_of_return⟩, ⟨rfl, rfl, fun b h => ?_⟩,
    fun e he => ⟨?_, ?_⟩, fun e => ⟨?_, ?_⟩, fun p hp f hf => ?_, ⟨rfl, rfl⟩⟩
  · obtain ⟨ss⟩ := b
    simp only [Block.yield, List.cons_append, List.cons.injEq, true_and] at h
    rw [(statements_return_close ss [] [] h).1]
  · simp [SourceFile.yield, yieldStatements, Statement.yield, yieldOptExpression]
  · simp [SourceFile.resolved, resolvedStatements, Statement.resolved, resolvedOptExpression,
      he, yieldStatements, Statement.endsBefore]
  · simp [SourceFile.yield, yieldStatements, Statement.yield, yieldOptExpression]
  · obtain ⟨u, us, h1, h2⟩ := e.yield_starts_expression
    simp [SourceFile.resolved, resolvedStatements, Statement.resolved, resolvedOptExpression,
      yieldStatements, Statement.yield, h1, Statement.endsBefore, h2, Statement.precInfo,
      resolve]
  · rcases file_of_return_token p hp f hf.1 with h | h
    · exact h
    · obtain ⟨u, us, h1, h2⟩ := (Expression.primary p).yield_starts_expression
      have h3 := hf.2
      rw [h] at h3
      simp [SourceFile.resolved, resolvedStatements, Statement.resolved, resolvedOptExpression,
        yieldStatements, Statement.yield, h1, Statement.endsBefore, h2, Statement.precInfo,
        resolve] at h3

theorem equals_nil : ∀ q, equalsAfterIdentifier q [] = true := fun _ => rfl

theorem equals_cons {t : Tok} {ts : List Tok} (h : t ≠ .lit "=")
    (h2 : ∀ q, equalsAfterIdentifier q ts = true) :
    ∀ q, equalsAfterIdentifier q (t :: ts) = true := by
  intro q
  simp [equalsAfterIdentifier, h, h2]

theorem equals_assign {x : String} {ts : List Tok}
    (h2 : ∀ q, equalsAfterIdentifier q ts = true) :
    ∀ q, equalsAfterIdentifier q (.identifier x :: .lit "=" :: ts) = true := by
  intro q
  simp [equalsAfterIdentifier, precedesEquals, h2]

theorem equals_append_from : (a b : List Tok) → (p : Option Tok) →
    equalsAfterIdentifier p a = true → (∀ q, equalsAfterIdentifier q b = true) →
    equalsAfterIdentifier p (a ++ b) = true
  | [], b, p, _, hb => hb p
  | t :: a, b, p, ha, hb => by
      simp only [equalsAfterIdentifier, List.cons_append, Bool.and_eq_true] at ha ⊢
      exact ⟨ha.1, equals_append_from a b (some t) ha.2 hb⟩

theorem equals_append {a b : List Tok} (ha : ∀ q, equalsAfterIdentifier q a = true)
    (hb : ∀ q, equalsAfterIdentifier q b = true) :
    ∀ q, equalsAfterIdentifier q (a ++ b) = true :=
  fun q => equals_append_from a b q (ha q) hb

theorem BinOp.binary_ne_equals (op : BinOp) : Tok.lit op.text ≠ .lit "=" := by
  cases op <;> decide

theorem UnOp.unary_ne_equals (op : UnOp) : Tok.lit op.text ≠ .lit "=" := by
  cases op <;> decide

theorem equals_value (v : Value) : ∀ q, equalsAfterIdentifier q v.yield = true := by
  intro q
  cases v with
  | bool b => cases b <;> rfl
  | dice t => simp [Value.yield, equalsAfterIdentifier]
  | num t => simp [Value.yield, equalsAfterIdentifier]
  | string t => simp [Value.yield, equalsAfterIdentifier]

theorem equals_more_identifiers : (xs : List String) →
    ∀ q, equalsAfterIdentifier q (yieldMoreIdentifiers xs) = true
  | [] => equals_nil
  | _ :: xs => equals_cons (by simp) (equals_cons (by simp) (equals_more_identifiers xs))

theorem equals_parameters (ps : List String) :
    ∀ q, equalsAfterIdentifier q (yieldParameterList ps) = true := by
  cases ps with
  | nil => exact fun _ => rfl
  | cons x xs =>
      exact equals_append
        (equals_cons (by simp) (equals_cons (by simp) (equals_more_identifiers xs)))
        (equals_cons (by simp) equals_nil)

theorem equals_comma (c : Bool) : ∀ q, equalsAfterIdentifier q (yieldComma c) = true := by
  cases c <;> exact fun _ => rfl

/-- The closing brace alone. -/
theorem equals_close (k : String) (hk : k ≠ "=") :
    ∀ q, equalsAfterIdentifier q [.lit k] = true :=
  equals_cons (by simpa using hk) equals_nil

mutual
/-- In the tokens of every tree, each `=` stands right after an identifier: the only rules
with `=` are `assignment` and `reassignment`, both with an identifier before it. -/
theorem Statement.equals_guarded_statement : (x : Statement) →
    ∀ q, equalsAfterIdentifier q x.yield = true
  | .assignment _ v => equals_cons (by simp) (equals_assign (Expression.equals_guarded_expression v))
  | .reassignment _ v => equals_assign (Expression.equals_guarded_expression v)
  | .function_definition _ ps b =>
      equals_append (equals_cons (by simp) (equals_cons (by simp) (equals_parameters ps)))
        (Block.equals_guarded_block b)
  | .hero_declaration _ s =>
      equals_append (equals_cons (by simp) (equals_cons (by simp) (equals_cons (by simp)
        (yieldOptStatBlock_guarded s)))) (equals_close _ (by decide))
  | .enemy_declaration _ s =>
      equals_append (equals_cons (by simp) (equals_cons (by simp) (equals_cons (by simp)
        (yieldOptStatBlock_guarded s)))) (equals_close _ (by decide))
  | .item_declaration _ s =>
      equals_append (equals_cons (by simp) (equals_cons (by simp) (equals_cons (by simp)
        (yieldOptStatBlock_guarded s)))) (equals_close _ (by decide))
  | .quest_declaration _ items =>
      equals_append (equals_cons (by simp) (equals_cons (by simp) (equals_cons (by simp)
        (yieldQuestItems_guarded items)))) (equals_close _ (by decide))
  | .encounter_block _ body =>
      equals_append (equals_cons (by simp) (equals_cons (by simp) (equals_cons (by simp)
        (yieldStatements_guarded body)))) (equals_close _ (by decide))
  | .give_statement i t =>
      equals_append (equals_cons (by simp) (Expression.equals_guarded_expression i))
        (equals_cons (by simp) (Expression.equals_guarded_expression t))
  | .take_statement i t =>
      equals_append (equals_cons (by simp) (Expression.equals_guarded_expression i))
        (equals_cons (by simp) (Expression.equals_guarded_expression t))
  | .spawn_statement _ o =>
      equals_cons (by simp) (equals_cons (by simp) (yieldSpawnOverride_guarded o))
  | .strike_statement t w =>
      equals_append (equals_cons (by simp) (Expression.equals_guarded_expression t))
        (equals_cons (by simp) (Expression.equals_guarded_expression w))
  | .if_statement s => IfStatement.equals_guarded_if_statement s
  | .while_statement c b =>
      equals_append (equals_cons (by simp) (Expression.equals_guarded_expression c))
        (Block.equals_guarded_block b)
  | .for_in_statement _ e b =>
      equals_append (equals_cons (by simp) (equals_cons (by simp) (equals_cons (by simp)
        (Expression.equals_guarded_expression e)))) (Block.equals_guarded_block b)
  | .return_statement v => equals_cons (by simp) (yieldOptExpression_guarded v)
  | .expression e => Expression.equals_guarded_expression e
  | .block b => Block.equals_guarded_block b
theorem yieldStatements_guarded : (x : List Statement) →
    ∀ q, equalsAfterIdentifier q (yieldStatements x) = true
  | [] => equals_nil
  | s :: ss => equals_append (Statement.equals_guarded_statement s) (yieldStatements_guarded ss)
theorem Block.equals_guarded_block : (x : Block) → ∀ q, equalsAfterIdentifier q x.yield = true
  | .mk body =>
      equals_append (equals_cons (by simp) (yieldStatements_guarded body))
        (equals_close _ (by decide))
theorem StatBlock.equals_guarded_stat_block : (x : StatBlock) →
    ∀ q, equalsAfterIdentifier q x.yield = true
  | .mk first rest trailing =>
      equals_append (equals_append (StatEntry.equals_guarded_stat_entry first)
        (yieldMoreStatEntries_guarded rest)) (equals_comma trailing)
theorem yieldMoreStatEntries_guarded : (x : List StatEntry) →
    ∀ q, equalsAfterIdentifier q (yieldMoreStatEntries x) = true
  | [] => equals_nil
  | e :: es =>
      equals_append (equals_cons (by simp) (StatEntry.equals_guarded_stat_entry e))
        (yieldMoreStatEntries_guarded es)
theorem yieldOptStatBlock_guarded : (x : Option StatBlock) →
    ∀ q, equalsAfterIdentifier q (yieldOptStatBlock x) = true
  | none => equals_nil
  | some s => StatBlock.equals_guarded_stat_block s
theorem yieldSpawnOverride_guarded : (x : Option (Option StatBlock)) →
    ∀ q, equalsAfterIdentifier q (yieldSpawnOverride x) = true
  | none => equals_nil
  | some s =>
      equals_append (equals_cons (by simp) (equals_cons (by simp)
        (yieldOptStatBlock_guarded s))) (equals_close _ (by decide))
theorem StatEntry.equals_guarded_stat_entry : (x : StatEntry) →
    ∀ q, equalsAfterIdentifier q x.yield = true
  | .mk _ value => equals_cons (by simp) (equals_cons (by simp) (Expression.equals_guarded_expression value))
theorem QuestItem.equals_guarded_quest_item : (x : QuestItem) →
    ∀ q, equalsAfterIdentifier q x.yield = true
  | .phase _ body =>
      equals_append (equals_cons (by simp) (equals_cons (by simp) (equals_cons (by simp)
        (yieldStatements_guarded body)))) (equals_close _ (by decide))
  | .statement s => Statement.equals_guarded_statement s
theorem yieldQuestItems_guarded : (x : List QuestItem) →
    ∀ q, equalsAfterIdentifier q (yieldQuestItems x) = true
  | [] => equals_nil
  | i :: is => equals_append (QuestItem.equals_guarded_quest_item i) (yieldQuestItems_guarded is)
theorem IfStatement.equals_guarded_if_statement : (x : IfStatement) →
    ∀ q, equalsAfterIdentifier q x.yield = true
  | .mk c t a =>
      equals_append (equals_append (equals_cons (by simp) (Expression.equals_guarded_expression c))
        (Block.equals_guarded_block t)) (yieldOptAlternative_guarded a)
theorem yieldOptAlternative_guarded : (x : Option Alternative) →
    ∀ q, equalsAfterIdentifier q (yieldOptAlternative x) = true
  | none => equals_nil
  | some a => equals_cons (by simp) (Alternative.equals_guarded_alternative a)
theorem Alternative.equals_guarded_alternative : (x : Alternative) →
    ∀ q, equalsAfterIdentifier q x.yield = true
  | .if_statement s => IfStatement.equals_guarded_if_statement s
  | .block b => Block.equals_guarded_block b
theorem Expression.equals_guarded_expression : (x : Expression) →
    ∀ q, equalsAfterIdentifier q x.yield = true
  | .primary p => PrimaryExpression.equals_guarded_primary p
  | .binary_expression l op r =>
      equals_append (Expression.equals_guarded_expression l)
        (equals_cons op.binary_ne_equals (Expression.equals_guarded_expression r))
  | .unary_expression op e => equals_cons op.unary_ne_equals (Expression.equals_guarded_expression e)
  | .has_expression o i =>
      equals_append (Expression.equals_guarded_expression o)
        (equals_cons (by simp) (Expression.equals_guarded_expression i))
  | .lambda_block ps b =>
      equals_append (equals_cons (by simp) (equals_parameters ps)) (Block.equals_guarded_block b)
  | .lambda_arrow ps e =>
      equals_append (equals_cons (by simp) (equals_parameters ps))
        (equals_cons (by simp) (Expression.equals_guarded_expression e))
  | .dialogue _ cs =>
      equals_append (equals_cons (by simp) (equals_cons (by simp) (equals_cons (by simp)
        (yieldDialogueChoices_guarded cs)))) (equals_close _ (by decide))
  | .skill_check s d ok ko =>
      equals_append (equals_append (equals_append (equals_append
        (equals_cons (by simp) (Expression.equals_guarded_expression s))
        (equals_cons (by simp) (Expression.equals_guarded_expression d)))
        (equals_cons (by simp) (equals_cons (by simp) (CheckClause.equals_guarded_check_clause ok))))
        (equals_cons (by simp) (CheckClause.equals_guarded_check_clause ko))) (equals_close _ (by decide))
theorem yieldOptExpression_guarded : (x : Option Expression) →
    ∀ q, equalsAfterIdentifier q (yieldOptExpression x) = true
  | none => equals_nil
  | some e => Expression.equals_guarded_expression e
theorem DialogueChoice.equals_guarded_dialogue_choice : (x : DialogueChoice) →
    ∀ q, equalsAfterIdentifier q x.yield = true
  | .mk _ b c =>
      equals_append (equals_cons (by simp) (equals_cons (by simp) (Body.equals_guarded_body b)))
        (equals_comma c)
theorem yieldDialogueChoices_guarded : (x : List DialogueChoice) →
    ∀ q, equalsAfterIdentifier q (yieldDialogueChoices x) = true
  | [] => equals_nil
  | c :: cs => equals_append (DialogueChoice.equals_guarded_dialogue_choice c) (yieldDialogueChoices_guarded cs)
theorem Body.equals_guarded_body : (x : Body) → ∀ q, equalsAfterIdentifier q x.yield = true
  | .expression e => Expression.equals_guarded_expression e
  | .block b => Block.equals_guarded_block b
theorem CheckClause.equals_guarded_check_clause : (x : CheckClause) →
    ∀ q, equalsAfterIdentifier q x.yield = true
  | .mk b c => equals_append (equals_cons (by simp) (Body.equals_guarded_body b)) (equals_comma c)
theorem PrimaryExpression.equals_guarded_primary : (x : PrimaryExpression) →
    ∀ q, equalsAfterIdentifier q x.yield = true
  | .value v => equals_value v
  | .identifier _ => equals_cons (by simp) equals_nil
  | .grouped_expression e =>
      equals_append (equals_cons (by simp) (Expression.equals_guarded_expression e))
        (equals_close _ (by decide))
  | .array_expression es =>
      equals_append (equals_cons (by simp) (yieldExpressions_guarded es))
        (equals_close _ (by decide))
  | .index_expression x => IndexExpression.equals_guarded_index x
  | .slice_expression x => SliceExpression.equals_guarded_slice x
  | .method_call m => MethodCall.equals_guarded_method_call m
  | .function_call f => FunctionCall.equals_guarded_function_call f
theorem yieldExpressions_guarded : (x : List Expression) →
    ∀ q, equalsAfterIdentifier q (yieldExpressions x) = true
  | [] => equals_nil
  | e :: es => equals_append (Expression.equals_guarded_expression e) (yieldMoreExpressions_guarded es)
theorem yieldMoreExpressions_guarded : (x : List Expression) →
    ∀ q, equalsAfterIdentifier q (yieldMoreExpressions x) = true
  | [] => equals_nil
  | e :: es =>
      equals_append (equals_cons (by simp) (Expression.equals_guarded_expression e))
        (yieldMoreExpressions_guarded es)
theorem IndexExpression.equals_guarded_index : (x : IndexExpression) →
    ∀ q, equalsAfterIdentifier q x.yield = true
  | .mk o i =>
      equals_append (equals_append (Addressable.equals_guarded_object o)
        (equals_cons (by simp) (Expression.equals_guarded_expression i))) (equals_close _ (by decide))
theorem SliceExpression.equals_guarded_slice : (x : SliceExpression) →
    ∀ q, equalsAfterIdentifier q x.yield = true
  | .mk o s e =>
      equals_append (equals_append (equals_append (Addressable.equals_guarded_object o)
        (equals_cons (by simp) (yieldOptExpression_guarded s)))
        (equals_cons (by simp) (yieldOptExpression_guarded e))) (equals_close _ (by decide))
theorem Addressable.equals_guarded_object : (x : Addressable) →
    ∀ q, equalsAfterIdentifier q x.yield = true
  | .identifier _ => equals_cons (by simp) equals_nil
  | .method_call m => MethodCall.equals_guarded_method_call m
  | .index_expression x => IndexExpression.equals_guarded_index x
  | .slice_expression x => SliceExpression.equals_guarded_slice x
  | .function_call f => FunctionCall.equals_guarded_function_call f
theorem MethodCall.equals_guarded_method_call : (x : MethodCall) →
    ∀ q, equalsAfterIdentifier q x.yield = true
  | .mk r _ args =>
      equals_append (equals_append (Receiver.equals_guarded_receiver r)
        (equals_cons (by simp) (equals_cons (by simp) (equals_cons (by simp)
          (yieldExpressions_guarded args))))) (equals_close _ (by decide))
theorem Receiver.equals_guarded_receiver : (x : Receiver) →
    ∀ q, equalsAfterIdentifier q x.yield = true
  | .identifier _ => equals_cons (by simp) equals_nil
  | .method_call m => MethodCall.equals_guarded_method_call m
theorem FunctionCall.equals_guarded_function_call : (x : FunctionCall) →
    ∀ q, equalsAfterIdentifier q x.yield = true
  | .mk _ args =>
      equals_append (equals_cons (by simp) (equals_cons (by simp)
        (yieldExpressions_guarded args))) (equals_close _ (by decide))
end

/-- A token right before an `=` is an identifier, wherever the pair stands. -/
theorem equals_after_end : (pre : List Tok) → (k : Tok) → (ts : List Tok) → (p : Option Tok) →
    equalsAfterIdentifier p (pre ++ k :: .lit "=" :: ts) = true → ∃ x, k = .identifier x
  | [], k, ts, p, h => by
      simp only [List.nil_append, equalsAfterIdentifier, bne_self_eq_false, Bool.false_or,
        Bool.and_eq_true] at h
      cases k with
      | identifier x => exact ⟨x, rfl⟩
      | _ => simp [precedesEquals] at h
  | t :: pre, k, ts, p, h => by
      simp only [List.cons_append, equalsAfterIdentifier, Bool.and_eq_true] at h
      exact equals_after_end pre k ts (some t) h.2

/-- No source file derives tokens in which an `=` follows a token that is no identifier. -/
theorem no_file_assigns_after (pre : List Tok) (k : Tok) (ts : List Tok)
    (hk : ∀ x, k ≠ .identifier x) (f : SourceFile) : f.yield ≠ pre ++ k :: .lit "=" :: ts := by
  intro h
  have h1 := yieldStatements_guarded f.statements none
  rw [show yieldStatements f.statements = f.yield from rfl, h] at h1
  obtain ⟨x, hx⟩ := equals_after_end pre k ts none h1
  exact hk x hx

/-- The source file that derives `x = token`. -/
theorem file_of_reassignment (x : String) (p : PrimaryExpression) (hp : p.yield.length = 1)
    (f : SourceFile) (h : f.yield = .identifier x :: .lit "=" :: p.yield) :
    f = ⟨[.reassignment x (.primary p)]⟩ := by
  obtain ⟨t, h1, h2⟩ := p.single_token hp
  obtain ⟨ss⟩ := f
  rw [h1] at h
  cases ss with
  | nil => simp [SourceFile.yield, yieldStatements] at h
  | cons s ss =>
      simp only [SourceFile.yield, yieldStatements] at h
      rcases s.of_identifier _ _ _ h with ⟨e, rfl⟩ | ⟨v, rfl⟩
      · obtain ⟨-, h3⟩ := e.of_token_expression _ (.identifier x) (.identifier x)
          [.lit "=", t] rfl rfl rfl (by simpa [Statement.yield] using h)
        cases ss with
        | nil => simp [yieldStatements] at h3
        | cons s2 ss =>
            simp only [yieldStatements] at h3
            exact (s2.head_ne_statement _ _ _ h3 (by decide)).elim
      · simp only [Statement.yield, List.cons_append, List.cons.injEq, true_and] at h
        obtain ⟨rfl, h3⟩ := v.of_token_expression _ p t [] h1 h2 rfl h
        rw [statements_of_nil ss h3]

/-- C20. The target of every reassignment is a bare identifier.  For every identifier `x`
and expression `e` the reassignment of `x` derives the tokens `x = e`, and the source file
of that one statement is the parse of these tokens when `e` is kept; when `e` is a single
token it is the only source file that derives them.  In the tokens of every source file each
`=` stands right after an identifier token.  So no source file derives tokens in which `=`
follows an index expression, a slice expression, a method call or a function call; in
particular `a[0] = 1` has no derivation as a source file. -/
theorem reassignment_target_is_identifier :
    (∀ (x : String) (e : Expression),
        (Statement.reassignment x e).yield = .identifier x :: .lit "=" :: e.yield)
    ∧ (∀ (x : String) (e : Expression), e.resolved = true →
        SourceFile.ParsesAs (.identifier x :: .lit "=" :: e.yield) ⟨[.reassignment x e]⟩)
    ∧ (∀ (x : String) (p : PrimaryExpression), p.yield.length = 1 →
        ∀ f : SourceFile, f.yield = .identifier x :: .lit "=" :: p.yield →
          f = ⟨[.reassignment x (.primary p)]⟩)
    ∧ (∀ f : SourceFile, equalsAfterIdentifier none f.yield = true)
    ∧ (∀ (i : IndexExpression) (ts : List Tok) (f : SourceFile),
        f.yield ≠ i.yield ++ .lit "=" :: ts)
    ∧ (∀ (i : SliceExpression) (ts : List Tok) (f : SourceFile),
        f.yield ≠ i.yield ++ .lit "=" :: ts)
    ∧ (∀ (m : MethodCall) (ts : List Tok) (f : SourceFile),
        f.yield ≠ m.yield ++ .lit "=" :: ts)
    ∧ (∀ (c : FunctionCall) (ts : List Tok) (f : SourceFile),
        f.yield ≠ c.yield ++ .lit "=" :: ts)
    ∧ (IndexExpression.mk (.identifier "a") (.primary (.value (.num "0")))).yield
        ++ [.lit "=", .num "1"]
        = [.identifier "a", .lit "[", .num "0", .lit "]", .lit "=", .num "1"]
    ∧ (∀ f : SourceFile,
        f.yield ≠ [.identifier "a", .lit "[", .num "0", .lit "]", .lit "=", .num "1"]) := by
  refine ⟨fun x e => rfl, fun x e he => ⟨?_, ?_⟩, file_of_reassignment,
    fun f => yieldStatements_guarded f.statements none, ?_, ?_, ?_, ?_, rfl, fun f => ?_⟩
  · simp [SourceFile.yield, yieldStatements, Statement.yield]
  · simp [SourceFile.resolved, resolvedStatements, Statement.resolved, he, yieldStatements,
      Statement.endsBefore]
  · rintro ⟨o, i⟩ ts f
    have := no_file_assigns_after (o.yield ++ .lit "[" :: i.yield) (.lit "]") ts
      (fun x => by simp) f
    simpa [IndexExpression.yield] using this
  · rintro ⟨o, a, b⟩ ts f
    have := no_file_assigns_after
      (o.yield ++ .lit "[" :: (yieldOptExpression a ++ .lit ".." :: yieldOptExpression b))
      (.lit "]") ts (fun x => by simp) f
    simpa [SliceExpression.yield] using this
  · rintro ⟨r, n, args⟩ ts f
    have := no_file_assigns_after
      (r.yield ++ .lit "." :: .identifier n :: .lit "(" :: yieldExpressions args)
      (.lit ")") ts (fun x => by simp) f
    simpa [MethodCall.yield] using this
  · rintro ⟨g, args⟩ ts f
    have := no_file_assigns_after (.identifier g :: .lit "(" :: yieldExpressions args)
      (.lit ")") ts (fun x => by simp) f
    simpa [FunctionCall.yield] using this
  · exact no_file_assigns_after [.identifier "a", .lit "[", .num "0"] (.lit "]") [.num "1"]
      (fun x => by simp) f

/-- An expression that begins at an operand token followed by an operator and a token that
begins no expression is that token alone. -/
theorem Expression.operand_then_operator : (e : Expression) → (rest : List Tok) → (a : Tok) →
    (o : InfixOp) → (k : Tok) → (ts : List Tok) → a.isOperand = true →
    startsExpression k = false →
    e.yield ++ rest = a :: .lit o.text :: k :: ts →
    ∃ p, e = .primary p ∧ p.yield = [a] ∧ rest = .lit o.text :: k :: ts
  | .primary p, rest, a, o, k, ts, ha, _, h => by
      obtain ⟨h1, h2⟩ := p.token_then rest a _ ha (suffixAt_operator o _)
        (by simpa [Expression.yield] using h)
      exact ⟨p, rfl, h1, h2⟩
  | .binary_expression l op r, rest, a, o, k, ts, ha, hk, h => by
      have h' : l.yield ++ (.lit op.text :: (r.yield ++ rest)) = a :: .lit o.text :: k :: ts := by
        simpa [Expression.yield] using h
      obtain ⟨p, -, -, h3⟩ := Expression.operand_then_operator l _ a o k ts ha hk h'
      simp only [List.cons.injEq] at h3
      exact (r.head_ne_expression _ _ _ h3.2 hk).elim
  | .has_expression l r, rest, a, o, k, ts, ha, hk, h => by
      have h' : l.yield ++ (.lit "has" :: (r.yield ++ rest)) = a :: .lit o.text :: k :: ts := by
        simpa [Expression.yield] using h
      obtain ⟨p, -, -, h3⟩ := Expression.operand_then_operator l _ a o k ts ha hk h'
      simp only [List.cons.injEq] at h3
      exact (r.head_ne_expression _ _ _ h3.2 hk).elim
  | .unary_expression u _, rest, a, o, k, ts, ha, _, h => by
      simp only [Expression.yield, List.cons_append, List.cons.injEq] at h
      rw [← h.1] at ha; cases u <;> exact absurd ha (by decide)
  | .lambda_block _ _, rest, a, o, k, ts, ha, _, h => by
      simp only [Expression.yield, List.cons_append, List.cons.injEq] at h
      rw [← h.1] at ha; exact absurd ha (by decide)
  | .lambda_arrow _ _, rest, a, o, k, ts, ha, _, h => by
      simp only [Expression.yield, List.cons_append, List.cons.injEq] at h
      rw [← h.1] at ha; exact absurd ha (by decide)
  | .dialogue _ _, rest, a, o, k, ts, ha, _, h => by
      simp only [Expression.yield, List.cons_append, List.cons.injEq] at h
      rw [← h.1] at ha; exact absurd ha (by decide)
  | .skill_check _ _ _ _, rest, a, o, k, ts, ha, _, h => by
      simp only [Expression.yield, List.cons_append, List.cons.injEq] at h
      rw [← h.1] at ha; exact absurd ha (by decide)

/-- The end bound of a slice in front of `]`, against an optional single operand token. -/
theorem end_bound_of_tokens (b : Option Expression) (E : Option PrimaryExpression)
    (rest ts : List Tok) (hE : ∀ p, E = some p → p.yield.length = 1)
    (h : yieldOptExpression b ++ .lit "]" :: rest
      = yieldOptExpression (E.map Expression.primary) ++ .lit "]" :: ts) :
    b = E.map Expression.primary ∧ rest = ts := by
  rcases E with _ | e
  · rcases b with _ | eb
    · simpa [yieldOptExpression] using h
    · simp only [yieldOptExpression, Option.map_none', List.nil_append] at h
      exact (eb.head_ne_expression _ _ _ h (by decide)).elim
  · obtain ⟨t, h1, h2⟩ := e.single_token (hE e rfl)
    rcases b with _ | eb
    · simp only [yieldOptExpression, Option.map_some', Expression.yield, h1, List.nil_append,
        List.cons_append, List.cons.injEq] at h
      rw [← h.1] at h2
      exact absurd h2 (by decide)
    · simp only [yieldOptExpression, Option.map_some', Expression.yield, h1, List.nil_append,
        List.cons_append] at h
      obtain ⟨rfl, h3⟩ := eb.of_token_expression _ e t _ h1 h2 (by rfl) h
      simp only [List.cons.injEq, true_and] at h3
      exact ⟨rfl, h3⟩

mutual
/-- An index or slice object in front of `x [ s .. e ] ...` with optional single-token
bounds, where what follows `]` is neither an operator nor `"["`: the identifier `x`, the
slice of `x` with these bounds, or the index of `x` by the range of both bounds. -/
theorem Addressable.slice_tokens_object : (o : Addressable) → (rest : List Tok) →
    (x : String) → (S E : Option PrimaryExpression) → (ts : List Tok) →
    (∀ p, S = some p → p.yield.length = 1) → (∀ p, E = some p → p.yield.length = 1) →
    closedAt ts = true →
    o.yield ++ rest = .identifier x :: .lit "[" :: (yieldOptExpression (S.map Expression.primary)
      ++ .lit ".." :: (yieldOptExpression (E.map Expression.primary) ++ .lit "]" :: ts)) →
    (o = .identifier x ∧ rest = .lit "[" :: (yieldOptExpression (S.map Expression.primary)
      ++ .lit ".." :: (yieldOptExpression (E.map Expression.primary) ++ .lit "]" :: ts)))
    ∨ (rest = ts
      ∧ (o = .slice_expression
            (.mk (.identifier x) (S.map Expression.primary) (E.map Expression.primary))
        ∨ ∃ s e, S = some s ∧ E = some e ∧ o = .index_expression
            (.mk (.identifier x) (.binary_expression (.primary s) .range (.primary e)))))
  | .identifier s, rest, x, S, E, ts, _, _, _, h => by
      simp only [Addressable.yield, List.cons_append, List.nil_append, List.cons.injEq,
        Tok.identifier.injEq] at h
      exact .inl ⟨by rw [h.1], h.2⟩
  | .index_expression i, rest, x, S, E, ts, hS, hE, hs, h => by
      obtain ⟨h1, s, e, h2, h3, h4⟩ := IndexExpression.slice_tokens_index i rest x S E ts hS hE
        hs (by simpa [Addressable.yield] using h)
      exact .inr ⟨h1, .inr ⟨s, e, h2, h3, by rw [h4]⟩⟩
  | .method_call m, rest, x, S, E, ts, _, _, _, h => by
      obtain ⟨s, us, h1⟩ := m.dot_second
      simp [Addressable.yield, h1] at h
  | .slice_expression i, rest, x, S, E, ts, hS, hE, hs, h => by
      obtain ⟨h1, h2⟩ := SliceExpression.slice_tokens_slice i rest x S E ts hS hE hs
        (by simpa [Addressable.yield] using h)
      exact .inr ⟨h2, .inl (by rw [h1])⟩
  | .function_call (.mk f args), rest, x, S, E, ts, _, _, _, h => by
      simp [Addressable.yield, FunctionCall.yield] at h
/-- An index expression in front of `x [ s .. e ] ...` is the index of `x` by the range of
both bounds. -/
theorem IndexExpression.slice_tokens_index : (i : IndexExpression) → (rest : List Tok) →
    (x : String) → (S E : Option PrimaryExpression) → (ts : List Tok) →
    (∀ p, S = some p → p.yield.length = 1) → (∀ p, E = some p → p.yield.length = 1) →
    closedAt ts = true →
    i.yield ++ rest = .identifier x :: .lit "[" :: (yieldOptExpression (S.map Expression.primary)
      ++ .lit ".." :: (yieldOptExpression (E.map Expression.primary) ++ .lit "]" :: ts)) →
    rest = ts ∧ ∃ s e, S = some s ∧ E = some e
      ∧ i = .mk (.identifier x) (.binary_expression (.primary s) .range (.primary e))
  | .mk o idx, rest, x, S, E, ts, hS, hE, hs, h => by
      have h' : o.yield ++ (.lit "[" :: (idx.yield ++ .lit "]" :: rest))
          = .identifier x :: .lit "[" :: (yieldOptExpression (S.map Expression.primary)
            ++ .lit ".." :: (yieldOptExpression (E.map Expression.primary) ++ .lit "]" :: ts)) := by
        simpa [IndexExpression.yield] using h
      rcases Addressable.slice_tokens_object o _ x S E ts hS hE hs h' with ⟨rfl, h2⟩ | ⟨h2, -⟩
      · simp only [List.cons.injEq, true_and] at h2
        rcases S with _ | s
        · simp only [Option.map_none', yieldOptExpression, List.nil_append] at h2
          exact (idx.head_ne_expression _ _ _ h2 (by decide)).elim
        · obtain ⟨a, ha1, ha2⟩ := s.single_token (hS s rfl)
          rcases E with _ | e
          · simp only [Option.map_some', Option.map_none', yieldOptExpression, Expression.yield,
              ha1, List.cons_append, List.nil_append] at h2
            obtain ⟨p, -, -, h3⟩ := idx.operand_then_operator _ a (.binary .range) (.lit "]")
              ts ha2 (by decide) h2
            simp [InfixOp.text, BinOp.text] at h3
          · obtain ⟨b, hb1, hb2⟩ := e.single_token (hE e rfl)
            simp only [Option.map_some', yieldOptExpression, Expression.yield, ha1, hb1,
              List.cons_append, List.nil_append] at h2
            rcases idx.two_operands _ a (.binary .range) b (.lit "]" :: ts) ha2 hb2 (by rfl) h2
              with ⟨pa, -, -, h3⟩ | ⟨pa, pb, h3, h4, h5, h6⟩
            · simp [InfixOp.text, BinOp.text] at h3
            · simp only [List.cons.injEq, true_and] at h6
              rw [pa.eq_of_single_token s a h4 ha1, pb.eq_of_single_token e b h5 hb1] at h3
              exact ⟨h6, s, e, rfl, rfl, by rw [h3]; rfl⟩
      · rw [← h2] at hs; simp [closedAt] at hs
/-- A slice expression in front of `x [ s .. e ] ...` is the slice of `x` with these
bounds. -/
theorem SliceExpression.slice_tokens_slice : (i : SliceExpression) → (rest : List Tok) →
    (x : String) → (S E : Option PrimaryExpression) → (ts : List Tok) →
    (∀ p, S = some p → p.yield.length = 1) → (∀ p, E = some p → p.yield.length = 1) →
    closedAt ts = true →
    i.yield ++ rest = .identifier x :: .lit "[" :: (yieldOptExpression (S.map Expression.primary)
      ++ .lit ".." :: (yieldOptExpression (E.map Expression.primary) ++ .lit "]" :: ts)) →
    i = .mk (.identifier x) (S.map Expression.primary) (E.map Expression.primary) ∧ rest = ts
  | .mk o a b, rest, x, S, E, ts, hS, hE, hs, h => by
      have h' : o.yield ++ (.lit "[" :: (yieldOptExpression a ++ .lit ".." ::
          (yieldOptExpression b ++ .lit "]" :: rest)))
          = .identifier x :: .lit "[" :: (yieldOptExpression (S.map Expression.primary)
            ++ .lit ".." :: (yieldOptExpression (E.map Expression.primary) ++ .lit "]" :: ts)) := by
        simpa [SliceExpression.yield] using h
      rcases Addressable.slice_tokens_object o _ x S E ts hS hE hs h' with ⟨rfl, h2⟩ | ⟨h2, -⟩
      · simp only [List.cons.injEq, true_and] at h2
        rcases S with _ | s
        · rcases a with _ | ea
          · simp only [Option.map_none', yieldOptExpression, List.nil_append, List.cons.injEq,
              true_and] at h2
            obtain ⟨rfl, rfl⟩ := end_bound_of_tokens b E rest ts hE h2
            exact ⟨rfl, rfl⟩
          · simp only [Option.map_none', yieldOptExpression, List.nil_append] at h2
            exact (ea.head_ne_expression _ _ _ h2 (by decide)).elim
        · obtain ⟨t, ht1, ht2⟩ := s.single_token (hS s rfl)
          rcases a with _ | ea
          · simp only [Option.map_some', yieldOptExpression, Expression.yield, ht1,
              List.cons_append, List.nil_append, List.cons.injEq] at h2
            rw [← h2.1] at ht2
            exact absurd ht2 (by decide)
          · rcases E with _ | e
            · simp only [Option.map_some', Option.map_none', yieldOptExpression,
                Expression.yield, ht1, List.cons_append, List.nil_append] at h2
              obtain ⟨p, rfl, h3, h4⟩ := ea.operand_then_operator _ t (.binary .range)
                (.lit "]") ts ht2 (by decide) h2
              simp only [InfixOp.text, BinOp.text, List.cons.injEq, true_and] at h4
              obtain ⟨rfl, rfl⟩ := end_bound_of_tokens b none rest ts hE
                (by simpa [yieldOptExpression] using h4)
              rw [p.eq_of_single_token s t h3 ht1]
              exact ⟨rfl, rfl⟩
            · obtain ⟨u, hu1, hu2⟩ := e.single_token (hE e rfl)
              simp only [Option.map_some', yieldOptExpression, Expression.yield, ht1, hu1,
                List.cons_append, List.nil_append] at h2
              rcases ea.two_operands _ t (.binary .range) u (.lit "]" :: ts) ht2 hu2 (by rfl) h2
                with ⟨pa, rfl, h3, h4⟩ | ⟨pa, pb, -, -, -, h6⟩
              · simp only [InfixOp.text, BinOp.text, List.cons.injEq, true_and] at h4
                obtain ⟨rfl, rfl⟩ := end_bound_of_tokens b (some e) rest ts hE
                  (by simpa [yieldOptExpression, Expression.yield, hu1] using h4)
                rw [pa.eq_of_single_token s t h3 ht1]
                exact ⟨rfl, rfl⟩
              · simp at h6
      · rw [← h2] at hs; simp [closedAt] at hs
end

/-- An expression in front of `x [ s .. e ] ...` with optional single-token bounds, where
what follows `]` is neither an operator nor `"["`: the identifier `x`, the slice of `x` with
these bounds, or the index of `x` by the range of both bounds. -/
theorem Expression.slice_tokens_expression : (e : Expression) → (rest : List Tok) →
    (x : String) → (S E : Option PrimaryExpression) → (ts : List Tok) →
    (∀ p, S = some p → p.yield.length = 1) → (∀ p, E = some p → p.yield.length = 1) →
    closedAt ts = true →
    e.yield ++ rest = .identifier x :: .lit "[" :: (yieldOptExpression (S.map Expression.primary)
      ++ .lit ".." :: (yieldOptExpression (E.map Expression.primary) ++ .lit "]" :: ts)) →
    (e = .primary (.identifier x) ∧ rest = .lit "[" ::
      (yieldOptExpression (S.map Expression.primary)
        ++ .lit ".." :: (yieldOptExpression (E.map Expression.primary) ++ .lit "]" :: ts)))
    ∨ (rest = ts
      ∧ (e = .primary (.slice_expression
            (.mk (.identifier x) (S.map Expression.primary) (E.map Expression.primary)))
        ∨ ∃ s b, S = some s ∧ E = some b ∧ e = .primary (.index_expression
            (.mk (.identifier x) (.binary_expression (.primary s) .range (.primary b))))))
  | .primary q, rest, x, S, E, ts, hS, hE, hs, h => by
      cases q with
      | value v =>
          obtain ⟨t1, h1, h2⟩ := v.yield_eq
          simp only [Expression.yield, PrimaryExpression.yield, h1, List.cons_append,
            List.nil_append, List.cons.injEq] at h
          rw [h.1] at h1
          cases v with
          | bool b => cases b <;> simp [Value.yield] at h1
          | _ => simp [Value.yield] at h1
      | identifier s =>
          simp only [Expression.yield, PrimaryExpression.yield, List.cons_append,
            List.nil_append, List.cons.injEq, Tok.identifier.injEq] at h
          exact .inl ⟨by rw [h.1], h.2⟩
      | grouped_expression e => simp [Expression.yield, PrimaryExpression.yield] at h
      | array_expression es => simp [Expression.yield, PrimaryExpression.yield] at h
      | index_expression i =>
          obtain ⟨h1, s, b, h2, h3, h4⟩ := i.slice_tokens_index rest x S E ts hS hE hs
            (by simpa [Expression.yield, PrimaryExpression.yield] using h)
          exact .inr ⟨h1, .inr ⟨s, b, h2, h3, by rw [h4]⟩⟩
      | slice_expression i =>
          obtain ⟨h1, h2⟩ := i.slice_tokens_slice rest x S E ts hS hE hs
            (by simpa [Expression.yield, PrimaryExpression.yield] using h)
          exact .inr ⟨h2, .inl (by rw [h1])⟩
      | method_call m =>
          obtain ⟨s, us, h1⟩ := m.dot_second
          simp [Expression.yield, PrimaryExpression.yield, h1] at h
      | function_call f =>
          obtain ⟨g, args⟩ := f
          simp [Expression.yield, PrimaryExpression.yield, FunctionCall.yield] at h
  | .binary_expression l op r, rest, x, S, E, ts, hS, hE, hs, h => by
      have h' : l.yield ++ (.lit op.text :: (r.yield ++ rest))
          = .identifier x :: .lit "[" :: (yieldOptExpression (S.map Expression.primary)
            ++ .lit ".." :: (yieldOptExpression (E.map Expression.primary) ++ .lit "]" :: ts)) := by
        simpa [Expression.yield] using h
      have h5 : closedAt (Tok.lit op.text :: (r.yield ++ rest)) = false :=
        closedAt_operator (.binary op) _
      rcases Expression.slice_tokens_expression l _ x S E ts hS hE hs h' with ⟨-, h2⟩ | ⟨h2, -⟩
      · simp only [List.cons.injEq, Tok.lit.injEq] at h2
        cases op <;> exact absurd h2.1 (by decide)
      · rw [← h2, h5] at hs; exact absurd hs (by decide)
  | .has_expression l r, rest, x, S, E, ts, hS, hE, hs, h => by
      have h' : l.yield ++ (.lit "has" :: (r.yield ++ rest))
          = .identifier x :: .lit "[" :: (yieldOptExpression (S.map Expression.primary)
            ++ .lit ".." :: (yieldOptExpression (E.map Expression.primary) ++ .lit "]" :: ts)) := by
        simpa [Expression.yield] using h
      have h5 : closedAt (Tok.lit "has" :: (r.yield ++ rest)) = false :=
        closedAt_operator .has _
      rcases Expression.slice_tokens_expression l _ x S E ts hS hE hs h' with ⟨-, h2⟩ | ⟨h2, -⟩
      · simp at h2
      · rw [← h2, h5] at hs; exact absurd hs (by decide)
  | .unary_expression u _, rest, x, S, E, ts, _, _, _, h => by simp [Expression.yield] at h
  | .lambda_block _ _, rest, x, S, E, ts, _, _, _, h => by simp [Expression.yield] at h
  | .lambda_arrow _ _, rest, x, S, E, ts, _, _, _, h => by simp [Expression.yield] at h
  | .dialogue _ _, rest, x, S, E, ts, _, _, _, h => by simp [Expression.yield] at h
  | .skill_check _ _ _ _, rest, x, S, E, ts, _, _, _, h => by simp [Expression.yield] at h

/-- The index of an object by a range is rejected: the closing bracket is shifted for the
slice rule (level 10) before the range (level 5) is complete. -/
theorem IndexExpression.range_index_rejected (o : Addressable) (s e : Expression) :
    (IndexExpression.mk o (.binary_expression s .range e)).resolved = false := by
  simp [IndexExpression.resolved, resolve, BinOp.level, indexLevel]

/-- C18, the claim as stated fails for a start bound with an operator looser than `..`.
The tokens `a [ x or y .. z ]` are the tokens of the slice of `a` with start `x or y` and
end `z`, but that tree is rejected: `or` (level 1) is not complete before `..` (level 5).
The parse is the index expression of `a` whose index is `x or (y .. z)`. -/
theorem slice_start_counterexample :
    (PrimaryExpression.slice_expression (.mk (.identifier "a")
        (some (.binary_expression (.primary (.identifier "x")) .or (.primary (.identifier "y"))))
        (some (.primary (.identifier "z"))))).yield
      = [.identifier "a", .lit "[", .identifier "x", .lit "or", .identifier "y", .lit "..",
          .identifier "z", .lit "]"]
    ∧ ¬ Expression.ParsesAs
        [.identifier "a", .lit "[", .identifier "x", .lit "or", .identifier "y", .lit "..",
          .identifier "z", .lit "]"]
        (.primary (.slice_expression (.mk (.identifier "a")
          (some (.binary_expression (.primary (.identifier "x")) .or
            (.primary (.identifier "y"))))
          (some (.primary (.identifier "z"))))))
    ∧ Expression.ParsesAs
        [.identifier "a", .lit "[", .identifier "x", .lit "or", .identifier "y", .lit "..",
          .identifier "z", .lit "]"]
        (.primary (.index_expression (.mk (.identifier "a")
          (.binary_expression (.primary (.identifier "x")) .or
            (.binary_expression (.primary (.identifier "y")) .range
              (.primary (.identifier "z"))))))) :=
  ⟨rfl, fun h => absurd h.2 (by decide), rfl, by decide⟩

/-- C18, amended.  Slice syntax yields a slice expression with the bounds that were written
when the start is complete before `..` and the end begins with no operator that is not
tighter than `..`; primary bounds always are.  For every addressable object `o`: `o[..]`
and `o[..e]`, for every expression `e`, parse as the slice without start; `o[s..]` and
`o[s..e]` parse as the slice with start `s` when every rule that ends `s` is reduced before
`..` and the left edge of `e` is shifted after `..`.  The index of `o` by the range `s..e`
derives the tokens of `o[s..e]` and is always rejected, since the slice rule's level 10
outranks the level 5 of the range.  For an identifier `x` and bounds of one token each, the
slice with exactly the written bounds is the only tree that derives the tokens and is kept;
in particular `a[1..2]` is the slice with start 1 and end 2. -/
theorem slice_bounds_as_written :
    (∀ (o : Addressable) (e : Option Expression), o.resolved = true →
        resolvedOptExpression e = true →
        Expression.ParsesAs
          (o.yield ++ .lit "[" :: .lit ".." :: (yieldOptExpression e ++ [.lit "]"]))
          (.primary (.slice_expression (.mk o none e))))
    ∧ (∀ (o : Addressable) (s : Expression) (e : Option Expression), o.resolved = true →
        s.resolved = true → resolvedOptExpression e = true →
        s.reducesBefore BinOp.range.level = true →
        (∀ b, e = some b → b.shiftsAfter ⟨BinOp.range.level, some .left⟩ = true) →
        Expression.ParsesAs
          (o.yield ++ .lit "[" :: (s.yield ++ .lit ".." :: (yieldOptExpression e ++ [.lit "]"])))
          (.primary (.slice_expression (.mk o (some s) e))))
    ∧ (∀ p : PrimaryExpression,
        (Expression.primary p).reducesBefore BinOp.range.level = true
        ∧ (Expression.primary p).shiftsAfter ⟨BinOp.range.level, some .left⟩ = true)
    ∧ (∀ (o : Addressable) (s e : Expression),
        (IndexExpression.mk o (.binary_expression s .range e)).yield
          = (SliceExpression.mk o (some s) (some e)).yield
        ∧ (IndexExpression.mk o (.binary_expression s .range e)).resolved = false)
    ∧ (∀ (x : String) (S E : Option PrimaryExpression),
        (∀ p, S = some p → p.yield.length = 1) → (∀ p, E = some p → p.yield.length = 1) →
        Expression.ParsesAs
          (SliceExpression.mk (.identifier x) (S.map Expression.primary)
            (E.map Expression.primary)).yield
          (.primary (.slice_expression (.mk (.identifier x) (S.map Expression.primary)
            (E.map Expression.primary))))
        ∧ ∀ t : Expression, Expression.ParsesAs
            (SliceExpression.mk (.identifier x) (S.map Expression.primary)
              (E.map Expression.primary)).yield t →
          t = .primary (.slice_expression (.mk (.identifier x) (S.map Expression.primary)
            (E.map Expression.primary))))
    ∧ Expression.ParsesAs [.identifier "a", .lit "[", .num "1", .lit "..", .num "2", .lit "]"]
        (.primary (.slice_expression (.mk (.identifier "a")
          (some (.primary (.value (.num "1")))) (some (.primary (.value (.num "2")))))))
    ∧ ¬ Expression.ParsesAs
        [.identifier "a", .lit "[", .num "1", .lit "..", .num "2", .lit "]"]
        (.primary (.index_expression (.mk (.identifier "a")
          (.binary_expression (.primary (.value (.num "1"))) .range
            (.primary (.value (.num "2"))))))) := by
  refine ⟨fun o e ho he => ⟨?_, ?_⟩, fun o s e ho hs he h1 h2 => ⟨?_, ?_⟩, fun p => ⟨rfl, rfl⟩,
    fun o s e => ⟨?_, IndexExpression.range_index_rejected o s e⟩,
    fun x S E hS hE => ⟨⟨rfl, ?_⟩, fun t ht => ?_⟩, ⟨rfl, by decide⟩,
    fun h => absurd h.2 (by decide)⟩
  · simp [Expression.yield, PrimaryExpression.yield, SliceExpression.yield, yieldOptExpression]
  · simp [Expression.resolved, PrimaryExpression.resolved, SliceExpression.resolved, ho, he,
      resolvedOptExpression]
  · simp [Expression.yield, PrimaryExpression.yield, SliceExpression.yield, yieldOptExpression]
  · rcases e with _ | b
    · simp [Expression.resolved, PrimaryExpression.resolved, SliceExpression.resolved, ho, hs,
        resolvedOptExpression, h1]
    · have h3 := h2 b rfl
      have h4 : b.resolved = true := he
      simp [Expression.resolved, PrimaryExpression.resolved, SliceExpression.resolved, ho, hs,
        resolvedOptExpression, h1, h3, h4]
  · simp [IndexExpression.yield, SliceExpression.yield, Expression.yield, yieldOptExpression,
      BinOp.text]
  · rcases S with _ | s <;> rcases E with _ | e
    · rfl
    · simp [Expression.resolved, PrimaryExpression.resolved, SliceExpression.resolved,
        Addressable.resolved, resolvedOptExpression,
        PrimaryExpression.resolved_of_single e (hE e rfl)]
    · simp [Expression.resolved, PrimaryExpression.resolved, SliceExpression.resolved,
        Addressable.resolved, resolvedOptExpression, Expression.reducesBefore,
        PrimaryExpression.resolved_of_single s (hS s rfl)]
    · simp [Expression.resolved, PrimaryExpression.resolved, SliceExpression.resolved,
        Addressable.resolved, resolvedOptExpression, Expression.reducesBefore,
        Expression.shiftsAfter, PrimaryExpression.resolved_of_single s (hS s rfl),
        PrimaryExpression.resolved_of_single e (hE e rfl)]
  · have h := ht.1
    rcases t.slice_tokens_expression [] x S E [] hS hE rfl
      (by simpa [SliceExpression.yield, Addressable.yield] using h) with ⟨-, h2⟩ | ⟨-, h2 | h2⟩
    · simp at h2
    · exact h2
    · obtain ⟨s, b, -, -, h3⟩ := h2
      have h4 := ht.2
      rw [h3] at h4
      simp [Expression.resolved, PrimaryExpression.resolved,
        IndexExpression.range_index_rejected] at h4

/-- The texts of the middle token of `string`: those without a quote. -/
theorem stringContent_iff (s : List Char) :
    Regex.Matches Pattern.stringContent s ↔ Pattern.quote ∉ s := by
  constructor
  · intro h hq
    have := Regex.cls_of_star _ _ h _ hq
    simp at this
  · intro h
    refine Regex.star_of_cls _ s fun c hc => ?_
    have : c ≠ Pattern.quote := fun e => h (e ▸ hc)
    simpa using this

theorem quote_mem_take (b rest : List Char) (m : Nat) (h : b.length < m) :
    Pattern.quote ∈ (b ++ Pattern.quote :: rest).take m := by
  obtain ⟨j, rfl⟩ : ∃ j, m = b.length + (j + 1) := ⟨m - b.length - 1, by omega⟩
  rw [List.take_append, List.take_succ_cons]
  simp

/-- The longest middle token at the start of a text ends before the first quote. -/
theorem stringContent_longest (b rest : List Char) (hb : Pattern.quote ∉ b) :
    Pattern.stringContent.longest (b ++ Pattern.quote :: rest) = some b.length := by
  apply Regex.longest_eq_some
  · simp
  · rw [List.take_left, Regex.accepts_iff_matches, stringContent_iff]
    exact hb
  · intro m h1 _
    rw [Regex.not_accepts_iff, stringContent_iff]
    exact fun h => h (quote_mem_take b rest m h1)

/-- No comment begins at a character other than `/`. -/
theorem comment_longest_none (s : List Char) (h : s.head? ≠ some '/') :
    Pattern.comment.longest s = none := by
  apply Regex.longest_eq_none
  intro m _
  rw [Regex.not_accepts_iff]
  intro hm
  have h2 : ∃ w, List.take m s = '/' :: w := by
    rcases (Regex.matches_alt_iff _ _ _).mp hm with h1 | h1
    · obtain ⟨w, hw, -⟩ := (lineComment_iff _).mp h1
      exact ⟨_, hw⟩
    · obtain ⟨w, hw, -⟩ := (blockComment_iff _).mp h1
      exact ⟨_, hw⟩
  obtain ⟨w, hw⟩ := h2
  cases s with
  | nil => simp at hw
  | cons c s =>
      cases m with
      | zero => simp at hw
      | succ m =>
          simp only [List.take_succ_cons, List.cons.injEq] at hw
          exact h (by simp [hw.1])

/-- A blank at the start of a text ends before the first quote. -/
theorem blank_longest_le (b rest : List Char) :
    (Pattern.blank.longest (b ++ Pattern.quote :: rest)).getD 0 ≤ b.length := by
  have h := Regex.longest_spec Pattern.blank (b ++ Pattern.quote :: rest)
  cases hl : Pattern.blank.longest (b ++ Pattern.quote :: rest) with
  | none => simp
  | some m =>
      rw [hl] at h
      simp only [Option.getD_some]
      by_contra hc
      have h1 := (Regex.accepts_iff_matches _ _).mp h.2.1
      have h2 := Regex.mentions_of_matches _ _ h1 _ (quote_mem_take b rest m (by omega))
      exact absurd h2 (by decide)

/-- A quote, a text without a quote that does not begin with `/`, and a quote are one
`string` node, whatever follows. -/
theorem lexString_plain (b rest : List Char) (hb : Pattern.quote ∉ b)
    (hs : b.head? ≠ some '/') :
    lexString (Pattern.quote :: b ++ Pattern.quote :: rest) = some (b.length + 2) := by
  have h1 := stringContent_longest b rest hb
  have h2 : Pattern.comment.longest (b ++ Pattern.quote :: rest) = none := by
    apply comment_longest_none
    cases b with
    | nil => simp [Pattern.quote]
    | cons c b => simpa using hs
  have h3 := blank_longest_le b rest
  have h4 : lexStringContent ((b ++ Pattern.quote :: rest).length + 1)
      (b ++ Pattern.quote :: rest) = some (Pattern.quote :: rest) := by
    simp only [lexStringContent, h1, h2, Option.getD_some, Option.getD_none]
    rw [if_neg (by omega)]
    simp
  simp only [lexString, List.cons_append, if_true, h4]
  simp only [List.length_cons, List.length_append]
  congr 1
  omega

/-- C16. The rule `string` is `seq('"', /[^"]*/, '"')`, three tokens without `token(...)`:
the middle token matches exactly the texts without a quote, and a quote, any text `b`
without a quote that does not begin with `/`, and a quote are one string node; a backslash
does not escape and a newline is ordinary content.  When the text after the opening quote
begins a comment that reaches the closing quote, the comment is taken as an extra instead:
the five characters `"//x"` are no string node, and the nine characters `"/* " */"` are one
string node that holds a quote. -/
theorem string_takes_comment_between_quotes :
    (∀ s : List Char, Pattern.stringContent.accepts s = true ↔ Pattern.quote ∉ s)
    ∧ (∀ b rest : List Char, Pattern.quote ∉ b → b.head? ≠ some '/' →
        lexString (Pattern.quote :: b ++ Pattern.quote :: rest) = some (b.length + 2))
    ∧ lexString [Pattern.quote, 'a', '\\', Pattern.quote, 'b', Pattern.quote] = some 4
    ∧ lexString [Pattern.quote, 'a', '\n', 'b', Pattern.quote] = some 5
    ∧ lexString [Pattern.quote, Pattern.quote] = some 2
    ∧ (Pattern.quote ∉ ['/', '/', 'x']
      ∧ lexString [Pattern.quote, '/', '/', 'x', Pattern.quote] = none)
    ∧ (Pattern.quote ∈ ['/', '*', ' ', Pattern.quote, ' ', '*', '/']
      ∧ lexString [Pattern.quote, '/', '*', ' ', Pattern.quote, ' ', '*', '/', Pattern.quote]
          = some 9) := by
  refine ⟨fun s => ?_, lexString_plain, by decide, by decide, by decide,
    ⟨by decide, by decide⟩, ⟨by decide, by decide⟩⟩
  rw [Regex.accepts_iff_matches]
  exact stringContent_iff s

end COMP0012Language
